import Mathlib

/-!
# calc: tokenizer, recursive-descent parser and evaluator

A shallow embedding of `calculator/calculator.h` and `calculator/eval.h`
(with the `CheckTokens` harness of `calculator/test.cpp`), followed by the
properties proved about it.

Conventions of the embedding.

* The input stream `std::istream* in_` is the list of characters that are
  still unread; `peek()` on the empty list is `EOF`. A character of the
  `std::string` is a `Char` whose code is the value of the byte.
* `int64_t` values are integers of `Int`; an arithmetic result outside
  `[-2^63, 2^63-1]` and a division by zero are undefined behaviour in C++ and
  are recorded as such, they are not given a value.
* The members `number_` and `symbol_` of `Tokenizer` have no initialiser; they
  are `none` until `Consume` assigns them, and reading `none` is undefined
  behaviour.
* A run yields `Except Fault _`: a value, the exception `std::out_of_range`
  thrown by `std::stoll`, undefined behaviour, or the exhaustion of the
  recursion budget of the embedding (the C++ functions recurse freely; the
  embedding recurses on a natural number).
-/

namespace Calc

/-- Kinds of undefined behaviour the program can run into. -/
inductive UB where
  | signed_overflow
  | division_by_zero
  | uninitialized_read
  deriving DecidableEq, Repr

/-- Ways in which a run fails to return a value. -/
inductive Fault where
  /-- The exception `std::out_of_range`, thrown by `std::stoll`; nothing catches it. -/
  | out_of_range
  /-- Undefined behaviour: no error value is produced and nothing is thrown. -/
  | undefined (why : UB)
  /-- The recursion budget of the embedding ran out (no counterpart in the C++ code). -/
  | fuel
  deriving DecidableEq, Repr

/-- The fault is an error that reaches the caller of `EvaluateExpression`: an
exception, which the caller can catch. Undefined behaviour is no such error. -/
def Fault.reported : Fault → Bool
  | .out_of_range => true
  | .undefined _ => false
  | .fuel => false

/-- Largest `int64_t`, `LLONG_MAX`. -/
def LLONG_MAX : Int := 9223372036854775807

/-- Smallest `int64_t`, `LLONG_MIN`. -/
def LLONG_MIN : Int := -9223372036854775808

/-- The result of an `int64_t` operation whose exact value is `v`: signed
overflow is undefined behaviour. -/
def int64 (v : Int) : Except Fault Int :=
  if LLONG_MIN ≤ v ∧ v ≤ LLONG_MAX then .ok v else .error (.undefined .signed_overflow)

/-! ## Tokenizer -/

/-- The enumeration `Tokenizer::TokenType`. -/
inductive TokenType where
  | kNumber
  | kSymbol
  | kEnd
  deriving DecidableEq, Repr

/-- The class `Tokenizer`: the unread input and the three members. -/
structure Tokenizer where
  in_ : List Char
  type_ : TokenType
  number_ : Option Int
  symbol_ : Option Char
  deriving DecidableEq, Repr

/-- The function `std::isdigit` on a character of the stream. -/
def isdigit (c : Char) : Bool := c.isDigit

/-- The value of a run of decimal digits. -/
def digitsValue (cur_num : List Char) : Nat :=
  cur_num.foldl (fun acc c => 10 * acc + (c.toNat - 48)) 0

/-- The function `std::stoll` on a non-empty run of decimal digits: the value,
or `std::out_of_range` when it does not fit in `long long`. -/
def stoll (cur_num : List Char) : Except Fault Int :=
  if (digitsValue cur_num : Int) ≤ LLONG_MAX then .ok (digitsValue cur_num)
  else .error .out_of_range

/-- The character stored by `symbol_ = in_->peek()` when `peek()` is `EOF`
(the conversion of `-1` to `char`, the byte `0xFF`). -/
def eofChar : Char := Char.ofNat 255

/-- The method `Tokenizer::Consume`. -/
def Tokenizer.Consume (tk : Tokenizer) : Except Fault Tokenizer :=
  match tk.in_ with
  | [] => .ok { tk with type_ := .kEnd }
  | _ :: _ =>
    match tk.in_.dropWhile (fun c => c == ' ') with
    | [] => .ok { tk with in_ := [], type_ := .kSymbol, symbol_ := some eofChar }
    | c :: rest =>
      if isdigit c then
        match stoll ((c :: rest).takeWhile isdigit) with
        | .ok v => .ok { tk with in_ := (c :: rest).dropWhile isdigit,
                                 type_ := .kNumber, number_ := some v }
        | .error e => .error e
      else
        .ok { tk with in_ := rest, type_ := .kSymbol, symbol_ := some c }

/-- The constructor `Tokenizer::Tokenizer`: it calls `Consume` once. The
initial `type_` is never observed, `Consume` assigns it on every path. -/
def Tokenizer.new (input : List Char) : Except Fault Tokenizer :=
  Tokenizer.Consume { in_ := input, type_ := .kEnd, number_ := none, symbol_ := none }

/-- The method `Tokenizer::GetType`. -/
def Tokenizer.GetType (tk : Tokenizer) : TokenType := tk.type_

/-- The method `Tokenizer::GetNumber`. -/
def Tokenizer.GetNumber (tk : Tokenizer) : Except Fault Int :=
  match tk.number_ with
  | some v => .ok v
  | none => .error (.undefined .uninitialized_read)

/-- The method `Tokenizer::GetSymbol`. -/
def Tokenizer.GetSymbol (tk : Tokenizer) : Except Fault Char :=
  match tk.symbol_ with
  | some c => .ok c
  | none => .error (.undefined .uninitialized_read)

/-- The test `tk->GetType() == Tokenizer::kSymbol && tk->GetSymbol() == c`;
`GetSymbol` is only called when the type is `kSymbol`. -/
def Tokenizer.isSymbol (tk : Tokenizer) (c : Char) : Except Fault Bool :=
  if tk.GetType = .kSymbol then
    match tk.GetSymbol with
    | .ok s => .ok (s == c)
    | .error e => .error e
  else .ok false

/-! ## Expression tree -/

/-- The classes derived from `Expression`. The parser builds every child with
`new`, so no child pointer of a tree is null. -/
inductive Expression where
  | Primary (value : Int)
  | Unary (minus : Int) (left : Expression)
  | Add (left right : Expression)
  | Sub (left right : Expression)
  | Mul (left right : Expression)
  | Div (left right : Expression)
  deriving DecidableEq, Repr

/-- The virtual method `Expression::Evaluate`. The tests `if (left)` and
`if (right)` of the binary nodes always succeed, no child is null. -/
def Expression.Evaluate : Expression → Except Fault Int
  | .Primary value => .ok value
  | .Unary minus left =>
    match left.Evaluate with
    | .ok res => int64 (res * minus)
    | .error e => .error e
  | .Add left right =>
    match left.Evaluate with
    | .ok left_value =>
      match right.Evaluate with
      | .ok right_value => int64 (left_value + right_value)
      | .error e => .error e
    | .error e => .error e
  | .Sub left right =>
    match left.Evaluate with
    | .ok left_value =>
      match right.Evaluate with
      | .ok right_value => int64 (left_value - right_value)
      | .error e => .error e
    | .error e => .error e
  | .Mul left right =>
    match left.Evaluate with
    | .ok left_value =>
      match right.Evaluate with
      | .ok right_value => int64 (left_value * right_value)
      | .error e => .error e
    | .error e => .error e
  | .Div left right =>
    match left.Evaluate with
    | .ok left_value =>
      match right.Evaluate with
      | .ok right_value =>
        if right_value = 0 then .error (.undefined .division_by_zero)
        else int64 (Int.tdiv left_value right_value)
      | .error e => .error e
    | .error e => .error e

/-! ## Parser -/

mutual

/-- The function `ParsePrimary`. -/
def ParsePrimary : Nat → Tokenizer → Except Fault (Expression × Tokenizer)
  | 0, _ => .error .fuel
  | n + 1, tk =>
    match tk.isSymbol '(' with
    | .error e => .error e
    | .ok true =>
      match tk.Consume with
      | .error e => .error e
      | .ok tk1 =>
        match ParseAddSub n tk1 with
        | .error e => .error e
        | .ok (res, tk2) =>
          match tk2.Consume with
          | .error e => .error e
          | .ok tk3 => .ok (res, tk3)
    | .ok false =>
      match tk.GetNumber with
      | .error e => .error e
      | .ok value =>
        match tk.Consume with
        | .error e => .error e
        | .ok tk1 => .ok (.Primary value, tk1)

/-- The function `ParseUnary`. -/
def ParseUnary : Nat → Tokenizer → Except Fault (Expression × Tokenizer)
  | 0, _ => .error .fuel
  | n + 1, tk =>
    match tk.isSymbol '-' with
    | .error e => .error e
    | .ok true =>
      match tk.Consume with
      | .error e => .error e
      | .ok tk1 =>
        match ParseUnary n tk1 with
        | .error e => .error e
        | .ok (left, tk2) => .ok (.Unary (-1) left, tk2)
    | .ok false => ParsePrimary n tk

/-- The `while` loop of `ParseMulDiv`, entered with the operand `left`. -/
def MulDivLoop : Nat → Expression → Tokenizer → Except Fault (Expression × Tokenizer)
  | 0, _, _ => .error .fuel
  | n + 1, left, tk =>
    if tk.GetType = .kEnd then .ok (left, tk)
    else
      match tk.isSymbol ')' with
      | .error e => .error e
      | .ok true => .ok (left, tk)
      | .ok false =>
        match tk.GetSymbol with
        | .error e => .error e
        | .ok oper =>
          if oper ≠ '*' ∧ oper ≠ '/' then .ok (left, tk)
          else
            match tk.Consume with
            | .error e => .error e
            | .ok tk1 =>
              match ParseUnary n tk1 with
              | .error e => .error e
              | .ok (right, tk2) =>
                let left1 := if oper = '*' then Expression.Mul left right else left
                let left2 := if oper = '/' then Expression.Div left1 right else left1
                MulDivLoop n left2 tk2

/-- The function `ParseMulDiv`. -/
def ParseMulDiv : Nat → Tokenizer → Except Fault (Expression × Tokenizer)
  | 0, _ => .error .fuel
  | n + 1, tk =>
    match ParseUnary n tk with
    | .error e => .error e
    | .ok (left, tk1) => MulDivLoop n left tk1

/-- The `while` loop of `ParseAddSub`, entered with the operand `left`. -/
def AddSubLoop : Nat → Expression → Tokenizer → Except Fault (Expression × Tokenizer)
  | 0, _, _ => .error .fuel
  | n + 1, left, tk =>
    if tk.GetType = .kEnd then .ok (left, tk)
    else
      match tk.isSymbol ')' with
      | .error e => .error e
      | .ok true => .ok (left, tk)
      | .ok false =>
        match tk.GetSymbol with
        | .error e => .error e
        | .ok oper =>
          if oper ≠ '+' ∧ oper ≠ '-' then .ok (left, tk)
          else
            match tk.Consume with
            | .error e => .error e
            | .ok tk1 =>
              match ParseMulDiv n tk1 with
              | .error e => .error e
              | .ok (right, tk2) =>
                let left1 := if oper = '+' then Expression.Add left right else left
                let left2 := if oper = '-' then Expression.Sub left1 right else left1
                AddSubLoop n left2 tk2

/-- The function `ParseAddSub`. -/
def ParseAddSub : Nat → Tokenizer → Except Fault (Expression × Tokenizer)
  | 0, _ => .error .fuel
  | n + 1, tk =>
    match ParseMulDiv n tk with
    | .error e => .error e
    | .ok (left, tk1) => AddSubLoop n left tk1

end

/-- The function `ParseExpression`. -/
def ParseExpression (fuel : Nat) (tk : Tokenizer) : Except Fault (Expression × Tokenizer) :=
  ParseAddSub fuel tk

/-- The recursion budget given to the parser for an input text: every call of
a parsing function and every iteration of a loop takes one unit, and between
two of them that take a unit at the same nesting the tokenizer consumes a
character. -/
def budget (expression : List Char) : Nat := 4 * expression.length + 4

/-- The first three statements of `EvaluateExpression`: the tree parsed from a text. -/
def parseTree (expression : List Char) : Except Fault Expression :=
  match Tokenizer.new expression with
  | .error e => .error e
  | .ok tokenizer =>
    match ParseExpression (budget expression) tokenizer with
    | .error e => .error e
    | .ok (expr, _) => .ok expr

/-- The function `EvaluateExpression` of `eval.h`. -/
def EvaluateExpression (expression : List Char) : Except Fault Int :=
  match parseTree expression with
  | .error e => .error e
  | .ok expr => expr.Evaluate

/-- Equality of outcomes is decidable. -/
instance instDecidableEqOutcome {α : Type} [DecidableEq α] : DecidableEq (Except Fault α)
  | .ok a, .ok b =>
    if h : a = b then isTrue (by rw [h]) else isFalse (fun h1 => h (Except.ok.inj h1))
  | .error e, .error f =>
    if h : e = f then isTrue (by rw [h]) else isFalse (fun h1 => h (Except.error.inj h1))
  | .ok _, .error _ => isFalse (fun h => by cases h)
  | .error _, .ok _ => isFalse (fun h => by cases h)

/-! ## Texts -/

/-- A run of `k` space characters. -/
def spaces (k : Nat) : List Char := List.replicate k ' '

/-- The decimal representation of a natural number, as `Nat.repr` prints it. -/
def decimal (n : Nat) : List Char := Nat.toDigits 10 n

/-- The type `Token` of `test.cpp`, `std::variant<int64_t, char>`. -/
inductive Token where
  | number (v : Int)
  | symbol (c : Char)
  deriving DecidableEq, Repr

/-- The characters that spell a token. -/
def Token.text : Token → List Char
  | .number v => decimal v.toNat
  | .symbol c => [c]

/-- A text that spells the tokens in order, each preceded by a run of spaces
(possibly empty) and with nothing after the last token. -/
inductive Spaced : List Token → List Char → Prop where
  | nil : Spaced [] []
  | cons (k : Nat) (t : Token) {ts : List Token} {w : List Char} :
      Spaced ts w → Spaced (t :: ts) (spaces k ++ (t.text ++ w))

/-- The text that spells a list of tokens, each preceded by the given number of
spaces. -/
def render : List (Nat × Token) → List Char
  | [] => []
  | (k, t) :: r => spaces k ++ (t.text ++ render r)

/-! ## Grammar

The grammar of the specification,

    sum      := product ( ('+' | '-') product )*
    product  := unary ( ('*' | '/') unary )*
    unary    := '-' unary | primary
    primary  := NUMBER | '(' sum ')'

as derivations over token sequences that carry the tree a derivation denotes.
A repetition `( op x )*` is a nonterminal of its own, indexed by the operand
that stands to its left. -/

/-- The nonterminals. -/
inductive NT where
  | primary
  | unary
  | product
  | sum
  | productRest (left : Expression)
  | sumRest (left : Expression)

/-- The derivations of the grammar: `Derives nt ts e` says that the token
sequence `ts` is derived from `nt` and denotes the tree `e`. Literals are in
`[0, LLONG_MAX]`. -/
inductive Derives : NT → List Token → Expression → Prop where
  | number (n : Nat) (h : (n : Int) ≤ LLONG_MAX) :
      Derives .primary [.number n] (.Primary n)
  | paren {ts : List Token} {e : Expression} :
      Derives .sum ts e → Derives .primary (.symbol '(' :: ts ++ [.symbol ')']) e
  | neg {ts : List Token} {e : Expression} :
      Derives .unary ts e → Derives .unary (.symbol '-' :: ts) (.Unary (-1) e)
  | prim {ts : List Token} {e : Expression} :
      Derives .primary ts e → Derives .unary ts e
  | product {ts ts1 : List Token} {l e : Expression} :
      Derives .unary ts l → Derives (.productRest l) ts1 e → Derives .product (ts ++ ts1) e
  | productEnd (l : Expression) : Derives (.productRest l) [] l
  | mul {ts ts1 : List Token} {l r e : Expression} :
      Derives .unary ts r → Derives (.productRest (.Mul l r)) ts1 e →
      Derives (.productRest l) (.symbol '*' :: ts ++ ts1) e
  | div {ts ts1 : List Token} {l r e : Expression} :
      Derives .unary ts r → Derives (.productRest (.Div l r)) ts1 e →
      Derives (.productRest l) (.symbol '/' :: ts ++ ts1) e
  | sum {ts ts1 : List Token} {l e : Expression} :
      Derives .product ts l → Derives (.sumRest l) ts1 e → Derives .sum (ts ++ ts1) e
  | sumEnd (l : Expression) : Derives (.sumRest l) [] l
  | add {ts ts1 : List Token} {l r e : Expression} :
      Derives .product ts r → Derives (.sumRest (.Add l r)) ts1 e →
      Derives (.sumRest l) (.symbol '+' :: ts ++ ts1) e
  | sub {ts ts1 : List Token} {l r e : Expression} :
      Derives .product ts r → Derives (.sumRest (.Sub l r)) ts1 e →
      Derives (.sumRest l) (.symbol '-' :: ts ++ ts1) e

/-- The parsing function of a nonterminal. -/
def parseNT : NT → Nat → Tokenizer → Except Fault (Expression × Tokenizer)
  | .primary => ParsePrimary
  | .unary => ParseUnary
  | .product => ParseMulDiv
  | .sum => ParseAddSub
  | .productRest left => fun n => MulDivLoop n left
  | .sumRest left => fun n => AddSubLoop n left

/-- A recursion budget that suffices to parse `k` tokens derived from a nonterminal. -/
def need : NT → Nat → Nat
  | .primary, k => 4 * k - 3
  | .unary, k => 4 * k - 2
  | .product, k => 4 * k - 1
  | .sum, k => 4 * k
  | .productRest _, k => 4 * k + 1
  | .sumRest _, k => 4 * k + 1

/-- The operator characters that must not follow text derived from a nonterminal. -/
def stopOps : NT → List Char
  | .primary => []
  | .unary => []
  | .product => ['*', '/']
  | .productRest _ => ['*', '/']
  | .sum => ['+', '-', '*', '/']
  | .sumRest _ => ['+', '-', '*', '/']

/-- The text does not begin with a decimal digit. -/
def NoDigitAhead (rest : List Char) : Prop := ∀ c ∈ rest.head?, isdigit c = false

/-- What may follow a parsed piece of text: spaces up to the end of the input,
or spaces and then a character that is not a digit and not one of `ops`. (After
spaces at the end of the input the tokenizer reports the symbol `eofChar`, which
is none of the operators.) -/
def Stop (ops : List Char) (rest : List Char) : Prop :=
  (∃ k, rest = spaces k ∧ eofChar ∉ ops) ∨
  (∃ k c r, rest = spaces k ++ c :: r ∧ isdigit c = false ∧ c ≠ ' ' ∧ c ∉ ops)

/-- The current token ends an operator loop for the operators `ops`. -/
def Halts (ops : List Char) (tk : Tokenizer) : Prop :=
  tk.type_ = .kEnd ∨ (tk.type_ = .kSymbol ∧ ∃ c, tk.symbol_ = some c ∧ c ∉ ops)

/-- Parsing the text `w` in front of `rest` with the function of `nt` yields the
tree `e` and leaves the tokenizer on the first token of `rest`: for every state
of the members before `w` is lexed, `Consume` lexes the first token of `w`, the
parsing function returns `e`, and the tokenizer it returns is the result of a
`Consume` in a state whose unread input is `rest`. -/
def ParsesTo (nt : NT) (fuel : Nat) (w rest : List Char) (e : Expression) : Prop :=
  ∀ (ty : TokenType) (num : Option Int) (sym : Option Char),
    ∃ tk tk1 tk2, Tokenizer.Consume ⟨w ++ rest, ty, num, sym⟩ = .ok tk ∧
      tk1.in_ = rest ∧ Tokenizer.Consume tk1 = .ok tk2 ∧
      parseNT nt fuel tk = .ok (e, tk2)

/-- The four binary operators. -/
inductive Op where
  | add
  | sub
  | mul
  | div
  deriving DecidableEq, Repr

/-- The character of an operator. -/
def Op.char : Op → Char
  | .add => '+'
  | .sub => '-'
  | .mul => '*'
  | .div => '/'

/-- The node the parser builds for an operator. -/
def Op.node : Op → Expression → Expression → Expression
  | .add => .Add
  | .sub => .Sub
  | .mul => .Mul
  | .div => .Div

/-- The operators `+` and `-` of the level `sum`. -/
def Op.additive : Op → Bool
  | .add => true
  | .sub => true
  | .mul => false
  | .div => false

/-- The text that spells a list of tokens without any space. -/
def tight (ts : List Token) : List Char := render (ts.map (fun t => (0, t)))

/-- The tokens `ts` enclosed in `k` pairs of parentheses. -/
def wrap (k : Nat) (ts : List Token) : List Token :=
  List.replicate k (.symbol '(') ++ ts ++ List.replicate k (.symbol ')')

/-! ## The harness `CheckTokens` of `test.cpp` -/

/-- The `for` loop and the final `REQUIRE` of `CheckTokens`: `true` when every
`REQUIRE` holds, `false` when one fails. -/
def checkLoop : List Token → Tokenizer → Except Fault Bool
  | [], tokenizer => .ok (tokenizer.GetType == .kEnd)
  | .number number :: tokens, tokenizer =>
    if tokenizer.GetType = .kNumber then
      match tokenizer.GetNumber with
      | .error e => .error e
      | .ok v =>
        if v = number then
          match tokenizer.Consume with
          | .error e => .error e
          | .ok tokenizer1 => checkLoop tokens tokenizer1
        else .ok false
    else .ok false
  | .symbol c :: tokens, tokenizer =>
    if tokenizer.GetType = .kSymbol then
      match tokenizer.GetSymbol with
      | .error e => .error e
      | .ok s =>
        if s = c then
          match tokenizer.Consume with
          | .error e => .error e
          | .ok tokenizer1 => checkLoop tokens tokenizer1
        else .ok false
    else .ok false

/-- The function `CheckTokens` of `test.cpp`. -/
def CheckTokens (expression : List Char) (tokens : List Token) : Except Fault Bool :=
  match Tokenizer.new expression with
  | .error e => .error e
  | .ok tokenizer => checkLoop tokens tokenizer

/-- A token is a number. -/
def Token.isNumber : Token → Bool
  | .number _ => true
  | .symbol _ => false

/-- A token that a text can spell: a number in `[0, LLONG_MAX]`, or a symbol
whose character is neither a decimal digit nor a space. -/
def TokenOk : Token → Prop
  | .number v => 0 ≤ v ∧ v ≤ LLONG_MAX
  | .symbol c => isdigit c = false ∧ c ≠ ' '

/-- Two adjacent numbers are separated by at least one space. -/
def Separated (l : List (Nat × Token)) : Prop :=
  l.Chain' (fun p q => p.2.isNumber = true → q.2.isNumber = true → 1 ≤ q.1)

/-! ## Reaching a subexpression -/

/-- The evaluation of a tree reaches the evaluation of a subexpression: the
subexpression is the tree itself, or it is reached in the operand of a negation,
in the left operand of a binary node, or in the right operand of a binary node
whose left operand has been evaluated to a value (`Evaluate` evaluates the left
operand first). -/
inductive Reaches : Expression → Expression → Prop where
  | here (e : Expression) : Reaches e e
  | unary {m : Int} {l d : Expression} : Reaches l d → Reaches (.Unary m l) d
  | left (o : Op) {l r d : Expression} : Reaches l d → Reaches (o.node l r) d
  | right (o : Op) {l r d : Expression} {v : Int} :
      l.Evaluate = .ok v → Reaches r d → Reaches (o.node l r) d

/-! ## The exact value of a tree -/

/-- The exact mathematical value of a tree, in the words of the specification:
a literal is its value, a negation is minus its operand, `Add`, `Sub` and `Mul`
are the integer operations and `Div` is the quotient truncated toward zero. -/
def exactValue : Expression → Int
  | .Primary value => value
  | .Unary _ left => -(exactValue left)
  | .Add left right => exactValue left + exactValue right
  | .Sub left right => exactValue left - exactValue right
  | .Mul left right => exactValue left * exactValue right
  | .Div left right => Int.tdiv (exactValue left) (exactValue right)

/-- Every `Unary` node of the tree is a negation: its factor `minus` is `-1`,
as `ParseUnary` builds it. -/
def Negations : Expression → Bool
  | .Primary _ => true
  | .Unary minus left => decide (minus = -1) && Negations left
  | .Add left right => Negations left && Negations right
  | .Sub left right => Negations left && Negations right
  | .Mul left right => Negations left && Negations right
  | .Div left right => Negations left && Negations right

/-- The integer is an `int64_t`. -/
def fits (v : Int) : Bool := decide (LLONG_MIN ≤ v) && decide (v ≤ LLONG_MAX)

/-- The exact value of every subexpression of the tree, the tree included, is
an `int64_t`. -/
def InRange : Expression → Bool
  | .Primary value => fits value
  | .Unary minus left => fits (exactValue (.Unary minus left)) && InRange left
  | .Add left right => fits (exactValue (.Add left right)) && InRange left && InRange right
  | .Sub left right => fits (exactValue (.Sub left right)) && InRange left && InRange right
  | .Mul left right => fits (exactValue (.Mul left right)) && InRange left && InRange right
  | .Div left right => fits (exactValue (.Div left right)) && InRange left && InRange right

/-- No `Div` node of the tree has a right operand that evaluates to `0`. -/
def NoZeroDivisor : Expression → Bool
  | .Primary _ => true
  | .Unary _ left => NoZeroDivisor left
  | .Add left right => NoZeroDivisor left && NoZeroDivisor right
  | .Sub left right => NoZeroDivisor left && NoZeroDivisor right
  | .Mul left right => NoZeroDivisor left && NoZeroDivisor right
  | .Div left right =>
    decide (right.Evaluate ≠ .ok 0) && NoZeroDivisor left && NoZeroDivisor right

/-! ## Printing a tree -/

/-- Every literal of the tree lies in `[0, LLONG_MAX]`. -/
def Literals : Expression → Bool
  | .Primary value => decide (0 ≤ value) && decide (value ≤ LLONG_MAX)
  | .Unary _ left => Literals left
  | .Add left right => Literals left && Literals right
  | .Sub left right => Literals left && Literals right
  | .Mul left right => Literals left && Literals right
  | .Div left right => Literals left && Literals right

/-- The print of a tree with every negation and every binary subexpression,
the tree itself included, in parentheses. -/
def print : Expression → List Char
  | .Primary value => decimal value.toNat
  | .Unary _ left => '(' :: '-' :: (print left ++ [')'])
  | .Add left right => '(' :: (print left ++ '+' :: (print right ++ [')']))
  | .Sub left right => '(' :: (print left ++ '-' :: (print right ++ [')']))
  | .Mul left right => '(' :: (print left ++ '*' :: (print right ++ [')']))
  | .Div left right => '(' :: (print left ++ '/' :: (print right ++ [')']))

/-- The print of a tree with every negation and every binary subexpression in
parentheses, except for the tree itself. -/
def printOuter : Expression → List Char
  | .Primary value => decimal value.toNat
  | .Unary _ left => '-' :: print left
  | .Add left right => print left ++ '+' :: print right
  | .Sub left right => print left ++ '-' :: print right
  | .Mul left right => print left ++ '*' :: print right
  | .Div left right => print left ++ '/' :: print right

/-- The tokens of `print`. -/
def printTokens : Expression → List Token
  | .Primary value => [.number value]
  | .Unary _ left => .symbol '(' :: (.symbol '-' :: printTokens left) ++ [.symbol ')']
  | .Add left right =>
    .symbol '(' :: (printTokens left ++ .symbol '+' :: printTokens right) ++ [.symbol ')']
  | .Sub left right =>
    .symbol '(' :: (printTokens left ++ .symbol '-' :: printTokens right) ++ [.symbol ')']
  | .Mul left right =>
    .symbol '(' :: (printTokens left ++ .symbol '*' :: printTokens right) ++ [.symbol ')']
  | .Div left right =>
    .symbol '(' :: (printTokens left ++ .symbol '/' :: printTokens right) ++ [.symbol ')']

/-- The tokens of `printOuter`. -/
def printOuterTokens : Expression → List Token
  | .Primary value => [.number value]
  | .Unary _ left => .symbol '-' :: printTokens left
  | .Add left right => printTokens left ++ .symbol '+' :: printTokens right
  | .Sub left right => printTokens left ++ .symbol '-' :: printTokens right
  | .Mul left right => printTokens left ++ .symbol '*' :: printTokens right
  | .Div left right => printTokens left ++ .symbol '/' :: printTokens right

/-! ## Repeated `Consume` -/

/-- The tokenizer after `n` further calls of `Consume`. -/
def Tokenizer.ConsumeN : Nat → Tokenizer → Except Fault Tokenizer
  | 0, tk => .ok tk
  | n + 1, tk =>
    match tk.Consume with
    | .error e => .error e
    | .ok tk1 => Tokenizer.ConsumeN n tk1

/-- The tokenizer constructed on an input text, after `n` further calls of `Consume`. -/
def tokenizerAfter (input : List Char) (n : Nat) : Except Fault Tokenizer :=
  match Tokenizer.new input with
  | .error e => .error e
  | .ok tk => Tokenizer.ConsumeN n tk

/-! ## Measures -/

/-- The number of nodes of a tree. -/
def Expression.size : Expression → Nat
  | .Primary _ => 1
  | .Unary _ left => left.size + 1
  | .Add left right => left.size + right.size + 1
  | .Sub left right => left.size + right.size + 1
  | .Mul left right => left.size + right.size + 1
  | .Div left right => left.size + right.size + 1

/-- One for a current token that is a number or a symbol, zero at `kEnd`. -/
def Tokenizer.pending (tk : Tokenizer) : Nat := if tk.type_ = .kEnd then 0 else 1

/-- What the tokenizer has still to hand over: the unread characters and the
current token. -/
def Tokenizer.remaining (tk : Tokenizer) : Nat := tk.in_.length + tk.pending

/-- A tokenizer at `kEnd` has no unread input. Every tokenizer that `Consume`
returns is such. -/
def Tokenizer.Settled (tk : Tokenizer) : Prop := tk.type_ = .kEnd → tk.in_ = []

/-! ## Counting the calls of the parsing functions

The number of calls of `ParsePrimary`, `ParseUnary`, `ParseMulDiv` and
`ParseAddSub` that a run makes, as a function of the same arguments: each
function follows the control flow of the parsing function it counts and takes
the tokenizer after an operand from the parsing function itself. -/

mutual

/-- The calls made by `ParsePrimary n tk`, itself included. -/
def callsPrimary : Nat → Tokenizer → Nat
  | 0, _ => 0
  | n + 1, tk =>
    match tk.isSymbol '(' with
    | .error _ => 1
    | .ok true =>
      match tk.Consume with
      | .error _ => 1
      | .ok tk1 => 1 + callsAddSub n tk1
    | .ok false => 1

/-- The calls made by `ParseUnary n tk`, itself included. -/
def callsUnary : Nat → Tokenizer → Nat
  | 0, _ => 0
  | n + 1, tk =>
    match tk.isSymbol '-' with
    | .error _ => 1
    | .ok true =>
      match tk.Consume with
      | .error _ => 1
      | .ok tk1 => 1 + callsUnary n tk1
    | .ok false => 1 + callsPrimary n tk

/-- The calls made by the loop of `ParseMulDiv`. -/
def callsMulDivLoop : Nat → Tokenizer → Nat
  | 0, _ => 0
  | n + 1, tk =>
    if tk.GetType = .kEnd then 0
    else
      match tk.isSymbol ')' with
      | .error _ => 0
      | .ok true => 0
      | .ok false =>
        match tk.GetSymbol with
        | .error _ => 0
        | .ok oper =>
          if oper ≠ '*' ∧ oper ≠ '/' then 0
          else
            match tk.Consume with
            | .error _ => 0
            | .ok tk1 =>
              match ParseUnary n tk1 with
              | .error _ => callsUnary n tk1
              | .ok (_, tk2) => callsUnary n tk1 + callsMulDivLoop n tk2

/-- The calls made by `ParseMulDiv n tk`, itself included. -/
def callsMulDiv : Nat → Tokenizer → Nat
  | 0, _ => 0
  | n + 1, tk =>
    match ParseUnary n tk with
    | .error _ => 1 + callsUnary n tk
    | .ok (_, tk1) => 1 + callsUnary n tk + callsMulDivLoop n tk1

/-- The calls made by the loop of `ParseAddSub`. -/
def callsAddSubLoop : Nat → Tokenizer → Nat
  | 0, _ => 0
  | n + 1, tk =>
    if tk.GetType = .kEnd then 0
    else
      match tk.isSymbol ')' with
      | .error _ => 0
      | .ok true => 0
      | .ok false =>
        match tk.GetSymbol with
        | .error _ => 0
        | .ok oper =>
          if oper ≠ '+' ∧ oper ≠ '-' then 0
          else
            match tk.Consume with
            | .error _ => 0
            | .ok tk1 =>
              match ParseMulDiv n tk1 with
              | .error _ => callsMulDiv n tk1
              | .ok (_, tk2) => callsMulDiv n tk1 + callsAddSubLoop n tk2

/-- The calls made by `ParseAddSub n tk`, itself included. -/
def callsAddSub : Nat → Tokenizer → Nat
  | 0, _ => 0
  | n + 1, tk =>
    match ParseMulDiv n tk with
    | .error _ => 1 + callsMulDiv n tk
    | .ok (_, tk1) => 1 + callsMulDiv n tk + callsAddSubLoop n tk1

end

/-! ## Lemmas on decimal representations -/

theorem digitChar_spec : ∀ d, d < 10 →
    isdigit (Nat.digitChar d) = true ∧ (Nat.digitChar d).toNat - 48 = d := by
  decide

theorem digitsValue_append_singleton (l : List Char) (c : Char) :
    digitsValue (l ++ [c]) = 10 * digitsValue l + (c.toNat - 48) := by
  simp [digitsValue, List.foldl_append]

theorem toDigitsCore_spec : ∀ (f n : Nat) (ds : List Char), n < f →
    ∃ l, Nat.toDigitsCore 10 f n ds = l ++ ds ∧ l ≠ [] ∧
      (∀ c ∈ l, isdigit c = true) ∧ digitsValue l = n := by
  intro f
  induction f with
  | zero => intro n ds h; omega
  | succ f ih =>
    intro n ds h
    have hd := digitChar_spec (n % 10) (Nat.mod_lt _ (by decide))
    by_cases h0 : n / 10 = 0
    · refine ⟨[Nat.digitChar (n % 10)], ?_, by simp, ?_, ?_⟩
      · simp [Nat.toDigitsCore, h0]
      · intro c hc
        rw [List.mem_singleton] at hc
        rw [hc]; exact hd.1
      · have := digitsValue_append_singleton [] (Nat.digitChar (n % 10))
        simp only [List.nil_append] at this
        rw [this, hd.2]
        simp [digitsValue]
        omega
    · obtain ⟨l, hl, _, hdig, hval⟩ := ih (n / 10) (Nat.digitChar (n % 10) :: ds) (by omega)
      refine ⟨l ++ [Nat.digitChar (n % 10)], ?_, by simp, ?_, ?_⟩
      · simp [Nat.toDigitsCore, h0, hl]
      · intro c hc
        rcases List.mem_append.1 hc with hc | hc
        · exact hdig c hc
        · rw [List.mem_singleton] at hc
          rw [hc]; exact hd.1
      · rw [digitsValue_append_singleton, hval, hd.2]
        omega

theorem decimal_spec (n : Nat) :
    decimal n ≠ [] ∧ (∀ c ∈ decimal n, isdigit c = true) ∧ digitsValue (decimal n) = n := by
  obtain ⟨l, hl, hne, hdig, hval⟩ := toDigitsCore_spec (n + 1) n [] (by omega)
  have : decimal n = l := by simpa [decimal, Nat.toDigits] using hl
  rw [this]
  exact ⟨hne, hdig, hval⟩

/-! ## Lemmas on `Consume` -/

theorem dropWhile_spaces_append (k : Nat) (l : List Char) :
    (spaces k ++ l).dropWhile (fun c => c == ' ') = l.dropWhile (fun c => c == ' ') := by
  induction k with
  | zero => simp [spaces]
  | succ k ih =>
    simp only [spaces, List.replicate_succ, List.cons_append] at ih ⊢
    rw [List.dropWhile_cons_of_pos (by simp)]
    exact ih

theorem takeWhile_digits (ds rest : List Char) (hd : ∀ c ∈ ds, isdigit c = true)
    (hr : NoDigitAhead rest) : (ds ++ rest).takeWhile isdigit = ds := by
  rw [List.takeWhile_append_of_pos hd]
  cases rest with
  | nil => simp
  | cons c r =>
    have : isdigit c = false := hr c (by simp)
    simp [List.takeWhile_cons, this]

theorem dropWhile_digits (ds rest : List Char) (hd : ∀ c ∈ ds, isdigit c = true)
    (hr : NoDigitAhead rest) : (ds ++ rest).dropWhile isdigit = rest := by
  rw [List.dropWhile_append_of_pos hd]
  cases rest with
  | nil => simp
  | cons c r =>
    have : isdigit c = false := hr c (by simp)
    simp [List.dropWhile_cons, this]

/-- Lexing a run of digits that fits in `int64_t`. -/
theorem Consume_digits (k : Nat) (ds rest : List Char) (ty : TokenType)
    (num : Option Int) (sym : Option Char)
    (hne : ds ≠ []) (hd : ∀ c ∈ ds, isdigit c = true) (hr : NoDigitAhead rest)
    (hv : (digitsValue ds : Int) ≤ LLONG_MAX) :
    Tokenizer.Consume ⟨spaces k ++ (ds ++ rest), ty, num, sym⟩ =
      .ok ⟨rest, .kNumber, some (digitsValue ds), sym⟩ := by
  obtain ⟨d, ds1, rfl⟩ := List.exists_cons_of_ne_nil hne
  have hdd : isdigit d = true := hd d (by simp)
  have hsp : d ≠ ' ' := by
    intro h; rw [h] at hdd; revert hdd; decide
  have h1 : (spaces k ++ (d :: ds1 ++ rest)).dropWhile (fun c => c == ' ') =
      d :: (ds1 ++ rest) := by
    rw [dropWhile_spaces_append]
    simp [List.dropWhile_cons, hsp]
  have h2 := takeWhile_digits (d :: ds1) rest hd hr
  have h3 := dropWhile_digits (d :: ds1) rest hd hr
  simp only [List.cons_append] at h1 h2 h3
  unfold Tokenizer.Consume
  cases hin : spaces k ++ (d :: ds1 ++ rest) with
  | nil => cases k <;> simp [spaces, List.replicate_succ] at hin
  | cons x xs =>
    simp only [List.cons_append] at hin
    simp only [List.cons_append, hin]
    rw [← hin, h1]
    simp only [hdd, if_true, h2, h3, stoll, hv]

/-- Lexing a run of digits that does not fit in `int64_t`: `std::stoll` throws. -/
theorem Consume_digits_overflow (k : Nat) (ds rest : List Char) (ty : TokenType)
    (num : Option Int) (sym : Option Char)
    (hne : ds ≠ []) (hd : ∀ c ∈ ds, isdigit c = true) (hr : NoDigitAhead rest)
    (hv : LLONG_MAX < (digitsValue ds : Int)) :
    Tokenizer.Consume ⟨spaces k ++ (ds ++ rest), ty, num, sym⟩ = .error .out_of_range := by
  obtain ⟨d, ds1, rfl⟩ := List.exists_cons_of_ne_nil hne
  have hdd : isdigit d = true := hd d (by simp)
  have hsp : d ≠ ' ' := by
    intro h; rw [h] at hdd; revert hdd; decide
  have h1 : (spaces k ++ (d :: ds1 ++ rest)).dropWhile (fun c => c == ' ') =
      d :: (ds1 ++ rest) := by
    rw [dropWhile_spaces_append]
    simp [List.dropWhile_cons, hsp]
  have h2 := takeWhile_digits (d :: ds1) rest hd hr
  simp only [List.cons_append] at h1 h2
  unfold Tokenizer.Consume
  cases hin : spaces k ++ (d :: ds1 ++ rest) with
  | nil => cases k <;> simp [spaces, List.replicate_succ] at hin
  | cons x xs =>
    simp only [List.cons_append] at hin
    simp only [List.cons_append, hin]
    rw [← hin, h1]
    simp only [hdd, if_true, h2, stoll, not_le.2 hv, if_false]

/-- Lexing a character that is neither a digit nor a space. -/
theorem Consume_symbol (k : Nat) (c : Char) (rest : List Char) (ty : TokenType)
    (num : Option Int) (sym : Option Char)
    (hd : isdigit c = false) (hs : c ≠ ' ') :
    Tokenizer.Consume ⟨spaces k ++ c :: rest, ty, num, sym⟩ =
      .ok ⟨rest, .kSymbol, num, some c⟩ := by
  have h1 : (spaces k ++ c :: rest).dropWhile (fun c => c == ' ') = c :: rest := by
    rw [dropWhile_spaces_append]
    simp [List.dropWhile_cons, hs]
  unfold Tokenizer.Consume
  cases hin : spaces k ++ c :: rest with
  | nil => cases k <;> simp [spaces, List.replicate_succ] at hin
  | cons x xs =>
    simp only [hin]
    rw [← hin, h1]
    simp only [hd]
    rfl

/-- At the end of the input the token is `kEnd`. -/
theorem Consume_nil (ty : TokenType) (num : Option Int) (sym : Option Char) :
    Tokenizer.Consume ⟨[], ty, num, sym⟩ = .ok ⟨[], .kEnd, num, sym⟩ := rfl

/-- Spaces that run up to the end of the input give a symbol token that holds
the converted `EOF`. -/
theorem Consume_trailing_spaces (k : Nat) (ty : TokenType) (num : Option Int)
    (sym : Option Char) :
    Tokenizer.Consume ⟨spaces (k + 1), ty, num, sym⟩ = .ok ⟨[], .kSymbol, num, some eofChar⟩ := by
  have h1 : (spaces (k + 1)).dropWhile (fun c => c == ' ') = [] := by
    have := dropWhile_spaces_append (k + 1) []
    simpa using this
  unfold Tokenizer.Consume
  cases hin : spaces (k + 1) with
  | nil => simp [spaces, List.replicate_succ] at hin
  | cons x xs =>
    simp only [hin]
    rw [← hin, h1]

/-! ## Lemmas on spaced texts and on what follows them -/

theorem spaced_nil_inv {w : List Char} (h : Spaced [] w) : w = [] := by
  cases h; rfl

theorem spaced_cons_inv {t : Token} {ts : List Token} {w : List Char}
    (h : Spaced (t :: ts) w) : ∃ k w1, w = spaces k ++ (t.text ++ w1) ∧ Spaced ts w1 := by
  cases h with
  | cons k _ h1 => exact ⟨k, _, rfl, h1⟩

theorem spaced_append_inv : ∀ (ts1 : List Token) {ts2 : List Token} {w : List Char},
    Spaced (ts1 ++ ts2) w → ∃ w1 w2, w = w1 ++ w2 ∧ Spaced ts1 w1 ∧ Spaced ts2 w2 := by
  intro ts1
  induction ts1 with
  | nil => intro ts2 w h; exact ⟨[], w, rfl, Spaced.nil, h⟩
  | cons t ts1 ih =>
    intro ts2 w h
    obtain ⟨k, w0, rfl, h0⟩ := spaced_cons_inv h
    obtain ⟨w1, w2, rfl, h1, h2⟩ := ih h0
    exact ⟨spaces k ++ (t.text ++ w1), w2, by simp, Spaced.cons k t h1, h2⟩

theorem spaced_append {ts1 ts2 : List Token} {w1 w2 : List Char}
    (h1 : Spaced ts1 w1) (h2 : Spaced ts2 w2) : Spaced (ts1 ++ ts2) (w1 ++ w2) := by
  induction h1 with
  | nil => simpa using h2
  | cons k t _ ih =>
    have := Spaced.cons k t ih
    simpa using this

theorem spaced_render (l : List (Nat × Token)) : Spaced (l.map Prod.snd) (render l) := by
  induction l with
  | nil => exact Spaced.nil
  | cons a l ih =>
    obtain ⟨k, t⟩ := a
    exact Spaced.cons k t ih

theorem spaced_length {ts : List Token} {w : List Char} (h : Spaced ts w) :
    ts.length ≤ w.length := by
  induction h with
  | nil => simp
  | cons k t _ ih =>
    have : 1 ≤ t.text.length := by
      cases t with
      | number v =>
        have := (decimal_spec v.toNat).1
        exact List.length_pos.2 this
      | symbol c => simp [Token.text]
    simp only [List.length_append, List.length_cons]
    omega

theorem stop_mono {ops ops1 : List Char} {rest : List Char} (h : Stop ops rest)
    (hsub : ∀ c ∈ ops1, c ∈ ops) : Stop ops1 rest := by
  rcases h with ⟨k, h1, h2⟩ | ⟨k, c, r, h1, h2, h3, h4⟩
  · exact Or.inl ⟨k, h1, fun hc => h2 (hsub _ hc)⟩
  · exact Or.inr ⟨k, c, r, h1, h2, h3, fun hc => h4 (hsub c hc)⟩

theorem Stop.noDigitAhead {ops : List Char} {rest : List Char} (h : Stop ops rest) :
    NoDigitAhead rest := by
  intro c hc
  rcases h with ⟨k, rfl, _⟩ | ⟨k, d, r, rfl, h2, _, _⟩
  · cases k with
    | zero => simp [spaces] at hc
    | succ k =>
      simp [spaces, List.replicate_succ] at hc
      rw [← hc]; decide
  · cases k with
    | zero =>
      simp [spaces] at hc
      rw [← hc]; exact h2
    | succ k =>
      simp [spaces, List.replicate_succ] at hc
      rw [← hc]; decide

theorem Stop.consume {ops : List Char} {rest : List Char} (h : Stop ops rest)
    (ty : TokenType) (num : Option Int) (sym : Option Char) :
    ∃ tk1, Tokenizer.Consume ⟨rest, ty, num, sym⟩ = .ok tk1 ∧ Halts ops tk1 := by
  rcases h with ⟨k, rfl, h1⟩ | ⟨k, c, r, rfl, h2, h3, h4⟩
  · cases k with
    | zero => exact ⟨_, Consume_nil ty num sym, Or.inl rfl⟩
    | succ k =>
      exact ⟨_, Consume_trailing_spaces k ty num sym, Or.inr ⟨rfl, eofChar, rfl, h1⟩⟩
  · exact ⟨_, Consume_symbol k c r ty num sym h2 h3, Or.inr ⟨rfl, c, rfl, h4⟩⟩

/-- A symbol of the grammar is lexed as itself. -/
theorem Stop.of_symbol (ops : List Char) (k : Nat) (c : Char) (r : List Char)
    (h2 : isdigit c = false) (h3 : c ≠ ' ') (h4 : c ∉ ops) : Stop ops (spaces k ++ c :: r) :=
  Or.inr ⟨k, c, r, rfl, h2, h3, h4⟩

theorem derives_length {nt : NT} {ts : List Token} {e : Expression} (h : Derives nt ts e) :
    match nt with
    | .productRest _ => True
    | .sumRest _ => True
    | _ => 1 ≤ ts.length := by
  induction h <;> simp at * <;> omega

/-- What follows a unary operand inside a product. -/
theorem stop_productRest {l e : Expression} {ts : List Token} {w rest : List Char}
    (h : Derives (.productRest l) ts e) (hw : Spaced ts w) (hr : Stop ['*', '/'] rest) :
    Stop [] (w ++ rest) := by
  cases h with
  | productEnd =>
    rw [spaced_nil_inv hw]
    exact stop_mono hr (by simp)
  | mul _ _ =>
    obtain ⟨k, w1, rfl, _⟩ := spaced_cons_inv hw
    simp only [Token.text, List.append_assoc, List.singleton_append, List.cons_append]
    exact Stop.of_symbol _ k _ _ (by decide) (by decide) (by simp)
  | div _ _ =>
    obtain ⟨k, w1, rfl, _⟩ := spaced_cons_inv hw
    simp only [Token.text, List.append_assoc, List.singleton_append, List.cons_append]
    exact Stop.of_symbol _ k _ _ (by decide) (by decide) (by simp)

/-- What follows a product inside a sum. -/
theorem stop_sumRest {l e : Expression} {ts : List Token} {w rest : List Char}
    (h : Derives (.sumRest l) ts e) (hw : Spaced ts w) (hr : Stop ['+', '-', '*', '/'] rest) :
    Stop ['*', '/'] (w ++ rest) := by
  cases h with
  | sumEnd =>
    rw [spaced_nil_inv hw]
    exact stop_mono hr (by simp)
  | add _ _ =>
    obtain ⟨k, w1, rfl, _⟩ := spaced_cons_inv hw
    simp only [Token.text, List.append_assoc, List.singleton_append, List.cons_append]
    exact Stop.of_symbol _ k _ _ (by decide) (by decide) (by decide)
  | sub _ _ =>
    obtain ⟨k, w1, rfl, _⟩ := spaced_cons_inv hw
    simp only [Token.text, List.append_assoc, List.singleton_append, List.cons_append]
    exact Stop.of_symbol _ k _ _ (by decide) (by decide) (by decide)

theorem MulDivLoop_halt (n : Nat) (l : Expression) (tk : Tokenizer)
    (h : Halts ['*', '/'] tk) : MulDivLoop (n + 1) l tk = .ok (l, tk) := by
  rcases h with h | ⟨h, c, hc, hops⟩
  · simp [MulDivLoop, Tokenizer.GetType, h]
  · simp only [List.mem_cons, List.mem_singleton, List.not_mem_nil, or_false, not_or] at hops
    by_cases hp : c = ')'
    · simp [MulDivLoop, Tokenizer.GetType, Tokenizer.isSymbol, Tokenizer.GetSymbol, h, hc, hp]
    · have hb : (c == ')') = false := beq_eq_false_iff_ne.2 hp
      simp [MulDivLoop, Tokenizer.GetType, Tokenizer.isSymbol, Tokenizer.GetSymbol, h, hc, hb,
        hops.1, hops.2]

theorem AddSubLoop_halt (n : Nat) (l : Expression) (tk : Tokenizer)
    (h : Halts ['+', '-'] tk) : AddSubLoop (n + 1) l tk = .ok (l, tk) := by
  rcases h with h | ⟨h, c, hc, hops⟩
  · simp [AddSubLoop, Tokenizer.GetType, h]
  · simp only [List.mem_cons, List.mem_singleton, List.not_mem_nil, or_false, not_or] at hops
    by_cases hp : c = ')'
    · simp [AddSubLoop, Tokenizer.GetType, Tokenizer.isSymbol, Tokenizer.GetSymbol, h, hc, hp]
    · have hb : (c == ')') = false := beq_eq_false_iff_ne.2 hp
      simp [AddSubLoop, Tokenizer.GetType, Tokenizer.isSymbol, Tokenizer.GetSymbol, h, hc, hb,
        hops.1, hops.2]

theorem halts_mono {ops ops1 : List Char} {tk : Tokenizer} (h : Halts ops tk)
    (hsub : ∀ c ∈ ops1, c ∈ ops) : Halts ops1 tk := by
  rcases h with h | ⟨h, c, hc, hops⟩
  · exact Or.inl h
  · exact Or.inr ⟨h, c, hc, fun hm => hops (hsub c hm)⟩

/-- The first token of a primary is not a minus sign. -/
theorem primary_first {ts : List Token} {e : Expression} {w rest : List Char}
    {ty : TokenType} {num : Option Int} {sym : Option Char} {tk : Tokenizer}
    (h : Derives .primary ts e) (hw : Spaced ts w) (hr : Stop [] rest)
    (hc : Tokenizer.Consume ⟨w ++ rest, ty, num, sym⟩ = .ok tk) :
    tk.isSymbol '-' = .ok false := by
  cases h with
  | number n hn =>
    obtain ⟨k, w1, rfl, hw1⟩ := spaced_cons_inv hw
    obtain rfl := spaced_nil_inv hw1
    have hd := decimal_spec n
    have := Consume_digits k (decimal n) rest ty num sym hd.1 hd.2.1 hr.noDigitAhead
      (by rw [hd.2.2]; exact hn)
    simp only [Token.text, Int.toNat_ofNat, List.append_nil, List.append_assoc] at hc
    rw [this] at hc
    obtain rfl := Except.ok.inj hc
    simp [Tokenizer.isSymbol, Tokenizer.GetType]
  | paren hs =>
    obtain ⟨k, w1, rfl, hw1⟩ := spaced_cons_inv hw
    have := Consume_symbol k '(' (w1 ++ rest) ty num sym (by decide) (by decide)
    simp only [Token.text, List.append_assoc, List.singleton_append, List.cons_append,
      List.nil_append] at hc
    rw [this] at hc
    obtain rfl := Except.ok.inj hc
    simp [Tokenizer.isSymbol, Tokenizer.GetType, Tokenizer.GetSymbol]

/-! ## The parser follows the grammar -/

theorem parse_derives {nt : NT} {ts : List Token} {e : Expression} (h : Derives nt ts e) :
    ∀ (w rest : List Char) (fuel : Nat), Spaced ts w → Stop (stopOps nt) rest →
      need nt ts.length ≤ fuel → ParsesTo nt fuel w rest e := by
  induction h with
  | number n hn =>
    intro w rest fuel hw hr hf ty num sym
    obtain ⟨k, w1, rfl, hw1⟩ := spaced_cons_inv hw
    obtain rfl := spaced_nil_inv hw1
    obtain ⟨m, rfl⟩ : ∃ m, fuel = m + 1 := ⟨fuel - 1, by simp [need] at hf; omega⟩
    have hd := decimal_spec n
    have hc : Tokenizer.Consume
        ⟨spaces k ++ ((Token.number n).text ++ []) ++ rest, ty, num, sym⟩ =
        .ok ⟨rest, .kNumber, some (n : Int), sym⟩ := by
      have := Consume_digits k (decimal n) rest ty num sym hd.1 hd.2.1 hr.noDigitAhead
        (by rw [hd.2.2]; exact hn)
      rw [hd.2.2] at this
      simpa [Token.text] using this
    obtain ⟨tk2, h2, _⟩ := hr.consume .kNumber (some (n : Int)) sym
    refine ⟨_, ⟨rest, .kNumber, some (n : Int), sym⟩, tk2, hc, rfl, h2, ?_⟩
    simp [parseNT, ParsePrimary, Tokenizer.isSymbol, Tokenizer.GetType, Tokenizer.GetNumber, h2]
  | paren hs ih =>
    intro w rest fuel hw hr hf ty num sym
    obtain ⟨k, w1, rfl, hw1⟩ := spaced_cons_inv hw
    obtain ⟨wi, w2, rfl, hwi, hw2⟩ := spaced_append_inv _ hw1
    obtain ⟨k2, w3, rfl, hw3⟩ := spaced_cons_inv hw2
    obtain rfl := spaced_nil_inv hw3
    have hlen := derives_length hs
    simp only [need, List.length_cons, List.length_append, List.length_nil] at hf hlen
    obtain ⟨m, rfl⟩ : ∃ m, fuel = m + 1 := ⟨fuel - 1, by omega⟩
    have hc : Tokenizer.Consume
        ⟨spaces k ++ ((Token.symbol '(').text ++
          (wi ++ (spaces k2 ++ ((Token.symbol ')').text ++ [])))) ++ rest, ty, num, sym⟩ =
        .ok ⟨wi ++ (spaces k2 ++ ')' :: rest), .kSymbol, num, some '('⟩ := by
      have := Consume_symbol k '(' (wi ++ (spaces k2 ++ ')' :: rest)) ty num sym
        (by decide) (by decide)
      simpa [Token.text] using this
    have hstop : Stop (stopOps .sum) (spaces k2 ++ ')' :: rest) :=
      Stop.of_symbol _ k2 ')' rest (by decide) (by decide) (by decide)
    obtain ⟨tka, tk1, tkb, ha, h1, hb, hp⟩ :=
      ih wi _ m hwi hstop (by simp only [need]; omega) .kSymbol num (some '(')
    obtain ⟨in1, ty1, num1, sym1⟩ := tk1
    simp only at h1
    subst h1
    rw [Consume_symbol k2 ')' rest ty1 num1 sym1 (by decide) (by decide)] at hb
    obtain rfl := Except.ok.inj hb
    obtain ⟨tk2, h2, _⟩ := hr.consume .kSymbol num1 (some ')')
    refine ⟨_, ⟨rest, .kSymbol, num1, some ')'⟩, tk2, hc, rfl, h2, ?_⟩
    simp only [parseNT] at hp
    simp [parseNT, ParsePrimary, Tokenizer.isSymbol, Tokenizer.GetType, Tokenizer.GetSymbol,
      ha, hp, h2]
  | neg hu ih =>
    intro w rest fuel hw hr hf ty num sym
    obtain ⟨k, w1, rfl, hw1⟩ := spaced_cons_inv hw
    have hlen := derives_length hu
    simp only [need, List.length_cons] at hf hlen
    obtain ⟨m, rfl⟩ : ∃ m, fuel = m + 1 := ⟨fuel - 1, by omega⟩
    have hc : Tokenizer.Consume
        ⟨spaces k ++ ((Token.symbol '-').text ++ w1) ++ rest, ty, num, sym⟩ =
        .ok ⟨w1 ++ rest, .kSymbol, num, some '-'⟩ := by
      have := Consume_symbol k '-' (w1 ++ rest) ty num sym (by decide) (by decide)
      simpa [Token.text] using this
    obtain ⟨tka, tk1, tk2, ha, h1, h2, hp⟩ :=
      ih w1 rest m hw1 hr (by simp only [need]; omega) .kSymbol num (some '-')
    refine ⟨_, tk1, tk2, hc, h1, h2, ?_⟩
    simp only [parseNT] at hp
    simp [parseNT, ParseUnary, Tokenizer.isSymbol, Tokenizer.GetType, Tokenizer.GetSymbol,
      ha, hp]
  | prim hp0 ih =>
    intro w rest fuel hw hr hf ty num sym
    have hlen := derives_length hp0
    simp only [need] at hf hlen
    obtain ⟨m, rfl⟩ : ∃ m, fuel = m + 1 := ⟨fuel - 1, by omega⟩
    obtain ⟨tka, tk1, tk2, ha, h1, h2, hp⟩ :=
      ih w rest m hw hr (by simp only [need]; omega) ty num sym
    refine ⟨tka, tk1, tk2, ha, h1, h2, ?_⟩
    simp only [parseNT] at hp
    simp [parseNT, ParseUnary, primary_first hp0 hw hr ha, hp]
  | product hu hrest ihu ihr =>
    rename_i tsu tsr l e1
    intro w rest fuel hw hr hf ty num sym
    obtain ⟨wu, wr, rfl, hwu, hwr⟩ := spaced_append_inv _ hw
    have hlen := derives_length hu
    simp only [need, List.length_append] at hf hlen
    obtain ⟨m, rfl⟩ : ∃ m, fuel = m + 1 := ⟨fuel - 1, by omega⟩
    obtain ⟨tka, tk1, tkb, ha, h1, hb, hp⟩ :=
      ihu wu (wr ++ rest) m hwu (stop_productRest hrest hwr hr) (by simp only [need]; omega)
        ty num sym
    obtain ⟨in1, ty1, num1, sym1⟩ := tk1
    simp only at h1
    subst h1
    obtain ⟨tkc, tk3, tk4, hc, h3, h4, hq⟩ :=
      ihr wr rest m hwr hr (by simp only [need]; omega) ty1 num1 sym1
    rw [hb] at hc
    obtain rfl := Except.ok.inj hc
    refine ⟨tka, tk3, tk4, by simpa using ha, h3, h4, ?_⟩
    simp only [parseNT] at hp hq
    simp [parseNT, ParseMulDiv, hp, hq]
  | productEnd l =>
    intro w rest fuel hw hr hf ty num sym
    obtain rfl := spaced_nil_inv hw
    simp only [need] at hf
    obtain ⟨m, rfl⟩ : ∃ m, fuel = m + 1 := ⟨fuel - 1, by omega⟩
    obtain ⟨tk2, h2, hh⟩ := hr.consume ty num sym
    exact ⟨tk2, ⟨rest, ty, num, sym⟩, tk2, by simpa using h2, rfl, h2,
      MulDivLoop_halt m l tk2 hh⟩
  | mul hu hrest ihu ihr =>
    rename_i tsu tsr l r e1
    intro w rest fuel hw hr hf ty num sym
    obtain ⟨k, w1, rfl, hw1⟩ := spaced_cons_inv hw
    obtain ⟨wu, wr, rfl, hwu, hwr⟩ := spaced_append_inv _ hw1
    have hlen := derives_length hu
    simp only [need, List.length_cons, List.length_append] at hf hlen
    obtain ⟨m, rfl⟩ : ∃ m, fuel = m + 1 := ⟨fuel - 1, by omega⟩
    have hc : Tokenizer.Consume
        ⟨spaces k ++ ((Token.symbol '*').text ++ (wu ++ wr)) ++ rest, ty, num, sym⟩ =
        .ok ⟨wu ++ (wr ++ rest), .kSymbol, num, some '*'⟩ := by
      have := Consume_symbol k '*' (wu ++ (wr ++ rest)) ty num sym (by decide) (by decide)
      simpa [Token.text] using this
    obtain ⟨tka, tk1, tkb, ha, h1, hb, hp⟩ :=
      ihu wu (wr ++ rest) m hwu (stop_productRest hrest hwr hr) (by simp only [need]; omega)
        .kSymbol num (some '*')
    obtain ⟨in1, ty1, num1, sym1⟩ := tk1
    simp only at h1
    subst h1
    obtain ⟨tkc, tk3, tk4, hc1, h3, h4, hq⟩ :=
      ihr wr rest m hwr hr (by simp only [need]; omega) ty1 num1 sym1
    rw [hb] at hc1
    obtain rfl := Except.ok.inj hc1
    refine ⟨_, tk3, tk4, hc, h3, h4, ?_⟩
    simp only [parseNT] at hp hq
    simp [parseNT, MulDivLoop, Tokenizer.isSymbol, Tokenizer.GetType, Tokenizer.GetSymbol,
      ha, hp, hq]
  | div hu hrest ihu ihr =>
    rename_i tsu tsr l r e1
    intro w rest fuel hw hr hf ty num sym
    obtain ⟨k, w1, rfl, hw1⟩ := spaced_cons_inv hw
    obtain ⟨wu, wr, rfl, hwu, hwr⟩ := spaced_append_inv _ hw1
    have hlen := derives_length hu
    simp only [need, List.length_cons, List.length_append] at hf hlen
    obtain ⟨m, rfl⟩ : ∃ m, fuel = m + 1 := ⟨fuel - 1, by omega⟩
    have hc : Tokenizer.Consume
        ⟨spaces k ++ ((Token.symbol '/').text ++ (wu ++ wr)) ++ rest, ty, num, sym⟩ =
        .ok ⟨wu ++ (wr ++ rest), .kSymbol, num, some '/'⟩ := by
      have := Consume_symbol k '/' (wu ++ (wr ++ rest)) ty num sym (by decide) (by decide)
      simpa [Token.text] using this
    obtain ⟨tka, tk1, tkb, ha, h1, hb, hp⟩ :=
      ihu wu (wr ++ rest) m hwu (stop_productRest hrest hwr hr) (by simp only [need]; omega)
        .kSymbol num (some '/')
    obtain ⟨in1, ty1, num1, sym1⟩ := tk1
    simp only at h1
    subst h1
    obtain ⟨tkc, tk3, tk4, hc1, h3, h4, hq⟩ :=
      ihr wr rest m hwr hr (by simp only [need]; omega) ty1 num1 sym1
    rw [hb] at hc1
    obtain rfl := Except.ok.inj hc1
    refine ⟨_, tk3, tk4, hc, h3, h4, ?_⟩
    simp only [parseNT] at hp hq
    simp [parseNT, MulDivLoop, Tokenizer.isSymbol, Tokenizer.GetType, Tokenizer.GetSymbol,
      ha, hp, hq]
  | sum hu hrest ihu ihr =>
    rename_i tsu tsr l e1
    intro w rest fuel hw hr hf ty num sym
    obtain ⟨wu, wr, rfl, hwu, hwr⟩ := spaced_append_inv _ hw
    have hlen := derives_length hu
    simp only [need, List.length_append] at hf hlen
    obtain ⟨m, rfl⟩ : ∃ m, fuel = m + 1 := ⟨fuel - 1, by omega⟩
    obtain ⟨tka, tk1, tkb, ha, h1, hb, hp⟩ :=
      ihu wu (wr ++ rest) m hwu (stop_sumRest hrest hwr hr) (by simp only [need]; omega)
        ty num sym
    obtain ⟨in1, ty1, num1, sym1⟩ := tk1
    simp only at h1
    subst h1
    obtain ⟨tkc, tk3, tk4, hc, h3, h4, hq⟩ :=
      ihr wr rest m hwr hr (by simp only [need]; omega) ty1 num1 sym1
    rw [hb] at hc
    obtain rfl := Except.ok.inj hc
    refine ⟨tka, tk3, tk4, by simpa using ha, h3, h4, ?_⟩
    simp only [parseNT] at hp hq
    simp [parseNT, ParseAddSub, hp, hq]
  | sumEnd l =>
    intro w rest fuel hw hr hf ty num sym
    obtain rfl := spaced_nil_inv hw
    simp only [need] at hf
    obtain ⟨m, rfl⟩ : ∃ m, fuel = m + 1 := ⟨fuel - 1, by omega⟩
    obtain ⟨tk2, h2, hh⟩ := hr.consume ty num sym
    exact ⟨tk2, ⟨rest, ty, num, sym⟩, tk2, by simpa using h2, rfl, h2,
      AddSubLoop_halt m l tk2 (halts_mono hh (by simp [stopOps]))⟩
  | add hu hrest ihu ihr =>
    rename_i tsu tsr l r e1
    intro w rest fuel hw hr hf ty num sym
    obtain ⟨k, w1, rfl, hw1⟩ := spaced_cons_inv hw
    obtain ⟨wu, wr, rfl, hwu, hwr⟩ := spaced_append_inv _ hw1
    have hlen := derives_length hu
    simp only [need, List.length_cons, List.length_append] at hf hlen
    obtain ⟨m, rfl⟩ : ∃ m, fuel = m + 1 := ⟨fuel - 1, by omega⟩
    have hc : Tokenizer.Consume
        ⟨spaces k ++ ((Token.symbol '+').text ++ (wu ++ wr)) ++ rest, ty, num, sym⟩ =
        .ok ⟨wu ++ (wr ++ rest), .kSymbol, num, some '+'⟩ := by
      have := Consume_symbol k '+' (wu ++ (wr ++ rest)) ty num sym (by decide) (by decide)
      simpa [Token.text] using this
    obtain ⟨tka, tk1, tkb, ha, h1, hb, hp⟩ :=
      ihu wu (wr ++ rest) m hwu (stop_sumRest hrest hwr hr) (by simp only [need]; omega)
        .kSymbol num (some '+')
    obtain ⟨in1, ty1, num1, sym1⟩ := tk1
    simp only at h1
    subst h1
    obtain ⟨tkc, tk3, tk4, hc1, h3, h4, hq⟩ :=
      ihr wr rest m hwr hr (by simp only [need]; omega) ty1 num1 sym1
    rw [hb] at hc1
    obtain rfl := Except.ok.inj hc1
    refine ⟨_, tk3, tk4, hc, h3, h4, ?_⟩
    simp only [parseNT] at hp hq
    simp [parseNT, AddSubLoop, Tokenizer.isSymbol, Tokenizer.GetType, Tokenizer.GetSymbol,
      ha, hp, hq]
  | sub hu hrest ihu ihr =>
    rename_i tsu tsr l r e1
    intro w rest fuel hw hr hf ty num sym
    obtain ⟨k, w1, rfl, hw1⟩ := spaced_cons_inv hw
    obtain ⟨wu, wr, rfl, hwu, hwr⟩ := spaced_append_inv _ hw1
    have hlen := derives_length hu
    simp only [need, List.length_cons, List.length_append] at hf hlen
    obtain ⟨m, rfl⟩ : ∃ m, fuel = m + 1 := ⟨fuel - 1, by omega⟩
    have hc : Tokenizer.Consume
        ⟨spaces k ++ ((Token.symbol '-').text ++ (wu ++ wr)) ++ rest, ty, num, sym⟩ =
        .ok ⟨wu ++ (wr ++ rest), .kSymbol, num, some '-'⟩ := by
      have := Consume_symbol k '-' (wu ++ (wr ++ rest)) ty num sym (by decide) (by decide)
      simpa [Token.text] using this
    obtain ⟨tka, tk1, tkb, ha, h1, hb, hp⟩ :=
      ihu wu (wr ++ rest) m hwu (stop_sumRest hrest hwr hr) (by simp only [need]; omega)
        .kSymbol num (some '-')
    obtain ⟨in1, ty1, num1, sym1⟩ := tk1
    simp only at h1
    subst h1
    obtain ⟨tkc, tk3, tk4, hc1, h3, h4, hq⟩ :=
      ihr wr rest m hwr hr (by simp only [need]; omega) ty1 num1 sym1
    rw [hb] at hc1
    obtain rfl := Except.ok.inj hc1
    refine ⟨_, tk3, tk4, hc, h3, h4, ?_⟩
    simp only [parseNT] at hp hq
    simp [parseNT, AddSubLoop, Tokenizer.isSymbol, Tokenizer.GetType, Tokenizer.GetSymbol,
      ha, hp, hq]

/-- A text derived from `sum`, followed by something that is no operator and no
digit, is parsed to the tree of its derivation. -/
theorem parseTree_of_derives {ts : List Token} {e : Expression} {w : List Char}
    (h : Derives .sum ts e) (hw : Spaced ts w) (rest : List Char)
    (hr : Stop ['+', '-', '*', '/'] rest) : parseTree (w ++ rest) = .ok e := by
  have hlen := spaced_length hw
  obtain ⟨tk, tk1, tk2, h0, _, _, hp⟩ :=
    parse_derives h w rest (budget (w ++ rest)) hw hr
      (by simp only [need, budget, List.length_append]; omega) .kEnd none none
  simp only [parseNT] at hp
  simp [parseTree, Tokenizer.new, ParseExpression, h0, hp]

theorem stop_nil : Stop ['+', '-', '*', '/'] [] := Or.inl ⟨0, rfl, by decide⟩

theorem stop_spaces (k : Nat) : Stop ['+', '-', '*', '/'] (spaces k) := Or.inl ⟨k, rfl, by decide⟩

theorem parseTree_of_derives_nil {ts : List Token} {e : Expression} {w : List Char}
    (h : Derives .sum ts e) (hw : Spaced ts w) : parseTree w = .ok e := by
  have := parseTree_of_derives h hw [] stop_nil
  simpa using this

/-! ## Derivations of small expressions -/

theorem derives_literal (n : Nat) (h : (n : Int) ≤ LLONG_MAX) :
    Derives .unary [.number n] (.Primary n) := .prim (.number n h)

theorem derives_product_of_unary {ts : List Token} {e : Expression} (h : Derives .unary ts e) :
    Derives .product ts e := by
  simpa using Derives.product h (Derives.productEnd e)

theorem derives_sum_of_product {ts : List Token} {e : Expression} (h : Derives .product ts e) :
    Derives .sum ts e := by
  simpa using Derives.sum h (Derives.sumEnd e)

theorem derives_sum_of_unary {ts : List Token} {e : Expression} (h : Derives .unary ts e) :
    Derives .sum ts e := derives_sum_of_product (derives_product_of_unary h)

theorem derives_mulop (o : Op) (ho : o.additive = false) {ts ts1 : List Token}
    {l r e : Expression} (h : Derives .unary ts r)
    (h1 : Derives (.productRest (o.node l r)) ts1 e) :
    Derives (.productRest l) (.symbol o.char :: ts ++ ts1) e := by
  cases o with
  | add => cases ho
  | sub => cases ho
  | mul => exact .mul h h1
  | div => exact .div h h1

theorem derives_addop (o : Op) (ho : o.additive = true) {ts ts1 : List Token}
    {l r e : Expression} (h : Derives .product ts r)
    (h1 : Derives (.sumRest (o.node l r)) ts1 e) :
    Derives (.sumRest l) (.symbol o.char :: ts ++ ts1) e := by
  cases o with
  | add => exact .add h h1
  | sub => exact .sub h h1
  | mul => cases ho
  | div => cases ho

theorem int64_ok {v : Int} (h1 : LLONG_MIN ≤ v) (h2 : v ≤ LLONG_MAX) : int64 v = .ok v := by
  simp [int64, h1, h2]

theorem spaced_tight (ts : List Token) : Spaced ts (tight ts) := by
  have := spaced_render (ts.map (fun t => (0, t)))
  simpa [tight, Function.comp_def] using this

theorem tight_cons (t : Token) (ts : List Token) : tight (t :: ts) = t.text ++ tight ts := by
  simp [tight, render, spaces]

theorem tight_nil : tight [] = [] := rfl

theorem tight_append (ts ts1 : List Token) : tight (ts ++ ts1) = tight ts ++ tight ts1 := by
  induction ts with
  | nil => simp [tight_nil]
  | cons t ts ih => simp [tight_cons, ih]

theorem tight_replicate_symbol (k : Nat) (c : Char) :
    tight (List.replicate k (.symbol c)) = List.replicate k c := by
  induction k with
  | zero => rfl
  | succ k ih => simp [List.replicate_succ, tight_cons, ih, Token.text]

theorem text_number (n : Nat) : (Token.number n).text = decimal n := by
  simp [Token.text]

theorem derives_wrap {ts : List Token} {e : Expression} (h : Derives .sum ts e) (k : Nat) :
    Derives .sum (wrap k ts) e := by
  induction k with
  | zero => simpa [wrap] using h
  | succ k ih =>
    have h1 : wrap (k + 1) ts = .symbol '(' :: wrap k ts ++ [.symbol ')'] := by
      simp only [wrap, List.replicate_succ, List.cons_append, List.append_assoc]
      congr 3
      rw [← List.replicate_succ, List.replicate_succ']
    rw [h1]
    exact derives_sum_of_unary (.prim (.paren ih))

/-! ## Associativity and precedence -/

/-- C1. Binary operators of the same level are left-associative: for literals
`a`, `b`, `c` in `[0, 2^63-1]` and operators `o1`, `o2` both of `+ -` or both of
`* /`, every text that spells `a o1 b o2 c` (with any spaces before the tokens)
is parsed to `o2(o1(a,b),c)` and not to `o1(a,o2(b,c))`, and `a-b-c` evaluates
to `(a-b)-c` when that value is at least `-2^63`. -/
theorem C1_left_associative (a b c : Nat) (o1 o2 : Op) (w : List Char)
    (ha : (a : Int) ≤ LLONG_MAX) (hb : (b : Int) ≤ LLONG_MAX) (hc : (c : Int) ≤ LLONG_MAX)
    (hlevel : o1.additive = o2.additive)
    (hw : Spaced [.number a, .symbol o1.char, .number b, .symbol o2.char, .number c] w) :
    parseTree w = .ok (o2.node (o1.node (.Primary a) (.Primary b)) (.Primary c)) ∧
    parseTree w ≠ .ok (o1.node (.Primary a) (o2.node (.Primary b) (.Primary c))) ∧
    (o1 = .sub → o2 = .sub → LLONG_MIN ≤ (a : Int) - b - c →
      EvaluateExpression w = .ok ((a : Int) - b - c)) := by
  have hp : parseTree w = .ok (o2.node (o1.node (.Primary a) (.Primary b)) (.Primary c)) := by
    apply parseTree_of_derives_nil _ hw
    cases h1 : o1.additive with
    | true =>
      have h2 : o2.additive = true := by rw [← hlevel, h1]
      have := Derives.sum (derives_product_of_unary (derives_literal a ha))
        (derives_addop o1 h1 (l := .Primary a) (derives_product_of_unary (derives_literal b hb))
          (derives_addop o2 h2 (derives_product_of_unary (derives_literal c hc))
            (Derives.sumEnd _)))
      simpa using this
    | false =>
      have h2 : o2.additive = false := by rw [← hlevel, h1]
      have := Derives.product (derives_literal a ha)
        (derives_mulop o1 h1 (l := .Primary a) (derives_literal b hb)
          (derives_mulop o2 h2 (derives_literal c hc) (Derives.productEnd _)))
      exact derives_sum_of_product (by simpa using this)
  refine ⟨hp, ?_, ?_⟩
  · rw [hp]
    cases o1 <;> cases o2 <;> simp [Op.node]
  · intro e1 e2 hmin
    subst e1 e2
    have hmin1 := hmin
    simp only [LLONG_MIN, LLONG_MAX] at hmin1 ha hb hc
    have h1 : int64 ((a : Int) - b) = .ok ((a : Int) - b) :=
      int64_ok (by simp only [LLONG_MIN]; omega) (by simp only [LLONG_MAX]; omega)
    have h2 : int64 ((a : Int) - b - c) = .ok ((a : Int) - b - c) :=
      int64_ok hmin (by simp only [LLONG_MAX]; omega)
    simp [EvaluateExpression, hp, Op.node, Expression.Evaluate, h1, h2]

theorem C1_left_associative_witness :
    parseTree "10-3-2".toList = .ok (.Sub (.Sub (.Primary 10) (.Primary 3)) (.Primary 2)) ∧
    parseTree "10-3-2".toList ≠ .ok (.Sub (.Primary 10) (.Sub (.Primary 3) (.Primary 2))) ∧
    EvaluateExpression "10-3-2".toList = .ok 5 :=
  have h := C1_left_associative 10 3 2 .sub .sub "10-3-2".toList (by decide) (by decide)
    (by decide) rfl
    (Spaced.cons 0 (.number 10) (Spaced.cons 0 (.symbol '-') (Spaced.cons 0 (.number 3)
      (Spaced.cons 0 (.symbol '-') (Spaced.cons 0 (.number 2) Spaced.nil)))))
  ⟨h.1, h.2.1, h.2.2 rfl rfl (by decide)⟩

/-- C2. Multiplicative operators bind tighter than additive ones: for literals
`a`, `b`, `c` in `[0, 2^63-1]`, `o1` one of `+ -` and `o2` one of `* /`, every
text that spells `a o1 b o2 c` is parsed to `o1(a,o2(b,c))`, every text that
spells `a o2 b o1 c` is parsed to `o1(o2(a,b),c)`, and `a+b*c` evaluates to
`a+(b*c)` when that value is at most `2^63-1`. -/
theorem C2_precedence (a b c : Nat) (o1 o2 : Op) (w w1 : List Char)
    (ha : (a : Int) ≤ LLONG_MAX) (hb : (b : Int) ≤ LLONG_MAX) (hc : (c : Int) ≤ LLONG_MAX)
    (h1 : o1.additive = true) (h2 : o2.additive = false)
    (hw : Spaced [.number a, .symbol o1.char, .number b, .symbol o2.char, .number c] w)
    (hw1 : Spaced [.number a, .symbol o2.char, .number b, .symbol o1.char, .number c] w1) :
    parseTree w = .ok (o1.node (.Primary a) (o2.node (.Primary b) (.Primary c))) ∧
    parseTree w1 = .ok (o1.node (o2.node (.Primary a) (.Primary b)) (.Primary c)) ∧
    (o1 = .add → o2 = .mul → (a : Int) + b * c ≤ LLONG_MAX →
      EvaluateExpression w = .ok ((a : Int) + b * c)) := by
  have hp : parseTree w = .ok (o1.node (.Primary a) (o2.node (.Primary b) (.Primary c))) := by
    apply parseTree_of_derives_nil _ hw
    have := Derives.sum (derives_product_of_unary (derives_literal a ha))
      (derives_addop o1 h1 (l := .Primary a)
        (Derives.product (derives_literal b hb)
          (derives_mulop o2 h2 (l := .Primary b) (derives_literal c hc) (Derives.productEnd _)))
        (Derives.sumEnd _))
    simpa using this
  have hp1 : parseTree w1 = .ok (o1.node (o2.node (.Primary a) (.Primary b)) (.Primary c)) := by
    apply parseTree_of_derives_nil _ hw1
    have := Derives.sum
      (Derives.product (derives_literal a ha)
        (derives_mulop o2 h2 (l := .Primary a) (derives_literal b hb) (Derives.productEnd _)))
      (derives_addop o1 h1 (derives_product_of_unary (derives_literal c hc)) (Derives.sumEnd _))
    simpa using this
  refine ⟨hp, hp1, ?_⟩
  intro e1 e2 hmax
  subst e1 e2
  have hbc : (0 : Int) ≤ (b : Int) * c := by positivity
  have h3 : int64 ((b : Int) * c) = .ok ((b : Int) * c) :=
    int64_ok (by simp only [LLONG_MIN]; omega) (by simp only [LLONG_MAX] at hmax ⊢; omega)
  have h4 : int64 ((a : Int) + b * c) = .ok ((a : Int) + b * c) :=
    int64_ok (by simp only [LLONG_MIN]; omega) hmax
  simp [EvaluateExpression, hp, Op.node, Expression.Evaluate, h3, h4]

theorem C2_precedence_witness :
    parseTree "2+3*4".toList = .ok (.Add (.Primary 2) (.Mul (.Primary 3) (.Primary 4))) ∧
    parseTree "2*3+4".toList = .ok (.Add (.Mul (.Primary 2) (.Primary 3)) (.Primary 4)) ∧
    EvaluateExpression "2+3*4".toList = .ok 14 :=
  have h := C2_precedence 2 3 4 .add .mul "2+3*4".toList "2*3+4".toList (by decide) (by decide)
    (by decide) rfl rfl
    (spaced_tight [.number 2, .symbol '+', .number 3, .symbol '*', .number 4])
    (spaced_tight [.number 2, .symbol '*', .number 3, .symbol '+', .number 4])
  ⟨h.1, h.2.1, h.2.2 rfl rfl (by decide)⟩

/-! ## Parentheses and unary minus -/

/-- C3. Parentheses override precedence: for literals `a`, `b`, `c` in
`[0, 2^63-1]`, `o1` one of `+ -` and `o2` one of `* /`, every text that spells
`(a o1 b) o2 c` is parsed to `o2(o1(a,b),c)`; and `k` enclosing pairs of
parentheses, for every `k`, around the literal `a`, around `(a o1 b) o2 c`, or
around any token sequence derived from `sum`, leave the parsed tree unchanged. -/
theorem C3_parentheses (a b c : Nat) (o1 o2 : Op) (k : Nat) (w w1 w2 : List Char)
    (ha : (a : Int) ≤ LLONG_MAX) (hb : (b : Int) ≤ LLONG_MAX) (hc : (c : Int) ≤ LLONG_MAX)
    (h1 : o1.additive = true) (h2 : o2.additive = false)
    (hw : Spaced [.symbol '(', .number a, .symbol o1.char, .number b, .symbol ')',
      .symbol o2.char, .number c] w)
    (hw1 : Spaced (wrap k [.number a]) w1)
    (hw2 : Spaced (wrap k [.symbol '(', .number a, .symbol o1.char, .number b, .symbol ')',
      .symbol o2.char, .number c]) w2) :
    parseTree w = .ok (o2.node (o1.node (.Primary a) (.Primary b)) (.Primary c)) ∧
    parseTree w1 = .ok (.Primary a) ∧
    parseTree w2 = .ok (o2.node (o1.node (.Primary a) (.Primary b)) (.Primary c)) ∧
    (∀ (ts : List Token) (e : Expression) (w3 w4 : List Char), Derives .sum ts e →
      Spaced ts w3 → Spaced (wrap k ts) w4 → parseTree w3 = .ok e ∧ parseTree w4 = .ok e) := by
  have hd : Derives .sum [.symbol '(', .number a, .symbol o1.char, .number b, .symbol ')',
      .symbol o2.char, .number c]
      (o2.node (o1.node (.Primary a) (.Primary b)) (.Primary c)) := by
    have hin : Derives .sum [.number a, .symbol o1.char, .number b]
        (o1.node (.Primary a) (.Primary b)) := by
      have := Derives.sum (derives_product_of_unary (derives_literal a ha))
        (derives_addop o1 h1 (l := .Primary a) (derives_product_of_unary (derives_literal b hb))
          (Derives.sumEnd _))
      simpa using this
    have := Derives.product (Derives.prim (Derives.paren hin))
      (derives_mulop o2 h2 (derives_literal c hc) (Derives.productEnd _))
    exact derives_sum_of_product (by simpa using this)
  exact ⟨parseTree_of_derives_nil hd hw,
    parseTree_of_derives_nil (derives_wrap (derives_sum_of_unary (derives_literal a ha)) k) hw1,
    parseTree_of_derives_nil (derives_wrap hd k) hw2,
    fun ts e w3 w4 hts h3 h4 =>
      ⟨parseTree_of_derives_nil hts h3, parseTree_of_derives_nil (derives_wrap hts k) h4⟩⟩

theorem C3_parentheses_witness :
    parseTree "(2+3)*4".toList = .ok (.Mul (.Add (.Primary 2) (.Primary 3)) (.Primary 4)) ∧
    parseTree "(((2)))".toList = .ok (.Primary 2) ∧
    parseTree "((((2+3)*4)))".toList =
      .ok (.Mul (.Add (.Primary 2) (.Primary 3)) (.Primary 4)) ∧
    parseTree "1 + 1".toList = .ok (.Add (.Primary 1) (.Primary 1)) ∧
    parseTree "(((1 + 1)))".toList = .ok (.Add (.Primary 1) (.Primary 1)) :=
  have h := C3_parentheses 2 3 4 .add .mul 3 "(2+3)*4".toList "(((2)))".toList
    "((((2+3)*4)))".toList
    (by decide) (by decide) (by decide) rfl rfl
    (spaced_tight [.symbol '(', .number 2, .symbol '+', .number 3, .symbol ')', .symbol '*',
      .number 4])
    (spaced_tight (wrap 3 [.number 2]))
    (spaced_tight (wrap 3 [.symbol '(', .number 2, .symbol '+', .number 3, .symbol ')',
      .symbol '*', .number 4]))
  ⟨h.1, h.2.1, h.2.2.1,
    h.2.2.2 [.number 1, .symbol '+', .number 1] (.Add (.Primary 1) (.Primary 1))
      "1 + 1".toList "(((1 + 1)))".toList
      (Derives.sum (derives_product_of_unary (derives_literal 1 (by decide)))
        (Derives.add (derives_product_of_unary (derives_literal 1 (by decide)))
          (Derives.sumEnd _)))
      (spaced_render [(0, .number 1), (1, .symbol '+'), (1, .number 1)])
      (spaced_render [(0, .symbol '('), (0, .symbol '('), (0, .symbol '('), (0, .number 1),
        (1, .symbol '+'), (1, .number 1), (0, .symbol ')'), (0, .symbol ')'),
        (0, .symbol ')')])⟩

theorem derives_minuses (n : Nat) (hn : (n : Int) ≤ LLONG_MAX) (k : Nat) :
    Derives .unary (List.replicate k (.symbol '-') ++ [.number n])
      ((Expression.Unary (-1))^[k] (.Primary n)) := by
  induction k with
  | zero => exact derives_literal n hn
  | succ k ih =>
    rw [Function.iterate_succ_apply']
    exact Derives.neg ih

theorem evaluate_minuses (n : Nat) (hn : (n : Int) ≤ LLONG_MAX) (k : Nat) :
    ((Expression.Unary (-1))^[k] (.Primary n)).Evaluate =
      .ok (if k % 2 = 0 then (n : Int) else -(n : Int)) := by
  induction k with
  | zero => simp [Expression.Evaluate]
  | succ k ih =>
    rw [Function.iterate_succ_apply']
    simp only [Expression.Evaluate, ih]
    simp only [LLONG_MAX] at hn
    rcases Nat.mod_two_eq_zero_or_one k with hk | hk
    · have : (k + 1) % 2 = 1 := by omega
      simp only [hk, this, if_true, if_false, Nat.one_ne_zero]
      rw [int64_ok (by simp only [LLONG_MIN]; omega) (by simp only [LLONG_MAX]; omega)]
      congr 1; ring
    · have : (k + 1) % 2 = 0 := by omega
      simp only [hk, this, if_true, if_false, Nat.one_ne_zero]
      rw [int64_ok (by simp only [LLONG_MIN]; omega) (by simp only [LLONG_MAX]; omega)]
      congr 1; ring

/-- C4. Unary minus stacks: for a literal `n` in `[0, 2^63-1]` and every `k`,
the text of `k` characters `-` followed by the decimal digits of `n` is parsed
to `k` nested negations of the literal, and `EvaluateExpression` returns `n`
when `k` is even and `-n` when `k` is odd; the text `-(-n)` evaluates to `n`. -/
theorem C4_unary_minus_stacks (n k : Nat) (hn : (n : Int) ≤ LLONG_MAX) :
    parseTree (List.replicate k '-' ++ decimal n) =
      .ok ((Expression.Unary (-1))^[k] (.Primary n)) ∧
    EvaluateExpression (List.replicate k '-' ++ decimal n) =
      .ok (if k % 2 = 0 then (n : Int) else -(n : Int)) ∧
    EvaluateExpression ('-' :: '(' :: '-' :: (decimal n ++ [')'])) = .ok (n : Int) := by
  have hp : parseTree (List.replicate k '-' ++ decimal n) =
      .ok ((Expression.Unary (-1))^[k] (.Primary n)) := by
    have hs := spaced_tight (List.replicate k (.symbol '-') ++ [.number n])
    rw [tight_append, tight_replicate_symbol, tight_cons, tight_nil, text_number,
      List.append_nil] at hs
    exact parseTree_of_derives_nil (derives_sum_of_unary (derives_minuses n hn k)) hs
  refine ⟨hp, ?_, ?_⟩
  · simp only [EvaluateExpression, hp]
    exact evaluate_minuses n hn k
  · have hs := spaced_tight [.symbol '-', .symbol '(', .symbol '-', .number n, .symbol ')']
    simp only [tight_cons, tight_nil, Token.text, List.singleton_append, Int.toNat_ofNat,
      List.append_nil, List.cons_append, List.nil_append] at hs
    have hd : Derives .sum [.symbol '-', .symbol '(', .symbol '-', .number n, .symbol ')']
        (.Unary (-1) (.Unary (-1) (.Primary n))) :=
      derives_sum_of_unary (.neg (.prim (.paren
        (derives_sum_of_unary (.neg (derives_literal n hn))))))
    have hp1 := parseTree_of_derives_nil hd hs
    have := evaluate_minuses n hn 2
    simp only [Function.iterate_succ, Function.iterate_zero, Function.comp_apply, id_eq] at this
    simp only [EvaluateExpression, hp1, this, if_true]

theorem C4_unary_minus_stacks_witness :
    (parseTree "--5".toList = .ok (.Unary (-1) (.Unary (-1) (.Primary 5))) ∧
     EvaluateExpression "--5".toList = .ok 5 ∧
     EvaluateExpression "-(-5)".toList = .ok 5) ∧
    EvaluateExpression "-2".toList = .ok (-2) :=
  ⟨C4_unary_minus_stacks 5 2 (by decide), (C4_unary_minus_stacks 2 1 (by decide)).2.1⟩

/-! ## Division and literals -/

/-- C5. Division truncates toward zero: for literals `a` in `[0, 2^63-1]` and
`b` in `[1, 2^63-1]`, `a/b` evaluates to the floor of `a/b` and `-a/b` evaluates
to minus the floor of `a/b`, which is not the floor of `(-a)/b` unless `b`
divides `a`. -/
theorem C5_division_truncates (a b : Nat) (ha : (a : Int) ≤ LLONG_MAX) (hb1 : 1 ≤ b)
    (hb : (b : Int) ≤ LLONG_MAX) :
    EvaluateExpression (decimal a ++ '/' :: decimal b) = .ok ((a / b : Nat) : Int) ∧
    EvaluateExpression ('-' :: (decimal a ++ '/' :: decimal b)) = .ok (-((a / b : Nat) : Int)) ∧
    (¬ b ∣ a → EvaluateExpression ('-' :: (decimal a ++ '/' :: decimal b)) ≠
      .ok (Int.fdiv (-(a : Int)) b)) := by
  have hp : parseTree (decimal a ++ '/' :: decimal b) =
      .ok (.Div (.Primary a) (.Primary b)) := by
    have hs := spaced_tight [.number a, .symbol '/', .number b]
    simp only [tight_cons, tight_nil, Token.text, List.singleton_append, Int.toNat_ofNat,
      List.append_nil, List.cons_append, List.nil_append] at hs
    apply parseTree_of_derives_nil _ hs
    have := Derives.product (derives_literal a ha)
      (Derives.div (l := .Primary a) (derives_literal b hb) (Derives.productEnd _))
    exact derives_sum_of_product (by simpa using this)
  have hp1 : parseTree ('-' :: (decimal a ++ '/' :: decimal b)) =
      .ok (.Div (.Unary (-1) (.Primary a)) (.Primary b)) := by
    have hs := spaced_tight [.symbol '-', .number a, .symbol '/', .number b]
    simp only [tight_cons, tight_nil, Token.text, List.singleton_append, Int.toNat_ofNat,
      List.append_nil, List.cons_append, List.nil_append] at hs
    apply parseTree_of_derives_nil _ hs
    have := Derives.product (Derives.neg (derives_literal a ha))
      (Derives.div (l := .Unary (-1) (.Primary a)) (derives_literal b hb)
        (Derives.productEnd _))
    exact derives_sum_of_product (by simpa using this)
  have hb0 : (b : Int) ≠ 0 := by omega
  have hq : Int.tdiv (a : Int) (b : Int) = ((a / b : Nat) : Int) := (Int.ofNat_tdiv a b).symm
  have hle : a / b ≤ a := Nat.div_le_self a b
  have hneg : int64 ((a : Int) * -1) = .ok (-(a : Int)) := by
    rw [mul_neg_one]
    exact int64_ok (by simp only [LLONG_MIN, LLONG_MAX] at ha ⊢; omega)
      (by simp only [LLONG_MAX]; omega)
  have hq0 : (0 : Int) ≤ ((a / b : Nat) : Int) := Int.ofNat_nonneg _
  have hqa : ((a / b : Nat) : Int) ≤ (a : Int) := by exact_mod_cast hle
  have hquot : int64 ((a / b : Nat) : Int) = .ok ((a / b : Nat) : Int) := by
    generalize ((a / b : Nat) : Int) = q at hq0 hqa ⊢
    exact int64_ok (by simp only [LLONG_MIN]; omega) (by simp only [LLONG_MAX] at ha ⊢; omega)
  have hnquot : int64 (-((a / b : Nat) : Int)) = .ok (-((a / b : Nat) : Int)) := by
    generalize ((a / b : Nat) : Int) = q at hq0 hqa ⊢
    exact int64_ok (by simp only [LLONG_MIN, LLONG_MAX] at ha ⊢; omega)
      (by simp only [LLONG_MAX]; omega)
  have e1 : EvaluateExpression (decimal a ++ '/' :: decimal b) = .ok ((a / b : Nat) : Int) := by
    simp only [EvaluateExpression, hp, Expression.Evaluate, hb0, if_false, hq, hquot]
  have e2 : EvaluateExpression ('-' :: (decimal a ++ '/' :: decimal b)) =
      .ok (-((a / b : Nat) : Int)) := by
    simp only [EvaluateExpression, hp1, Expression.Evaluate, hneg, hb0, if_false,
      Int.neg_tdiv, hq, hnquot]
  refine ⟨e1, e2, ?_⟩
  intro hdvd
  rw [e2]
  intro heq
  have heq1 := Except.ok.inj heq
  have hbpos : (0 : Int) < b := by omega
  have hr0 : a % b ≠ 0 := fun h0 => hdvd (Nat.dvd_of_mod_eq_zero h0)
  have hrb : a % b < b := Nat.mod_lt a (by omega)
  have hdm : (b : Int) * ((a / b : Nat) : Int) + ((a % b : Nat) : Int) = a := by
    exact_mod_cast Nat.div_add_mod a b
  have key := (Int.ediv_emod_unique (a := -(a : Int)) (b := (b : Int))
    (r := (b : Int) - ((a % b : Nat) : Int)) (q := -((a / b : Nat) : Int) - 1) hbpos).2
      ⟨by rw [← hdm]; ring, by omega, by omega⟩
  rw [Int.fdiv_eq_ediv _ (by omega), key.1] at heq1
  omega

theorem C5_division_truncates_witness :
    EvaluateExpression "7/2".toList = .ok 3 ∧ EvaluateExpression "-7/2".toList = .ok (-3) ∧
    EvaluateExpression "-7/2".toList ≠ .ok (Int.fdiv (-7) 2) :=
  have h := C5_division_truncates 7 2 (by decide) (by decide) (by decide)
  ⟨h.1, h.2.1, h.2.2 (by decide)⟩

/-- C6. Literal round trip: for every `n` with `0 ≤ n ≤ 2^63-1`,
`EvaluateExpression` on the decimal representation of `n` returns `n`. -/
theorem C6_literal_round_trip (n : Nat) (hn : (n : Int) ≤ LLONG_MAX) :
    EvaluateExpression (decimal n) = .ok (n : Int) := by
  have hs := spaced_tight [.number n]
  simp only [tight_cons, tight_nil, Token.text, Int.toNat_ofNat, List.append_nil] at hs
  have hp := parseTree_of_derives_nil (derives_sum_of_unary (derives_literal n hn)) hs
  simp only [EvaluateExpression, hp, Expression.Evaluate]

theorem C6_literal_round_trip_witness :
    ((1000000000000 : Nat) : Int) ≤ LLONG_MAX ∧
    EvaluateExpression "1000000000000".toList = .ok 1000000000000 :=
  ⟨by decide, C6_literal_round_trip 1000000000000 (by decide)⟩

/-! ## The tokenizer on spelled token sequences -/

theorem noDigitAhead_token (k : Nat) (t : Token) (r : List Char) (ht : TokenOk t)
    (hk : t.isNumber = true → 1 ≤ k) : NoDigitAhead (spaces k ++ (t.text ++ r)) := by
  intro c hc
  cases k with
  | zero =>
    cases t with
    | number v => simp [Token.isNumber] at hk
    | symbol d =>
      simp [spaces, Token.text] at hc
      rw [← hc]; exact ht.1
  | succ k =>
    simp [spaces, List.replicate_succ] at hc
    rw [← hc]; decide

theorem noDigitAhead_render (t : Token) (k : Nat) (r : List (Nat × Token))
    (hok : ∀ p ∈ r, TokenOk p.2) (hsep : Separated ((k, t) :: r)) (ht : t.isNumber = true) :
    NoDigitAhead (render r) := by
  cases r with
  | nil => intro c hc; simp [render] at hc
  | cons q r =>
    obtain ⟨k1, t1⟩ := q
    have h1 := (List.chain'_cons.1 hsep).1
    exact noDigitAhead_token k1 t1 (render r) (hok (k1, t1) (by simp)) (fun h => h1 ht h)

theorem checkLoop_render : ∀ (l : List (Nat × Token)), (∀ p ∈ l, TokenOk p.2) → Separated l →
    ∀ (ty : TokenType) (num : Option Int) (sym : Option Char),
    ∃ tk, Tokenizer.Consume ⟨render l, ty, num, sym⟩ = .ok tk ∧
      checkLoop (l.map Prod.snd) tk = .ok true := by
  intro l
  induction l with
  | nil =>
    intro _ _ ty num sym
    exact ⟨_, Consume_nil ty num sym, by simp [checkLoop, Tokenizer.GetType]⟩
  | cons p r ih =>
    intro hok hsep ty num sym
    obtain ⟨k, t⟩ := p
    have hokr : ∀ p ∈ r, TokenOk p.2 := fun p hp => hok p (List.mem_cons_of_mem _ hp)
    have hsepr : Separated r := List.Chain'.tail hsep
    have ht : TokenOk t := hok (k, t) (by simp)
    cases t with
    | number v =>
      obtain ⟨hv0, hv1⟩ := ht
      have hd := decimal_spec v.toNat
      have hval : ((digitsValue (decimal v.toNat) : Nat) : Int) = v := by
        rw [hd.2.2]; exact Int.toNat_of_nonneg hv0
      have hc := Consume_digits k (decimal v.toNat) (render r) ty num sym hd.1 hd.2.1
        (noDigitAhead_render _ k r hokr hsep rfl) (by rw [hval]; exact hv1)
      rw [hval] at hc
      obtain ⟨tk1, h1, h2⟩ := ih hokr hsepr .kNumber (some v) sym
      refine ⟨_, by simpa [render, Token.text] using hc, ?_⟩
      simp [checkLoop, Tokenizer.GetType, Tokenizer.GetNumber, h1, h2]
    | symbol c =>
      obtain ⟨hc0, hc1⟩ := ht
      have hc := Consume_symbol k c (render r) ty num sym hc0 hc1
      obtain ⟨tk1, h1, h2⟩ := ih hokr hsepr .kSymbol num (some c)
      refine ⟨_, by simpa [render, Token.text] using hc, ?_⟩
      simp [checkLoop, Tokenizer.GetType, Tokenizer.GetSymbol, h1, h2]

/-- C7. Tokenizer round trip: for every sequence of tokens, each a number in
`[0, 2^63-1]` or a symbol that is neither a digit nor a space, spelled with any
number of spaces before each token (at least one between two adjacent numbers)
and none after the last, `CheckTokens` succeeds: a fresh tokenizer followed by
repeated `Consume` reports exactly these types and values in order and then
`kEnd`. The empty sequence is the input `""`. -/
theorem C7_tokenizer_round_trip (l : List (Nat × Token)) (hok : ∀ p ∈ l, TokenOk p.2)
    (hsep : Separated l) : CheckTokens (render l) (l.map Prod.snd) = .ok true := by
  obtain ⟨tk, h1, h2⟩ := checkLoop_render l hok hsep .kEnd none none
  simp [CheckTokens, Tokenizer.new, h1, h2]

theorem C7_tokenizer_round_trip_witness :
    CheckTokens "- 2 + 37  *5".toList
      [.symbol '-', .number 2, .symbol '+', .number 37, .symbol '*', .number 5] = .ok true :=
  C7_tokenizer_round_trip
    [(0, .symbol '-'), (1, .number 2), (1, .symbol '+'), (1, .number 37), (2, .symbol '*'),
      (0, .number 5)]
    (by
      intro p hp
      simp only [List.mem_cons, List.mem_singleton, List.not_mem_nil, or_false] at hp
      rcases hp with rfl | rfl | rfl | rfl | rfl | rfl <;> exact ⟨by decide, by decide⟩)
    (by simp [Separated, Token.isNumber])

/-! ## Spaces -/

/-- C8. Spaces are ignored: for every token sequence derived from `sum` with
literals in range, two texts that spell it and differ only in the number of
spaces before each token and after the last token give the same result of
`EvaluateExpression`, the value of the tree of the derivation. -/
theorem C8_spaces_ignored (ts : List Token) (e : Expression) (w1 w2 : List Char) (k1 k2 : Nat)
    (h : Derives .sum ts e) (h1 : Spaced ts w1) (h2 : Spaced ts w2) :
    EvaluateExpression (w1 ++ spaces k1) = EvaluateExpression (w2 ++ spaces k2) ∧
    EvaluateExpression (w1 ++ spaces k1) = e.Evaluate := by
  have p1 := parseTree_of_derives h h1 (spaces k1) (stop_spaces k1)
  have p2 := parseTree_of_derives h h2 (spaces k2) (stop_spaces k2)
  simp only [EvaluateExpression, p1, p2, and_self]

theorem C8_spaces_ignored_witness :
    EvaluateExpression "10 / 5".toList = EvaluateExpression "  10/5   ".toList ∧
    EvaluateExpression "10 / 5".toList = .ok 2 :=
  C8_spaces_ignored [.number 10, .symbol '/', .number 5]
    (.Div (.Primary 10) (.Primary 5)) "10 / 5".toList "  10/5".toList 0 3
    (derives_sum_of_product (Derives.product (derives_literal 10 (by decide))
      (Derives.div (derives_literal 5 (by decide)) (Derives.productEnd _))))
    (spaced_render [(0, .number 10), (1, .symbol '/'), (1, .number 5)])
    (spaced_render [(2, .number 10), (0, .symbol '/'), (0, .number 5)])

/-! ## Faults -/

theorem evaluate_error_of_reaches {e d : Expression} {f : Fault} (h : Reaches e d)
    (hd : d.Evaluate = .error f) : e.Evaluate = .error f := by
  induction h with
  | here e => exact hd
  | unary _ ih => simp [Expression.Evaluate, ih hd]
  | left o _ ih => cases o <;> simp [Op.node, Expression.Evaluate, ih hd]
  | right o hl _ ih => cases o <;> simp [Op.node, Expression.Evaluate, hl, ih hd]

/-- C9, as the code has it. A division by zero is undefined behaviour, not an
error value: for every tree whose evaluation reaches a `Div` node whose operands
evaluate to values, the right one to `0`, `Evaluate` has the undefined behaviour
of the native division by zero, and so has `EvaluateExpression` on every text
parsed to that tree; nothing is returned and nothing is thrown. -/
theorem C9_division_by_zero_undefined (e l r : Expression) (a : Int) (w : List Char)
    (hreach : Reaches e (.Div l r)) (hl : l.Evaluate = .ok a) (hr : r.Evaluate = .ok 0) :
    e.Evaluate = .error (.undefined .division_by_zero) ∧
    (parseTree w = .ok e → EvaluateExpression w = .error (.undefined .division_by_zero)) := by
  have hd : (Expression.Div l r).Evaluate = .error (.undefined .division_by_zero) := by
    simp [Expression.Evaluate, hl, hr]
  have he := evaluate_error_of_reaches hreach hd
  refine ⟨he, ?_⟩
  intro hp
  simp only [EvaluateExpression, hp, he]

theorem C9_division_by_zero_undefined_witness :
    (Expression.Add (.Primary 2) (.Div (.Primary 1) (.Primary 0))).Evaluate =
      .error (.undefined .division_by_zero) ∧
    EvaluateExpression "2+1/0".toList = .error (.undefined .division_by_zero) :=
  have h := C9_division_by_zero_undefined (.Add (.Primary 2) (.Div (.Primary 1) (.Primary 0)))
    (.Primary 1) (.Primary 0) 1 "2+1/0".toList
    (Reaches.right .add (v := 2) rfl (Reaches.here _)) rfl rfl
  ⟨h.1, h.2 (by decide)⟩

/-- C9 fails as stated: on `1/0` the result of `EvaluateExpression` is the
undefined behaviour of a division by zero, not a `DivisionByZero` error value. -/
theorem C9_counterexample :
    EvaluateExpression "1/0".toList = .error (.undefined .division_by_zero) ∧
    ¬ ∃ f, EvaluateExpression "1/0".toList = .error f ∧ f.reported = true := by
  have h : EvaluateExpression "1/0".toList = .error (.undefined .division_by_zero) := by decide
  refine ⟨h, ?_⟩
  rintro ⟨f, hf, hrep⟩
  rw [h] at hf
  rw [← Except.error.inj hf] at hrep
  exact absurd hrep (by decide)

theorem isdigit_op_char (o : Op) : isdigit o.char = false ∧ o.char ≠ ' ' := by
  cases o <;> exact ⟨by decide, by decide⟩

/-- A literal that overflows, reached as the right operand of an operator. -/
theorem evaluate_operand_overflow (a : Nat) (o : Op) (ds rest : List Char)
    (ha : (a : Int) ≤ LLONG_MAX)
    (hne : ds ≠ []) (hd : ∀ c ∈ ds, isdigit c = true) (hr : NoDigitAhead rest)
    (hv : LLONG_MAX < (digitsValue ds : Int)) :
    EvaluateExpression (decimal a ++ o.char :: (ds ++ rest)) = .error .out_of_range := by
  have hda := decimal_spec a
  have ho := isdigit_op_char o
  have h0 := Consume_digits 0 (decimal a) (o.char :: (ds ++ rest)) .kEnd none none hda.1 hda.2.1
    (by intro c hc; simp at hc; rw [← hc]; exact ho.1) (by rw [hda.2.2]; exact ha)
  have h1 := Consume_symbol 0 o.char (ds ++ rest) .kNumber (some (a : Int)) none ho.1 ho.2
  have h2 := Consume_digits_overflow 0 ds rest .kSymbol (some (a : Int)) (some o.char)
    hne hd hr hv
  rw [hda.2.2] at h0
  simp only [spaces, List.replicate_zero, List.nil_append] at h0 h1 h2
  have hb : budget (decimal a ++ o.char :: (ds ++ rest)) =
      4 * (decimal a ++ o.char :: (ds ++ rest)).length + 1 + 1 + 1 + 1 := rfl
  simp only [EvaluateExpression, parseTree, Tokenizer.new, h0, ParseExpression, hb, ParseAddSub,
    ParseMulDiv, ParseUnary, ParsePrimary, Tokenizer.isSymbol, Tokenizer.GetType,
    Tokenizer.GetNumber, h1]
  cases o <;>
    simp [MulDivLoop, AddSubLoop, Tokenizer.isSymbol, Tokenizer.GetType, Tokenizer.GetSymbol,
      Op.char, h2] <;>
    simp [Op.char] at h2 <;> simp [h2]

/-- C10. Literal overflow is an error: for every maximal run of decimal digits
whose value exceeds `2^63-1`, `Consume` reaching it (after any spaces, in any
state of the members) fails with `std::out_of_range` and yields no token, and
so does `EvaluateExpression` on a text that begins with it and on a text in
which it is the right operand of an operator. -/
theorem C10_literal_overflow (k : Nat) (ds rest : List Char) (ty : TokenType)
    (num : Option Int) (sym : Option Char)
    (hne : ds ≠ []) (hd : ∀ c ∈ ds, isdigit c = true) (hr : NoDigitAhead rest)
    (hv : LLONG_MAX < (digitsValue ds : Int)) :
    Tokenizer.Consume ⟨spaces k ++ (ds ++ rest), ty, num, sym⟩ = .error .out_of_range ∧
    EvaluateExpression (spaces k ++ (ds ++ rest)) = .error .out_of_range ∧
    (∀ (a : Nat) (o : Op), (a : Int) ≤ LLONG_MAX →
      EvaluateExpression (decimal a ++ o.char :: (ds ++ rest)) = .error .out_of_range) := by
  refine ⟨Consume_digits_overflow k ds rest ty num sym hne hd hr hv, ?_,
    fun a o ha => evaluate_operand_overflow a o ds rest ha hne hd hr hv⟩
  have := Consume_digits_overflow k ds rest .kEnd none none hne hd hr hv
  simp [EvaluateExpression, parseTree, Tokenizer.new, this]

theorem C10_literal_overflow_witness :
    Tokenizer.Consume ⟨"9223372036854775808".toList, .kSymbol, some 1, some '+'⟩ =
      .error .out_of_range ∧
    EvaluateExpression "9223372036854775808".toList = .error .out_of_range ∧
    EvaluateExpression "1+9223372036854775808".toList = .error .out_of_range :=
  have h := C10_literal_overflow 0 "9223372036854775808".toList [] .kSymbol (some 1) (some '+')
    (by decide) (by decide) (by intro c hc; simp at hc) (by decide)
  ⟨h.1, h.2.1, h.2.2 1 .add (by decide)⟩

/-! ## Exact evaluation -/

theorem int64_of_fits {v : Int} (h : fits v = true) : int64 v = .ok v := by
  simp only [fits, Bool.and_eq_true, decide_eq_true_eq] at h
  exact int64_ok h.1 h.2

/-- C12. Evaluation is exact in 64-bit range: for every tree whose negations
have the factor `-1`, in which no `Div` node has a right operand evaluating to
`0` and the exact value of every subexpression lies in `[-2^63, 2^63-1]`,
`Evaluate` returns the exact value of the tree. -/
theorem C12_evaluation_exact (e : Expression) (hneg : Negations e = true)
    (hrange : InRange e = true) (hdiv : NoZeroDivisor e = true) :
    e.Evaluate = .ok (exactValue e) := by
  induction e with
  | Primary value => rfl
  | Unary minus left ih =>
    simp only [Negations, InRange, NoZeroDivisor, Bool.and_eq_true, decide_eq_true_eq]
      at hneg hrange hdiv
    have h := int64_of_fits hrange.1
    simp only [exactValue] at h
    simp only [Expression.Evaluate, ih hneg.2 hrange.2 hdiv, hneg.1, mul_neg_one, h, exactValue]
  | Add left right ihl ihr =>
    simp only [Negations, InRange, NoZeroDivisor, Bool.and_eq_true] at hneg hrange hdiv
    have h := int64_of_fits hrange.1.1
    simp only [exactValue] at h
    simp only [Expression.Evaluate, ihl hneg.1 hrange.1.2 hdiv.1, ihr hneg.2 hrange.2 hdiv.2, h,
      exactValue]
  | Sub left right ihl ihr =>
    simp only [Negations, InRange, NoZeroDivisor, Bool.and_eq_true] at hneg hrange hdiv
    have h := int64_of_fits hrange.1.1
    simp only [exactValue] at h
    simp only [Expression.Evaluate, ihl hneg.1 hrange.1.2 hdiv.1, ihr hneg.2 hrange.2 hdiv.2, h,
      exactValue]
  | Mul left right ihl ihr =>
    simp only [Negations, InRange, NoZeroDivisor, Bool.and_eq_true] at hneg hrange hdiv
    have h := int64_of_fits hrange.1.1
    simp only [exactValue] at h
    simp only [Expression.Evaluate, ihl hneg.1 hrange.1.2 hdiv.1, ihr hneg.2 hrange.2 hdiv.2, h,
      exactValue]
  | Div left right ihl ihr =>
    simp only [Negations, InRange, NoZeroDivisor, Bool.and_eq_true, decide_eq_true_eq]
      at hneg hrange hdiv
    have h := int64_of_fits hrange.1.1
    simp only [exactValue] at h
    have hr := ihr hneg.2 hrange.2 hdiv.2
    have h0 : exactValue right ≠ 0 := by
      intro h0
      apply hdiv.1.1
      rw [hr, h0]
    simp only [Expression.Evaluate, ihl hneg.1 hrange.1.2 hdiv.1.2, hr, h0, if_false, h,
      exactValue]

theorem C12_evaluation_exact_witness :
    (Expression.Mul (.Mul (.Mul (.Primary 2000) (.Primary 2000)) (.Primary 2000))
      (.Primary 2000)).Evaluate = .ok 16000000000000 ∧
    ((2 : Int) ^ 31 < 16000000000000 ∧
      parseTree "2000*2000*2000*2000".toList =
        .ok (.Mul (.Mul (.Mul (.Primary 2000) (.Primary 2000)) (.Primary 2000))
          (.Primary 2000))) :=
  ⟨C12_evaluation_exact
    (.Mul (.Mul (.Mul (.Primary 2000) (.Primary 2000)) (.Primary 2000)) (.Primary 2000))
    (by decide) (by decide) (by decide), by decide, by decide⟩

/-! ## Printing and parsing -/

/-- The run of the parser on a text derived from `sum`, with the tokenizer it
leaves behind. -/
theorem parse_of_derives {ts : List Token} {e : Expression} {w : List Char}
    (h : Derives .sum ts e) (hw : Spaced ts w) (rest : List Char)
    (hr : Stop ['+', '-', '*', '/'] rest) :
    ∃ tk tk1 tk2, Tokenizer.new (w ++ rest) = .ok tk ∧
      ParseExpression (budget (w ++ rest)) tk = .ok (e, tk2) ∧
      tk1.in_ = rest ∧ Tokenizer.Consume tk1 = .ok tk2 := by
  have hlen := spaced_length hw
  obtain ⟨tk, tk1, tk2, h0, h1, h2, hp⟩ :=
    parse_derives h w rest (budget (w ++ rest)) hw hr
      (by simp only [need, budget, List.length_append]; omega) .kEnd none none
  exact ⟨tk, tk1, tk2, h0, hp, h1, h2⟩

theorem Consume_of_in_nil {tk tk1 : Tokenizer} (h : tk.in_ = [])
    (hc : Tokenizer.Consume tk = .ok tk1) : tk1 = { tk with type_ := .kEnd } := by
  obtain ⟨i, ty, num, sym⟩ := tk
  simp only at h
  subst h
  rw [Consume_nil] at hc
  exact (Except.ok.inj hc).symm

theorem tight_printTokens (e : Expression) : tight (printTokens e) = print e := by
  induction e with
  | Primary value => simp [printTokens, print, tight_cons, tight_nil, Token.text]
  | Unary minus left ih =>
    simp [printTokens, print, tight_cons, tight_nil, tight_append, Token.text, ih]
  | Add left right ihl ihr =>
    simp [printTokens, print, tight_cons, tight_nil, tight_append, Token.text, ihl, ihr]
  | Sub left right ihl ihr =>
    simp [printTokens, print, tight_cons, tight_nil, tight_append, Token.text, ihl, ihr]
  | Mul left right ihl ihr =>
    simp [printTokens, print, tight_cons, tight_nil, tight_append, Token.text, ihl, ihr]
  | Div left right ihl ihr =>
    simp [printTokens, print, tight_cons, tight_nil, tight_append, Token.text, ihl, ihr]

theorem tight_printOuterTokens (e : Expression) :
    tight (printOuterTokens e) = printOuter e := by
  cases e <;>
    simp [printOuterTokens, printOuter, tight_cons, tight_nil, tight_append, Token.text,
      tight_printTokens]

theorem derives_printTokens (e : Expression) (hneg : Negations e = true)
    (hlit : Literals e = true) : Derives .primary (printTokens e) e := by
  induction e with
  | Primary value =>
    simp only [Literals, Bool.and_eq_true, decide_eq_true_eq] at hlit
    have h := Derives.number value.toNat (by rw [Int.toNat_of_nonneg hlit.1]; exact hlit.2)
    rw [Int.toNat_of_nonneg hlit.1] at h
    exact h
  | Unary minus left ih =>
    simp only [Negations, Literals, Bool.and_eq_true, decide_eq_true_eq] at hneg hlit
    rw [hneg.1]
    exact Derives.paren (derives_sum_of_unary (Derives.neg (Derives.prim (ih hneg.2 hlit))))
  | Add left right ihl ihr =>
    simp only [Negations, Literals, Bool.and_eq_true] at hneg hlit
    have := Derives.sum (derives_product_of_unary (Derives.prim (ihl hneg.1 hlit.1)))
      (Derives.add (derives_product_of_unary (Derives.prim (ihr hneg.2 hlit.2)))
        (Derives.sumEnd _))
    exact Derives.paren (by simpa using this)
  | Sub left right ihl ihr =>
    simp only [Negations, Literals, Bool.and_eq_true] at hneg hlit
    have := Derives.sum (derives_product_of_unary (Derives.prim (ihl hneg.1 hlit.1)))
      (Derives.sub (derives_product_of_unary (Derives.prim (ihr hneg.2 hlit.2)))
        (Derives.sumEnd _))
    exact Derives.paren (by simpa using this)
  | Mul left right ihl ihr =>
    simp only [Negations, Literals, Bool.and_eq_true] at hneg hlit
    have := Derives.product (Derives.prim (ihl hneg.1 hlit.1))
      (Derives.mul (Derives.prim (ihr hneg.2 hlit.2)) (Derives.productEnd _))
    exact Derives.paren (derives_sum_of_product (by simpa using this))
  | Div left right ihl ihr =>
    simp only [Negations, Literals, Bool.and_eq_true] at hneg hlit
    have := Derives.product (Derives.prim (ihl hneg.1 hlit.1))
      (Derives.div (Derives.prim (ihr hneg.2 hlit.2)) (Derives.productEnd _))
    exact Derives.paren (derives_sum_of_product (by simpa using this))

theorem derives_printOuterTokens (e : Expression) (hneg : Negations e = true)
    (hlit : Literals e = true) : Derives .sum (printOuterTokens e) e := by
  cases e with
  | Primary value =>
    exact derives_sum_of_unary (Derives.prim (derives_printTokens _ hneg hlit))
  | Unary minus left =>
    simp only [Negations, Literals, Bool.and_eq_true, decide_eq_true_eq] at hneg hlit
    rw [hneg.1]
    exact derives_sum_of_unary
      (Derives.neg (Derives.prim (derives_printTokens left hneg.2 hlit)))
  | Add left right =>
    simp only [Negations, Literals, Bool.and_eq_true] at hneg hlit
    have := Derives.sum
      (derives_product_of_unary (Derives.prim (derives_printTokens left hneg.1 hlit.1)))
      (Derives.add
        (derives_product_of_unary (Derives.prim (derives_printTokens right hneg.2 hlit.2)))
        (Derives.sumEnd _))
    simpa [printOuterTokens] using this
  | Sub left right =>
    simp only [Negations, Literals, Bool.and_eq_true] at hneg hlit
    have := Derives.sum
      (derives_product_of_unary (Derives.prim (derives_printTokens left hneg.1 hlit.1)))
      (Derives.sub
        (derives_product_of_unary (Derives.prim (derives_printTokens right hneg.2 hlit.2)))
        (Derives.sumEnd _))
    simpa [printOuterTokens] using this
  | Mul left right =>
    simp only [Negations, Literals, Bool.and_eq_true] at hneg hlit
    have := Derives.product (Derives.prim (derives_printTokens left hneg.1 hlit.1))
      (Derives.mul (Derives.prim (derives_printTokens right hneg.2 hlit.2))
        (Derives.productEnd _))
    exact derives_sum_of_product (by simpa [printOuterTokens] using this)
  | Div left right =>
    simp only [Negations, Literals, Bool.and_eq_true] at hneg hlit
    have := Derives.product (Derives.prim (derives_printTokens left hneg.1 hlit.1))
      (Derives.div (Derives.prim (derives_printTokens right hneg.2 hlit.2))
        (Derives.productEnd _))
    exact derives_sum_of_product (by simpa [printOuterTokens] using this)

/-- The parser returns the tree and leaves the tokenizer at `kEnd` on a text,
followed by nothing, that spells a token sequence derived from `sum`. -/
theorem parse_to_end {ts : List Token} {e : Expression} {w : List Char}
    (h : Derives .sum ts e) (hw : Spaced ts w) :
    ∃ tk tk2, Tokenizer.new w = .ok tk ∧ ParseExpression (budget w) tk = .ok (e, tk2) ∧
      tk2.GetType = .kEnd := by
  obtain ⟨tk, tk1, tk2, h0, hp, h1, h2⟩ := parse_of_derives h hw [] stop_nil
  rw [List.append_nil] at h0 hp
  refine ⟨tk, tk2, h0, hp, ?_⟩
  rw [Consume_of_in_nil h1 h2]
  rfl

/-- C13. Parser round trip: for every tree built from literals in
`[0, 2^63-1]`, negations and the four binary nodes, `ParseExpression` on the
print of the tree with every negation and binary subexpression in parentheses
(the tree itself in parentheses or not) returns exactly the tree and leaves the
current token of the tokenizer at `kEnd`. -/
theorem C13_parser_round_trip (e : Expression) (hneg : Negations e = true)
    (hlit : Literals e = true) :
    (∃ tk tk2, Tokenizer.new (print e) = .ok tk ∧
      ParseExpression (budget (print e)) tk = .ok (e, tk2) ∧ tk2.GetType = .kEnd) ∧
    (∃ tk tk2, Tokenizer.new (printOuter e) = .ok tk ∧
      ParseExpression (budget (printOuter e)) tk = .ok (e, tk2) ∧ tk2.GetType = .kEnd) := by
  constructor
  · have hs := spaced_tight (printTokens e)
    rw [tight_printTokens] at hs
    exact parse_to_end
      (derives_sum_of_unary (Derives.prim (derives_printTokens e hneg hlit))) hs
  · have hs := spaced_tight (printOuterTokens e)
    rw [tight_printOuterTokens] at hs
    exact parse_to_end (derives_printOuterTokens e hneg hlit) hs

theorem C13_parser_round_trip_witness :
    (∃ tk tk2, Tokenizer.new "(1-(-(2*3)))".toList = .ok tk ∧
      ParseExpression (budget "(1-(-(2*3)))".toList) tk =
        .ok (.Sub (.Primary 1) (.Unary (-1) (.Mul (.Primary 2) (.Primary 3))), tk2) ∧
      tk2.GetType = .kEnd) ∧
    (∃ tk tk2, Tokenizer.new "1-(-(2*3))".toList = .ok tk ∧
      ParseExpression (budget "1-(-(2*3))".toList) tk =
        .ok (.Sub (.Primary 1) (.Unary (-1) (.Mul (.Primary 2) (.Primary 3))), tk2) ∧
      tk2.GetType = .kEnd) :=
  C13_parser_round_trip (.Sub (.Primary 1) (.Unary (-1) (.Mul (.Primary 2) (.Primary 3))))
    (by decide) (by decide)

/-! ## The operator loops on a token that is no operator -/

/-- C14 fails on the code. On `2*3 4` the loop of `ParseMulDiv` does not stop at
the number `4`: `GetSymbol()` is read without a test of the token type and
still holds the `*` lexed before, so the tree is `Mul(Mul(2,3),4)` and the
result `24`, not `Mul(2,3)`; on `2 3` no symbol has been lexed and the read is
of the uninitialised `symbol_`. -/
theorem C14_stale_symbol_folds :
    parseTree "2*3 4".toList = .ok (.Mul (.Mul (.Primary 2) (.Primary 3)) (.Primary 4)) ∧
    EvaluateExpression "2*3 4".toList = .ok 24 ∧
    parseTree "2+3 4".toList = .ok (.Add (.Add (.Primary 2) (.Primary 3)) (.Primary 4)) ∧
    parseTree "2 3".toList = .error (.undefined .uninitialized_read) := by
  decide

/-! ## Symbol tokens -/

/-- C15 fails on the code. On `1 ` (a literal and one space) the tokenizer
reports the number `1`, then a token of type `kSymbol` that holds the converted
`EOF`, which is no character of the input, and only then `kEnd`: `Consume`
tests for the end of the input before it skips the spaces and not after. -/
theorem C15_symbol_for_end_of_input :
    CheckTokens "1 ".toList [.number 1] = .ok false ∧
    CheckTokens "1 ".toList [.number 1, .symbol eofChar] = .ok true ∧
    eofChar ∉ "1 ".toList ∧
    (tokenizerAfter "1 ".toList 1).map (fun tk => (tk.GetType, tk.GetSymbol)) =
      .ok (.kSymbol, .ok eofChar) := by
  decide

/-! ## The end of the input -/

theorem Consume_end_in_nil {tk tk1 : Tokenizer} (h : Tokenizer.Consume tk = .ok tk1)
    (hend : tk1.type_ = .kEnd) : tk1.in_ = [] := by
  obtain ⟨i, ty, num, sym⟩ := tk
  unfold Tokenizer.Consume at h
  cases i with
  | nil =>
    simp only at h
    rw [← Except.ok.inj h]
  | cons c cs =>
    simp only at h
    split at h
    · rw [← Except.ok.inj h] at hend
      cases hend
    · split at h
      · split at h
        · rw [← Except.ok.inj h] at hend
          cases hend
        · cases h
      · rw [← Except.ok.inj h] at hend
        cases hend

theorem Consume_at_end {tk : Tokenizer} (hend : tk.type_ = .kEnd) (hin : tk.in_ = []) :
    Tokenizer.Consume tk = .ok tk := by
  obtain ⟨i, ty, num, sym⟩ := tk
  simp only at hend hin
  subst hend hin
  rfl

theorem ConsumeN_end_in_nil : ∀ (n : Nat) (tk0 tk : Tokenizer),
    (tk0.type_ = .kEnd → tk0.in_ = []) → Tokenizer.ConsumeN n tk0 = .ok tk →
    tk.type_ = .kEnd → tk.in_ = [] := by
  intro n
  induction n with
  | zero =>
    intro tk0 tk h0 h
    simp only [Tokenizer.ConsumeN] at h
    rw [← Except.ok.inj h]
    exact h0
  | succ n ih =>
    intro tk0 tk _ h
    simp only [Tokenizer.ConsumeN] at h
    cases hc : Tokenizer.Consume tk0 with
    | error e => rw [hc] at h; cases h
    | ok tk1 =>
      rw [hc] at h
      exact ih tk1 tk (Consume_end_in_nil hc) h

theorem ConsumeN_at_end (m : Nat) {tk : Tokenizer} (hend : tk.type_ = .kEnd)
    (hin : tk.in_ = []) : Tokenizer.ConsumeN m tk = .ok tk := by
  induction m with
  | zero => rfl
  | succ m ih => simp only [Tokenizer.ConsumeN, Consume_at_end hend hin, ih]

theorem ConsumeN_add : ∀ (n m : Nat) (tk0 tk : Tokenizer),
    Tokenizer.ConsumeN n tk0 = .ok tk →
    Tokenizer.ConsumeN (n + m) tk0 = Tokenizer.ConsumeN m tk := by
  intro n
  induction n with
  | zero =>
    intro m tk0 tk h
    simp only [Tokenizer.ConsumeN] at h
    rw [Nat.zero_add, Except.ok.inj h]
  | succ n ih =>
    intro m tk0 tk h
    simp only [Tokenizer.ConsumeN] at h
    have e : n + 1 + m = (n + m) + 1 := by omega
    rw [e]
    simp only [Tokenizer.ConsumeN]
    cases hc : Tokenizer.Consume tk0 with
    | error e => rw [hc] at h; cases h
    | ok tk1 =>
      rw [hc] at h
      exact ih m tk1 tk h

/-- C16. End is terminal: for every input, once the tokenizer constructed on it
has, after any number of calls of `Consume`, the token type `kEnd`, every
further call of `Consume` leaves the tokenizer as it is, the type `kEnd` and the
stored number and symbol included, so neither a number nor a symbol is reported
after `kEnd`. -/
theorem C16_end_is_terminal (input : List Char) (n m : Nat) (tk : Tokenizer)
    (h : tokenizerAfter input n = .ok tk) (hend : tk.GetType = .kEnd) :
    Tokenizer.Consume tk = .ok tk ∧ Tokenizer.ConsumeN m tk = .ok tk ∧
    tokenizerAfter input (n + m) = .ok tk := by
  simp only [tokenizerAfter] at h ⊢
  cases hn : Tokenizer.new input with
  | error e => rw [hn] at h; cases h
  | ok tk0 =>
    rw [hn] at h
    simp only at h ⊢
    have hin : tk.in_ = [] :=
      ConsumeN_end_in_nil n tk0 tk (Consume_end_in_nil hn) h hend
    refine ⟨Consume_at_end hend hin, ConsumeN_at_end m hend hin, ?_⟩
    rw [ConsumeN_add n m tk0 tk h]
    exact ConsumeN_at_end m hend hin

theorem C16_end_is_terminal_witness :
    Tokenizer.Consume ⟨[], .kEnd, some 12, some '+'⟩ = .ok ⟨[], .kEnd, some 12, some '+'⟩ ∧
    Tokenizer.ConsumeN 5 ⟨[], .kEnd, some 12, some '+'⟩ = .ok ⟨[], .kEnd, some 12, some '+'⟩ ∧
    tokenizerAfter "3+12".toList (3 + 5) = .ok ⟨[], .kEnd, some 12, some '+'⟩ :=
  C16_end_is_terminal "3+12".toList 3 5 ⟨[], .kEnd, some 12, some '+'⟩ (by decide) rfl

/-! ## Text after an unmatched closing parenthesis -/

/-- C18. Input after an unmatched closing parenthesis is ignored: for every
text `w` that spells a token sequence derived from `sum` (literals in range),
followed by any spaces, and for every text `t`, `EvaluateExpression` on the text
followed by `)` and `t` returns what it returns on the text alone, the value of
the tree; the parser returns the tree and leaves `t` unread in the tokenizer. -/
theorem C18_text_after_unmatched_paren (ts : List Token) (e : Expression)
    (w t : List Char) (k : Nat) (h : Derives .sum ts e) (hw : Spaced ts w) :
    EvaluateExpression ((w ++ spaces k) ++ ')' :: t) = EvaluateExpression (w ++ spaces k) ∧
    EvaluateExpression ((w ++ spaces k) ++ ')' :: t) = e.Evaluate ∧
    ∃ tk tk2, Tokenizer.new ((w ++ spaces k) ++ ')' :: t) = .ok tk ∧
      ParseExpression (budget ((w ++ spaces k) ++ ')' :: t)) tk = .ok (e, tk2) ∧
      tk2.in_ = t := by
  have hstop : Stop ['+', '-', '*', '/'] (spaces k ++ ')' :: t) :=
    Stop.of_symbol _ k ')' t (by decide) (by decide) (by decide)
  have p1 := parseTree_of_derives h hw (spaces k ++ ')' :: t) hstop
  have p2 := parseTree_of_derives h hw (spaces k) (stop_spaces k)
  obtain ⟨tk, tk1, tk2, h0, hp, h1, h2⟩ := parse_of_derives h hw (spaces k ++ ')' :: t) hstop
  rw [← List.append_assoc] at p1 h0 hp
  refine ⟨?_, ?_, tk, tk2, h0, hp, ?_⟩
  · simp only [EvaluateExpression, p1, p2]
  · simp only [EvaluateExpression, p1]
  · obtain ⟨i, ty, num, sym⟩ := tk1
    simp only at h1
    subst h1
    rw [Consume_symbol k ')' t ty num sym (by decide) (by decide)] at h2
    rw [← Except.ok.inj h2]

theorem C18_text_after_unmatched_paren_witness :
    EvaluateExpression "1+2 )*99999999999999999999".toList = EvaluateExpression "1+2 ".toList ∧
    EvaluateExpression "1+2 )*99999999999999999999".toList = .ok 3 ∧
    ∃ tk tk2, Tokenizer.new "1+2 )*99999999999999999999".toList = .ok tk ∧
      ParseExpression (budget "1+2 )*99999999999999999999".toList) tk =
        .ok (.Add (.Primary 1) (.Primary 2), tk2) ∧
      tk2.in_ = "*99999999999999999999".toList :=
  C18_text_after_unmatched_paren [.number 1, .symbol '+', .number 2]
    (.Add (.Primary 1) (.Primary 2)) "1+2".toList "*99999999999999999999".toList 1
    (Derives.sum (derives_product_of_unary (derives_literal 1 (by decide)))
      (Derives.add (derives_product_of_unary (derives_literal 2 (by decide)))
        (Derives.sumEnd _)))
    (spaced_tight [.number 1, .symbol '+', .number 2])

/-! ## Progress of `Consume` -/

theorem length_dropWhile_le (p : Char → Bool) (l : List Char) :
    (l.dropWhile p).length ≤ l.length :=
  (List.dropWhile_sublist p).length_le

theorem length_dropWhile_lt {p : Char → Bool} {c : Char} {cs : List Char} (h : p c = true) :
    ((c :: cs).dropWhile p).length < (c :: cs).length := by
  rw [List.dropWhile_cons_of_pos h]
  have := length_dropWhile_le p cs
  simp only [List.length_cons]
  omega

theorem Consume_progress {tk tk1 : Tokenizer} (h : Tokenizer.Consume tk = .ok tk1)
    (hin : tk.in_ ≠ []) : tk1.type_ ≠ .kEnd ∧ tk1.in_.length < tk.in_.length := by
  obtain ⟨i, ty, num, sym⟩ := tk
  unfold Tokenizer.Consume at h
  cases i with
  | nil => exact absurd rfl hin
  | cons c cs =>
    simp only at h
    have hle := length_dropWhile_le (fun c => c == ' ') (c :: cs)
    split at h
    · rw [← Except.ok.inj h]
      exact ⟨by simp, by simp⟩
    · rename_i d rest hd
      rw [hd] at hle
      simp only [List.length_cons] at hle
      split at h
      · rename_i hdig
        split at h
        · rw [← Except.ok.inj h]
          have := @length_dropWhile_lt isdigit _ rest hdig
          simp only [List.length_cons] at this ⊢
          exact ⟨by simp, by omega⟩
        · cases h
      · rw [← Except.ok.inj h]
        simp only [List.length_cons]
        exact ⟨by simp, by omega⟩

theorem Consume_settled {tk tk1 : Tokenizer} (h : Tokenizer.Consume tk = .ok tk1) :
    tk1.Settled := fun hend => Consume_end_in_nil h hend

theorem Consume_remaining_lt {tk tk1 : Tokenizer} (h : Tokenizer.Consume tk = .ok tk1)
    (hty : tk.type_ ≠ .kEnd) : tk1.remaining < tk.remaining := by
  by_cases hin : tk.in_ = []
  · rw [Consume_of_in_nil hin h]
    simp [Tokenizer.remaining, Tokenizer.pending, hin, hty]
  · have := Consume_progress h hin
    simp only [Tokenizer.remaining, Tokenizer.pending, this.1, hty, if_false]
    omega

theorem Consume_remaining_le {tk tk1 : Tokenizer} (h : Tokenizer.Consume tk = .ok tk1)
    (hs : tk.Settled) : tk1.remaining ≤ tk.remaining := by
  by_cases hty : tk.type_ = .kEnd
  · rw [Consume_at_end hty (hs hty)] at h
    rw [← Except.ok.inj h]
  · exact Nat.le_of_lt (Consume_remaining_lt h hty)

theorem Consume_ne_fuel (tk : Tokenizer) : Tokenizer.Consume tk ≠ .error .fuel := by
  obtain ⟨i, ty, num, sym⟩ := tk
  unfold Tokenizer.Consume
  cases i with
  | nil => simp
  | cons c cs =>
    simp only
    split
    · simp
    · split
      · simp only [stoll]
        split
        · simp
        · rename_i heq
          split at heq
          · cases heq
          · rw [← Except.error.inj heq]
            simp
      · simp

theorem new_remaining {input : List Char} {tk : Tokenizer}
    (h : Tokenizer.new input = .ok tk) : tk.Settled ∧ tk.remaining ≤ input.length := by
  refine ⟨Consume_settled h, ?_⟩
  unfold Tokenizer.new at h
  by_cases hin : input = []
  · have := @Consume_of_in_nil ⟨input, .kEnd, none, none⟩ tk hin h
    rw [this]
    simp [Tokenizer.remaining, Tokenizer.pending, hin]
  · have := Consume_progress h hin
    simp only [Tokenizer.remaining, Tokenizer.pending, this.1, if_false]
    simp only at this
    omega

/-! ## One step of each parsing function -/

theorem isSymbol_true {tk : Tokenizer} {c : Char} (h : tk.isSymbol c = .ok true) :
    tk.type_ = .kSymbol := by
  unfold Tokenizer.isSymbol Tokenizer.GetType at h
  by_cases ht : tk.type_ = .kSymbol
  · exact ht
  · simp [ht] at h

theorem isSymbol_ne_fuel (tk : Tokenizer) (c : Char) : tk.isSymbol c ≠ .error .fuel := by
  unfold Tokenizer.isSymbol Tokenizer.GetSymbol
  split
  · cases tk.symbol_ <;> simp
  · simp

theorem GetNumber_ne_fuel (tk : Tokenizer) : tk.GetNumber ≠ .error .fuel := by
  unfold Tokenizer.GetNumber
  cases tk.number_ <;> simp

theorem GetSymbol_ne_fuel (tk : Tokenizer) : tk.GetSymbol ≠ .error .fuel := by
  unfold Tokenizer.GetSymbol
  cases tk.symbol_ <;> simp

theorem ParsePrimary_ok {n : Nat} {tk tk9 : Tokenizer} {e : Expression}
    (h : ParsePrimary (n + 1) tk = .ok (e, tk9)) :
    (tk.type_ = .kSymbol ∧ ∃ tk1 tk2, Tokenizer.Consume tk = .ok tk1 ∧
      ParseAddSub n tk1 = .ok (e, tk2) ∧ Tokenizer.Consume tk2 = .ok tk9) ∨
    (∃ v, e = .Primary v ∧ Tokenizer.Consume tk = .ok tk9) := by
  rw [ParsePrimary] at h
  cases hs : tk.isSymbol '(' with
  | error f => rw [hs] at h; cases h
  | ok b =>
    rw [hs] at h
    cases b with
    | true =>
      simp only at h
      cases hc : tk.Consume with
      | error f => rw [hc] at h; cases h
      | ok tk1 =>
        rw [hc] at h
        simp only at h
        cases hp : ParseAddSub n tk1 with
        | error f => rw [hp] at h; cases h
        | ok r =>
          obtain ⟨res, tk2⟩ := r
          rw [hp] at h
          simp only at h
          cases hc2 : tk2.Consume with
          | error f => rw [hc2] at h; cases h
          | ok tk3 =>
            rw [hc2] at h
            simp only [Except.ok.injEq, Prod.mk.injEq] at h
            obtain ⟨rfl, rfl⟩ := h
            exact Or.inl ⟨isSymbol_true hs, tk1, tk2, rfl, hp, hc2⟩
    | false =>
      simp only at h
      cases hg : tk.GetNumber with
      | error f => rw [hg] at h; cases h
      | ok v =>
        rw [hg] at h
        simp only at h
        cases hc : tk.Consume with
        | error f => rw [hc] at h; cases h
        | ok tk1 =>
          rw [hc] at h
          simp only [Except.ok.injEq, Prod.mk.injEq] at h
          obtain ⟨rfl, rfl⟩ := h
          exact Or.inr ⟨v, rfl, rfl⟩

theorem ParsePrimary_fuel {n : Nat} {tk : Tokenizer}
    (h : ParsePrimary (n + 1) tk = .error .fuel) :
    tk.type_ = .kSymbol ∧ ∃ tk1, Tokenizer.Consume tk = .ok tk1 ∧
      ParseAddSub n tk1 = .error .fuel := by
  rw [ParsePrimary] at h
  cases hs : tk.isSymbol '(' with
  | error f =>
    rw [hs] at h
    simp only [Except.error.injEq] at h
    exact absurd (h ▸ hs) (isSymbol_ne_fuel tk '(')
  | ok b =>
    rw [hs] at h
    cases b with
    | true =>
      simp only at h
      cases hc : tk.Consume with
      | error f =>
        rw [hc] at h
        simp only [Except.error.injEq] at h
        exact absurd (h ▸ hc) (Consume_ne_fuel tk)
      | ok tk1 =>
        rw [hc] at h
        simp only at h
        cases hp : ParseAddSub n tk1 with
        | error f =>
          rw [hp] at h
          simp only [Except.error.injEq] at h
          exact ⟨isSymbol_true hs, tk1, rfl, h ▸ hp⟩
        | ok r =>
          obtain ⟨res, tk2⟩ := r
          rw [hp] at h
          simp only at h
          cases hc2 : tk2.Consume with
          | error f =>
            rw [hc2] at h
            simp only [Except.error.injEq] at h
            exact absurd (h ▸ hc2) (Consume_ne_fuel tk2)
          | ok tk3 => rw [hc2] at h; cases h
    | false =>
      simp only at h
      cases hg : tk.GetNumber with
      | error f =>
        rw [hg] at h
        simp only [Except.error.injEq] at h
        exact absurd (h ▸ hg) (GetNumber_ne_fuel tk)
      | ok v =>
        rw [hg] at h
        simp only at h
        cases hc : tk.Consume with
        | error f =>
          rw [hc] at h
          simp only [Except.error.injEq] at h
          exact absurd (h ▸ hc) (Consume_ne_fuel tk)
        | ok tk1 => rw [hc] at h; cases h

theorem ParseUnary_ok {n : Nat} {tk tk9 : Tokenizer} {e : Expression}
    (h : ParseUnary (n + 1) tk = .ok (e, tk9)) :
    (tk.type_ = .kSymbol ∧ ∃ tk1 l, Tokenizer.Consume tk = .ok tk1 ∧
      ParseUnary n tk1 = .ok (l, tk9) ∧ e = .Unary (-1) l) ∨
    ParsePrimary n tk = .ok (e, tk9) := by
  rw [ParseUnary] at h
  cases hs : tk.isSymbol '-' with
  | error f => rw [hs] at h; cases h
  | ok b =>
    rw [hs] at h
    cases b with
    | true =>
      simp only at h
      cases hc : tk.Consume with
      | error f => rw [hc] at h; cases h
      | ok tk1 =>
        rw [hc] at h
        simp only at h
        cases hp : ParseUnary n tk1 with
        | error f => rw [hp] at h; cases h
        | ok r =>
          obtain ⟨l, tk2⟩ := r
          rw [hp] at h
          simp only [Except.ok.injEq, Prod.mk.injEq] at h
          obtain ⟨rfl, rfl⟩ := h
          exact Or.inl ⟨isSymbol_true hs, tk1, l, rfl, hp, rfl⟩
    | false => exact Or.inr h

theorem ParseUnary_fuel {n : Nat} {tk : Tokenizer}
    (h : ParseUnary (n + 1) tk = .error .fuel) :
    (tk.type_ = .kSymbol ∧ ∃ tk1, Tokenizer.Consume tk = .ok tk1 ∧
      ParseUnary n tk1 = .error .fuel) ∨
    ParsePrimary n tk = .error .fuel := by
  rw [ParseUnary] at h
  cases hs : tk.isSymbol '-' with
  | error f =>
    rw [hs] at h
    simp only [Except.error.injEq] at h
    exact absurd (h ▸ hs) (isSymbol_ne_fuel tk '-')
  | ok b =>
    rw [hs] at h
    cases b with
    | true =>
      simp only at h
      cases hc : tk.Consume with
      | error f =>
        rw [hc] at h
        simp only [Except.error.injEq] at h
        exact absurd (h ▸ hc) (Consume_ne_fuel tk)
      | ok tk1 =>
        rw [hc] at h
        simp only at h
        cases hp : ParseUnary n tk1 with
        | error f =>
          rw [hp] at h
          simp only [Except.error.injEq] at h
          exact Or.inl ⟨isSymbol_true hs, tk1, rfl, h ▸ hp⟩
        | ok r =>
          obtain ⟨l, tk2⟩ := r
          rw [hp] at h
          cases h
    | false => exact Or.inr h

theorem MulDivLoop_ok {n : Nat} {left e : Expression} {tk tk9 : Tokenizer}
    (h : MulDivLoop (n + 1) left tk = .ok (e, tk9)) :
    (e = left ∧ tk9 = tk) ∨
    (tk.type_ ≠ .kEnd ∧ ∃ tk1 r tk2 left2, Tokenizer.Consume tk = .ok tk1 ∧
      ParseUnary n tk1 = .ok (r, tk2) ∧ left2.size = left.size + r.size + 1 ∧
      MulDivLoop n left2 tk2 = .ok (e, tk9)) := by
  rw [MulDivLoop] at h
  by_cases hend : tk.GetType = .kEnd
  · rw [if_pos hend] at h
    simp only [Except.ok.injEq, Prod.mk.injEq] at h
    exact Or.inl ⟨h.1.symm, h.2.symm⟩
  · rw [if_neg hend] at h
    cases hs : tk.isSymbol ')' with
    | error f => rw [hs] at h; cases h
    | ok b =>
      rw [hs] at h
      cases b with
      | true =>
        simp only [Except.ok.injEq, Prod.mk.injEq] at h
        exact Or.inl ⟨h.1.symm, h.2.symm⟩
      | false =>
        simp only at h
        cases hg : tk.GetSymbol with
        | error f => rw [hg] at h; cases h
        | ok oper =>
          rw [hg] at h
          simp only at h
          by_cases hop : oper ≠ '*' ∧ oper ≠ '/'
          · rw [if_pos hop] at h
            simp only [Except.ok.injEq, Prod.mk.injEq] at h
            exact Or.inl ⟨h.1.symm, h.2.symm⟩
          · rw [if_neg hop] at h
            cases hc : tk.Consume with
            | error f => rw [hc] at h; cases h
            | ok tk1 =>
              rw [hc] at h
              simp only at h
              cases hp : ParseUnary n tk1 with
              | error f => rw [hp] at h; cases h
              | ok r =>
                obtain ⟨right, tk2⟩ := r
                rw [hp] at h
                simp only at h
                refine Or.inr ⟨hend, tk1, right, tk2, _, rfl, hp, ?_, h⟩
                by_cases h1 : oper = '*'
                · subst h1
                  simp [Expression.size]
                · have h2 : oper = '/' := by
                    by_contra h2
                    exact hop ⟨h1, h2⟩
                  subst h2
                  simp [Expression.size]

theorem MulDivLoop_fuel {n : Nat} {left : Expression} {tk : Tokenizer}
    (h : MulDivLoop (n + 1) left tk = .error .fuel) :
    tk.type_ ≠ .kEnd ∧ ∃ tk1, Tokenizer.Consume tk = .ok tk1 ∧
      (ParseUnary n tk1 = .error .fuel ∨
        ∃ r tk2 left2, ParseUnary n tk1 = .ok (r, tk2) ∧
          MulDivLoop n left2 tk2 = .error .fuel) := by
  rw [MulDivLoop] at h
  by_cases hend : tk.GetType = .kEnd
  · rw [if_pos hend] at h
    cases h
  · rw [if_neg hend] at h
    cases hs : tk.isSymbol ')' with
    | error f =>
      rw [hs] at h
      simp only [Except.error.injEq] at h
      exact absurd (h ▸ hs) (isSymbol_ne_fuel tk ')')
    | ok b =>
      rw [hs] at h
      cases b with
      | true => cases h
      | false =>
        simp only at h
        cases hg : tk.GetSymbol with
        | error f =>
          rw [hg] at h
          simp only [Except.error.injEq] at h
          exact absurd (h ▸ hg) (GetSymbol_ne_fuel tk)
        | ok oper =>
          rw [hg] at h
          simp only at h
          by_cases hop : oper ≠ '*' ∧ oper ≠ '/'
          · rw [if_pos hop] at h
            cases h
          · rw [if_neg hop] at h
            cases hc : tk.Consume with
            | error f =>
              rw [hc] at h
              simp only [Except.error.injEq] at h
              exact absurd (h ▸ hc) (Consume_ne_fuel tk)
            | ok tk1 =>
              rw [hc] at h
              simp only at h
              cases hp : ParseUnary n tk1 with
              | error f =>
                rw [hp] at h
                simp only [Except.error.injEq] at h
                exact ⟨hend, tk1, rfl, Or.inl (h ▸ hp)⟩
              | ok r =>
                obtain ⟨right, tk2⟩ := r
                rw [hp] at h
                simp only at h
                exact ⟨hend, tk1, rfl, Or.inr ⟨right, tk2, _, hp, h⟩⟩

theorem ParseMulDiv_ok {n : Nat} {tk tk9 : Tokenizer} {e : Expression}
    (h : ParseMulDiv (n + 1) tk = .ok (e, tk9)) :
    ∃ l tk1, ParseUnary n tk = .ok (l, tk1) ∧ MulDivLoop n l tk1 = .ok (e, tk9) := by
  rw [ParseMulDiv] at h
  cases hp : ParseUnary n tk with
  | error f => rw [hp] at h; cases h
  | ok r =>
    obtain ⟨l, tk1⟩ := r
    rw [hp] at h
    exact ⟨l, tk1, rfl, h⟩

theorem ParseMulDiv_fuel {n : Nat} {tk : Tokenizer}
    (h : ParseMulDiv (n + 1) tk = .error .fuel) :
    ParseUnary n tk = .error .fuel ∨
    ∃ l tk1, ParseUnary n tk = .ok (l, tk1) ∧ MulDivLoop n l tk1 = .error .fuel := by
  rw [ParseMulDiv] at h
  cases hp : ParseUnary n tk with
  | error f =>
    rw [hp] at h
    simp only [Except.error.injEq] at h
    exact Or.inl (by rw [h])
  | ok r =>
    obtain ⟨l, tk1⟩ := r
    rw [hp] at h
    exact Or.inr ⟨l, tk1, rfl, h⟩

theorem AddSubLoop_ok {n : Nat} {left e : Expression} {tk tk9 : Tokenizer}
    (h : AddSubLoop (n + 1) left tk = .ok (e, tk9)) :
    (e = left ∧ tk9 = tk) ∨
    (tk.type_ ≠ .kEnd ∧ ∃ tk1 r tk2 left2, Tokenizer.Consume tk = .ok tk1 ∧
      ParseMulDiv n tk1 = .ok (r, tk2) ∧ left2.size = left.size + r.size + 1 ∧
      AddSubLoop n left2 tk2 = .ok (e, tk9)) := by
  rw [AddSubLoop] at h
  by_cases hend : tk.GetType = .kEnd
  · rw [if_pos hend] at h
    simp only [Except.ok.injEq, Prod.mk.injEq] at h
    exact Or.inl ⟨h.1.symm, h.2.symm⟩
  · rw [if_neg hend] at h
    cases hs : tk.isSymbol ')' with
    | error f => rw [hs] at h; cases h
    | ok b =>
      rw [hs] at h
      cases b with
      | true =>
        simp only [Except.ok.injEq, Prod.mk.injEq] at h
        exact Or.inl ⟨h.1.symm, h.2.symm⟩
      | false =>
        simp only at h
        cases hg : tk.GetSymbol with
        | error f => rw [hg] at h; cases h
        | ok oper =>
          rw [hg] at h
          simp only at h
          by_cases hop : oper ≠ '+' ∧ oper ≠ '-'
          · rw [if_pos hop] at h
            simp only [Except.ok.injEq, Prod.mk.injEq] at h
            exact Or.inl ⟨h.1.symm, h.2.symm⟩
          · rw [if_neg hop] at h
            cases hc : tk.Consume with
            | error f => rw [hc] at h; cases h
            | ok tk1 =>
              rw [hc] at h
              simp only at h
              cases hp : ParseMulDiv n tk1 with
              | error f => rw [hp] at h; cases h
              | ok r =>
                obtain ⟨right, tk2⟩ := r
                rw [hp] at h
                simp only at h
                refine Or.inr ⟨hend, tk1, right, tk2, _, rfl, hp, ?_, h⟩
                by_cases h1 : oper = '+'
                · subst h1
                  simp [Expression.size]
                · have h2 : oper = '-' := by
                    by_contra h2
                    exact hop ⟨h1, h2⟩
                  subst h2
                  simp [Expression.size]

theorem AddSubLoop_fuel {n : Nat} {left : Expression} {tk : Tokenizer}
    (h : AddSubLoop (n + 1) left tk = .error .fuel) :
    tk.type_ ≠ .kEnd ∧ ∃ tk1, Tokenizer.Consume tk = .ok tk1 ∧
      (ParseMulDiv n tk1 = .error .fuel ∨
        ∃ r tk2 left2, ParseMulDiv n tk1 = .ok (r, tk2) ∧
          AddSubLoop n left2 tk2 = .error .fuel) := by
  rw [AddSubLoop] at h
  by_cases hend : tk.GetType = .kEnd
  · rw [if_pos hend] at h
    cases h
  · rw [if_neg hend] at h
    cases hs : tk.isSymbol ')' with
    | error f =>
      rw [hs] at h
      simp only [Except.error.injEq] at h
      exact absurd (h ▸ hs) (isSymbol_ne_fuel tk ')')
    | ok b =>
      rw [hs] at h
      cases b with
      | true => cases h
      | false =>
        simp only at h
        cases hg : tk.GetSymbol with
        | error f =>
          rw [hg] at h
          simp only [Except.error.injEq] at h
          exact absurd (h ▸ hg) (GetSymbol_ne_fuel tk)
        | ok oper =>
          rw [hg] at h
          simp only at h
          by_cases hop : oper ≠ '+' ∧ oper ≠ '-'
          · rw [if_pos hop] at h
            cases h
          · rw [if_neg hop] at h
            cases hc : tk.Consume with
            | error f =>
              rw [hc] at h
              simp only [Except.error.injEq] at h
              exact absurd (h ▸ hc) (Consume_ne_fuel tk)
            | ok tk1 =>
              rw [hc] at h
              simp only at h
              cases hp : ParseMulDiv n tk1 with
              | error f =>
                rw [hp] at h
                simp only [Except.error.injEq] at h
                exact ⟨hend, tk1, rfl, Or.inl (h ▸ hp)⟩
              | ok r =>
                obtain ⟨right, tk2⟩ := r
                rw [hp] at h
                simp only at h
                exact ⟨hend, tk1, rfl, Or.inr ⟨right, tk2, _, hp, h⟩⟩

theorem ParseAddSub_ok {n : Nat} {tk tk9 : Tokenizer} {e : Expression}
    (h : ParseAddSub (n + 1) tk = .ok (e, tk9)) :
    ∃ l tk1, ParseMulDiv n tk = .ok (l, tk1) ∧ AddSubLoop n l tk1 = .ok (e, tk9) := by
  rw [ParseAddSub] at h
  cases hp : ParseMulDiv n tk with
  | error f => rw [hp] at h; cases h
  | ok r =>
    obtain ⟨l, tk1⟩ := r
    rw [hp] at h
    exact ⟨l, tk1, rfl, h⟩

theorem ParseAddSub_fuel {n : Nat} {tk : Tokenizer}
    (h : ParseAddSub (n + 1) tk = .error .fuel) :
    ParseMulDiv n tk = .error .fuel ∨
    ∃ l tk1, ParseMulDiv n tk = .ok (l, tk1) ∧ AddSubLoop n l tk1 = .error .fuel := by
  rw [ParseAddSub] at h
  cases hp : ParseMulDiv n tk with
  | error f =>
    rw [hp] at h
    simp only [Except.error.injEq] at h
    exact Or.inl (by rw [h])
  | ok r =>
    obtain ⟨l, tk1⟩ := r
    rw [hp] at h
    exact Or.inr ⟨l, tk1, rfl, h⟩

/-! ## The size of the tree and the recursion budget -/

theorem size_pos (e : Expression) : 1 ≤ e.size := by
  cases e <;> simp [Expression.size]

theorem Consume_weight_le {tk tk1 : Tokenizer} (h : Tokenizer.Consume tk = .ok tk1)
    (hs : tk.Settled) : tk1.remaining + tk1.pending ≤ tk.remaining := by
  by_cases hin : tk.in_ = []
  · rw [Consume_of_in_nil hin h]
    simp [Tokenizer.remaining, Tokenizer.pending]
  · have hp := Consume_progress h hin
    have hty : tk.type_ ≠ .kEnd := fun hend => hin (hs hend)
    simp only [Tokenizer.remaining, Tokenizer.pending, hp.1, hty, if_false]
    omega

theorem pending_le (tk : Tokenizer) : tk.pending ≤ 1 := by
  unfold Tokenizer.pending
  split <;> omega

theorem pending_of_ne_end {tk : Tokenizer} (h : tk.type_ ≠ .kEnd) : tk.pending = 1 := by
  simp [Tokenizer.pending, h]

theorem ne_end_of_symbol {tk : Tokenizer} (h : tk.type_ = .kSymbol) : tk.type_ ≠ .kEnd := by
  rw [h]; decide

/-- Every parsing function returns a tree whose size, together with what is
left for the tokenizer, is within what was left before, plus one; a loop adds to
the left operand no more than it takes from the tokenizer. -/
theorem parse_bounded : ∀ n : Nat,
    (∀ tk e tk9, tk.Settled → ParsePrimary n tk = .ok (e, tk9) →
      tk9.Settled ∧ e.size + (tk9.remaining + tk9.pending) ≤ tk.remaining + 1) ∧
    (∀ tk e tk9, tk.Settled → ParseUnary n tk = .ok (e, tk9) →
      tk9.Settled ∧ e.size + (tk9.remaining + tk9.pending) ≤ tk.remaining + 1) ∧
    (∀ left tk e tk9, tk.Settled → MulDivLoop n left tk = .ok (e, tk9) →
      tk9.Settled ∧
        e.size + (tk9.remaining + tk9.pending) ≤ left.size + (tk.remaining + tk.pending)) ∧
    (∀ tk e tk9, tk.Settled → ParseMulDiv n tk = .ok (e, tk9) →
      tk9.Settled ∧ e.size + (tk9.remaining + tk9.pending) ≤ tk.remaining + 1) ∧
    (∀ left tk e tk9, tk.Settled → AddSubLoop n left tk = .ok (e, tk9) →
      tk9.Settled ∧
        e.size + (tk9.remaining + tk9.pending) ≤ left.size + (tk.remaining + tk.pending)) ∧
    (∀ tk e tk9, tk.Settled → ParseAddSub n tk = .ok (e, tk9) →
      tk9.Settled ∧ e.size + (tk9.remaining + tk9.pending) ≤ tk.remaining + 1) := by
  intro n
  induction n with
  | zero =>
    refine ⟨?_, ?_, ?_, ?_, ?_, ?_⟩ <;> intros <;> rename_i h <;>
      simp [ParsePrimary, ParseUnary, MulDivLoop, ParseMulDiv, AddSubLoop, ParseAddSub] at h
  | succ n ih =>
    obtain ⟨ihP, ihU, ihLM, ihM, ihLA, ihA⟩ := ih
    refine ⟨?_, ?_, ?_, ?_, ?_, ?_⟩
    · intro tk e tk9 hs h
      rcases ParsePrimary_ok h with ⟨hty, tk1, tk2, hc, hp, hc2⟩ | ⟨v, rfl, hc⟩
      · have h1 := ihA tk1 e tk2 (Consume_settled hc) hp
        have h2 := Consume_weight_le hc2 h1.1
        have h3 := Consume_remaining_lt hc (ne_end_of_symbol hty)
        have h4 := pending_le tk9
        refine ⟨Consume_settled hc2, ?_⟩
        omega
      · have h2 := Consume_weight_le hc hs
        refine ⟨Consume_settled hc, ?_⟩
        simp only [Expression.size]
        omega
    · intro tk e tk9 hs h
      rcases ParseUnary_ok h with ⟨hty, tk1, l, hc, hp, rfl⟩ | hp
      · have h1 := ihU tk1 l tk9 (Consume_settled hc) hp
        have h3 := Consume_remaining_lt hc (ne_end_of_symbol hty)
        refine ⟨h1.1, ?_⟩
        simp only [Expression.size]
        omega
      · exact ihP tk e tk9 hs hp
    · intro left tk e tk9 hs h
      rcases MulDivLoop_ok h with ⟨rfl, rfl⟩ | ⟨hty, tk1, r, tk2, left2, hc, hp, hsz, hl⟩
      · exact ⟨hs, Nat.le_refl _⟩
      · have h1 := ihU tk1 r tk2 (Consume_settled hc) hp
        have h2 := ihLM left2 tk2 e tk9 h1.1 hl
        have h3 := Consume_remaining_lt hc hty
        have h4 := pending_of_ne_end hty
        refine ⟨h2.1, ?_⟩
        omega
    · intro tk e tk9 hs h
      obtain ⟨l, tk1, hp, hl⟩ := ParseMulDiv_ok h
      have h1 := ihU tk l tk1 hs hp
      have h2 := ihLM l tk1 e tk9 h1.1 hl
      refine ⟨h2.1, ?_⟩
      omega
    · intro left tk e tk9 hs h
      rcases AddSubLoop_ok h with ⟨rfl, rfl⟩ | ⟨hty, tk1, r, tk2, left2, hc, hp, hsz, hl⟩
      · exact ⟨hs, Nat.le_refl _⟩
      · have h1 := ihM tk1 r tk2 (Consume_settled hc) hp
        have h2 := ihLA left2 tk2 e tk9 h1.1 hl
        have h3 := Consume_remaining_lt hc hty
        have h4 := pending_of_ne_end hty
        refine ⟨h2.1, ?_⟩
        omega
    · intro tk e tk9 hs h
      obtain ⟨l, tk1, hp, hl⟩ := ParseAddSub_ok h
      have h1 := ihM tk l tk1 hs hp
      have h2 := ihLA l tk1 e tk9 h1.1 hl
      refine ⟨h2.1, ?_⟩
      omega

theorem ParseUnary_remaining {n : Nat} {tk tk9 : Tokenizer} {e : Expression}
    (hs : tk.Settled) (h : ParseUnary n tk = .ok (e, tk9)) :
    tk9.Settled ∧ tk9.remaining ≤ tk.remaining := by
  have h1 := (parse_bounded n).2.1 tk e tk9 hs h
  have h2 := size_pos e
  exact ⟨h1.1, by omega⟩

theorem ParseMulDiv_remaining {n : Nat} {tk tk9 : Tokenizer} {e : Expression}
    (hs : tk.Settled) (h : ParseMulDiv n tk = .ok (e, tk9)) :
    tk9.Settled ∧ tk9.remaining ≤ tk.remaining := by
  have h1 := (parse_bounded n).2.2.2.1 tk e tk9 hs h
  have h2 := size_pos e
  exact ⟨h1.1, by omega⟩

/-- A recursion budget of four units for each unit of what is left for the
tokenizer, and up to four more, is never exhausted. -/
theorem parse_fuel : ∀ n : Nat,
    (∀ tk, tk.Settled → 4 * tk.remaining + 1 ≤ n → ParsePrimary n tk ≠ .error .fuel) ∧
    (∀ tk, tk.Settled → 4 * tk.remaining + 2 ≤ n → ParseUnary n tk ≠ .error .fuel) ∧
    (∀ left tk, tk.Settled → 4 * tk.remaining + 1 ≤ n →
      MulDivLoop n left tk ≠ .error .fuel) ∧
    (∀ tk, tk.Settled → 4 * tk.remaining + 3 ≤ n → ParseMulDiv n tk ≠ .error .fuel) ∧
    (∀ left tk, tk.Settled → 4 * tk.remaining + 1 ≤ n →
      AddSubLoop n left tk ≠ .error .fuel) ∧
    (∀ tk, tk.Settled → 4 * tk.remaining + 4 ≤ n → ParseAddSub n tk ≠ .error .fuel) := by
  intro n
  induction n with
  | zero =>
    refine ⟨?_, ?_, ?_, ?_, ?_, ?_⟩ <;> intros <;> omega
  | succ n ih =>
    obtain ⟨ihP, ihU, ihLM, ihM, ihLA, ihA⟩ := ih
    refine ⟨?_, ?_, ?_, ?_, ?_, ?_⟩
    · intro tk hs hn h
      obtain ⟨hty, tk1, hc, hp⟩ := ParsePrimary_fuel h
      have h3 := Consume_remaining_lt hc (ne_end_of_symbol hty)
      exact ihA tk1 (Consume_settled hc) (by omega) hp
    · intro tk hs hn h
      rcases ParseUnary_fuel h with ⟨hty, tk1, hc, hp⟩ | hp
      · have h3 := Consume_remaining_lt hc (ne_end_of_symbol hty)
        exact ihU tk1 (Consume_settled hc) (by omega) hp
      · exact ihP tk hs (by omega) hp
    · intro left tk hs hn h
      obtain ⟨hty, tk1, hc, hp⟩ := MulDivLoop_fuel h
      have h3 := Consume_remaining_lt hc hty
      rcases hp with hp | ⟨r, tk2, left2, hp, hl⟩
      · exact ihU tk1 (Consume_settled hc) (by omega) hp
      · have h1 := ParseUnary_remaining (Consume_settled hc) hp
        exact ihLM left2 tk2 h1.1 (by omega) hl
    · intro tk hs hn h
      rcases ParseMulDiv_fuel h with hp | ⟨l, tk1, hp, hl⟩
      · exact ihU tk hs (by omega) hp
      · have h1 := ParseUnary_remaining hs hp
        exact ihLM l tk1 h1.1 (by omega) hl
    · intro left tk hs hn h
      obtain ⟨hty, tk1, hc, hp⟩ := AddSubLoop_fuel h
      have h3 := Consume_remaining_lt hc hty
      rcases hp with hp | ⟨r, tk2, left2, hp, hl⟩
      · exact ihM tk1 (Consume_settled hc) (by omega) hp
      · have h1 := ParseMulDiv_remaining (Consume_settled hc) hp
        exact ihLA left2 tk2 h1.1 (by omega) hl
    · intro tk hs hn h
      rcases ParseAddSub_fuel h with hp | ⟨l, tk1, hp, hl⟩
      · exact ihM tk hs (by omega) hp
      · have h1 := ParseMulDiv_remaining hs hp
        exact ihLA l tk1 h1.1 (by omega) hl

/-! ## The result does not depend on the recursion budget -/

/-- A parsing function that has not exhausted its budget returns the same with
one more unit. -/
theorem parse_fuel_succ : ∀ n : Nat,
    (∀ tk, ParsePrimary n tk ≠ .error .fuel → ParsePrimary (n + 1) tk = ParsePrimary n tk) ∧
    (∀ tk, ParseUnary n tk ≠ .error .fuel → ParseUnary (n + 1) tk = ParseUnary n tk) ∧
    (∀ left tk, MulDivLoop n left tk ≠ .error .fuel →
      MulDivLoop (n + 1) left tk = MulDivLoop n left tk) ∧
    (∀ tk, ParseMulDiv n tk ≠ .error .fuel → ParseMulDiv (n + 1) tk = ParseMulDiv n tk) ∧
    (∀ left tk, AddSubLoop n left tk ≠ .error .fuel →
      AddSubLoop (n + 1) left tk = AddSubLoop n left tk) ∧
    (∀ tk, ParseAddSub n tk ≠ .error .fuel → ParseAddSub (n + 1) tk = ParseAddSub n tk) := by
  intro n
  induction n with
  | zero =>
    refine ⟨?_, ?_, ?_, ?_, ?_, ?_⟩ <;> intros <;> rename_i h <;>
      simp [ParsePrimary, ParseUnary, MulDivLoop, ParseMulDiv, AddSubLoop, ParseAddSub] at h
  | succ n ih =>
    obtain ⟨ihP, ihU, ihLM, ihM, ihLA, ihA⟩ := ih
    refine ⟨?_, ?_, ?_, ?_, ?_, ?_⟩
    · intro tk h
      rw [ParsePrimary] at h
      rw [ParsePrimary, ParsePrimary]
      cases hs : tk.isSymbol '(' with
      | error f => rfl
      | ok b =>
        rw [hs] at h
        cases b with
        | false => rfl
        | true =>
          simp only at h ⊢
          cases hc : tk.Consume with
          | error f => rfl
          | ok tk1 =>
            rw [hc] at h
            simp only at h ⊢
            have hne : ParseAddSub n tk1 ≠ .error .fuel := by
              intro hf
              rw [hf] at h
              exact h rfl
            rw [ihA tk1 hne]
    · intro tk h
      rw [ParseUnary] at h
      rw [ParseUnary, ParseUnary]
      cases hs : tk.isSymbol '-' with
      | error f => rfl
      | ok b =>
        rw [hs] at h
        cases b with
        | false =>
          simp only at h ⊢
          exact ihP tk h
        | true =>
          simp only at h ⊢
          cases hc : tk.Consume with
          | error f => rfl
          | ok tk1 =>
            rw [hc] at h
            simp only at h ⊢
            have hne : ParseUnary n tk1 ≠ .error .fuel := by
              intro hf
              rw [hf] at h
              exact h rfl
            rw [ihU tk1 hne]
    · intro left tk h
      rw [MulDivLoop] at h
      rw [MulDivLoop, MulDivLoop]
      by_cases hend : tk.GetType = .kEnd
      · rw [if_pos hend, if_pos hend]
      · rw [if_neg hend] at h
        rw [if_neg hend, if_neg hend]
        cases hs : tk.isSymbol ')' with
        | error f => rfl
        | ok b =>
          rw [hs] at h
          cases b with
          | true => rfl
          | false =>
            simp only at h ⊢
            cases hg : tk.GetSymbol with
            | error f => rfl
            | ok oper =>
              rw [hg] at h
              simp only at h ⊢
              by_cases hop : oper ≠ '*' ∧ oper ≠ '/'
              · rw [if_pos hop, if_pos hop]
              · rw [if_neg hop] at h
                rw [if_neg hop, if_neg hop]
                cases hc : tk.Consume with
                | error f => rfl
                | ok tk1 =>
                  rw [hc] at h
                  simp only at h ⊢
                  have hne : ParseUnary n tk1 ≠ .error .fuel := by
                    intro hf
                    rw [hf] at h
                    exact h rfl
                  rw [ihU tk1 hne]
                  cases hp : ParseUnary n tk1 with
                  | error f => rfl
                  | ok r =>
                    obtain ⟨right, tk2⟩ := r
                    rw [hp] at h
                    simp only at h ⊢
                    exact ihLM _ tk2 h
    · intro tk h
      rw [ParseMulDiv] at h
      rw [ParseMulDiv, ParseMulDiv]
      have hne : ParseUnary n tk ≠ .error .fuel := by
        intro hf
        rw [hf] at h
        exact h rfl
      rw [ihU tk hne]
      cases hp : ParseUnary n tk with
      | error f => rfl
      | ok r =>
        obtain ⟨l, tk1⟩ := r
        rw [hp] at h
        simp only at h ⊢
        exact ihLM l tk1 h
    · intro left tk h
      rw [AddSubLoop] at h
      rw [AddSubLoop, AddSubLoop]
      by_cases hend : tk.GetType = .kEnd
      · rw [if_pos hend, if_pos hend]
      · rw [if_neg hend] at h
        rw [if_neg hend, if_neg hend]
        cases hs : tk.isSymbol ')' with
        | error f => rfl
        | ok b =>
          rw [hs] at h
          cases b with
          | true => rfl
          | false =>
            simp only at h ⊢
            cases hg : tk.GetSymbol with
            | error f => rfl
            | ok oper =>
              rw [hg] at h
              simp only at h ⊢
              by_cases hop : oper ≠ '+' ∧ oper ≠ '-'
              · rw [if_pos hop, if_pos hop]
              · rw [if_neg hop] at h
                rw [if_neg hop, if_neg hop]
                cases hc : tk.Consume with
                | error f => rfl
                | ok tk1 =>
                  rw [hc] at h
                  simp only at h ⊢
                  have hne : ParseMulDiv n tk1 ≠ .error .fuel := by
                    intro hf
                    rw [hf] at h
                    exact h rfl
                  rw [ihM tk1 hne]
                  cases hp : ParseMulDiv n tk1 with
                  | error f => rfl
                  | ok r =>
                    obtain ⟨right, tk2⟩ := r
                    rw [hp] at h
                    simp only at h ⊢
                    exact ihLA _ tk2 h
    · intro tk h
      rw [ParseAddSub] at h
      rw [ParseAddSub, ParseAddSub]
      have hne : ParseMulDiv n tk ≠ .error .fuel := by
        intro hf
        rw [hf] at h
        exact h rfl
      rw [ihM tk hne]
      cases hp : ParseMulDiv n tk with
      | error f => rfl
      | ok r =>
        obtain ⟨l, tk1⟩ := r
        rw [hp] at h
        simp only at h ⊢
        exact ihLA l tk1 h

theorem ParseAddSub_fuel_le {n : Nat} {tk : Tokenizer} (h : ParseAddSub n tk ≠ .error .fuel) :
    ∀ m, n ≤ m → ParseAddSub m tk = ParseAddSub n tk := by
  intro m hm
  induction m with
  | zero =>
    have : n = 0 := by omega
    rw [this]
  | succ m ih =>
    by_cases hnm : n = m + 1
    · rw [hnm]
    · have h1 := ih (by omega)
      rw [← h1] at h
      rw [(parse_fuel_succ m).2.2.2.2.2 tk h, h1]

/-! ## The number of calls -/

theorem ParsePrimary_calls (n : Nat) (tk : Tokenizer) :
    (callsPrimary (n + 1) tk = 1 ∧
      ∀ e tk9, ParsePrimary (n + 1) tk = .ok (e, tk9) → Tokenizer.Consume tk = .ok tk9) ∨
    (tk.type_ = .kSymbol ∧ ∃ tk1, Tokenizer.Consume tk = .ok tk1 ∧
      callsPrimary (n + 1) tk = 1 + callsAddSub n tk1 ∧
      ∀ e tk9, ParsePrimary (n + 1) tk = .ok (e, tk9) →
        ∃ tk2, ParseAddSub n tk1 = .ok (e, tk2) ∧ Tokenizer.Consume tk2 = .ok tk9) := by
  rw [ParsePrimary, callsPrimary]
  cases hs : tk.isSymbol '(' with
  | error f => exact Or.inl ⟨rfl, fun e tk9 h => by cases h⟩
  | ok b =>
    cases b with
    | false =>
      refine Or.inl ⟨rfl, fun e tk9 h => ?_⟩
      simp only at h
      cases hg : tk.GetNumber with
      | error f => rw [hg] at h; cases h
      | ok v =>
        rw [hg] at h
        simp only at h
        cases hc : tk.Consume with
        | error f => rw [hc] at h; cases h
        | ok tk1 =>
          rw [hc] at h
          simp only [Except.ok.injEq, Prod.mk.injEq] at h
          rw [h.2]
    | true =>
      simp only
      cases hc : tk.Consume with
      | error f => exact Or.inl ⟨rfl, fun e tk9 h => by cases h⟩
      | ok tk1 =>
        refine Or.inr ⟨isSymbol_true hs, tk1, rfl, rfl, fun e tk9 h => ?_⟩
        simp only at h
        cases hp : ParseAddSub n tk1 with
        | error f => rw [hp] at h; cases h
        | ok r =>
          obtain ⟨res, tk2⟩ := r
          rw [hp] at h
          simp only at h
          cases hc2 : tk2.Consume with
          | error f => rw [hc2] at h; cases h
          | ok tk3 =>
            rw [hc2] at h
            simp only [Except.ok.injEq, Prod.mk.injEq] at h
            obtain ⟨rfl, rfl⟩ := h
            exact ⟨tk2, rfl, hc2⟩

theorem ParseUnary_calls (n : Nat) (tk : Tokenizer) :
    (callsUnary (n + 1) tk = 1 ∧ ∀ e tk9, ParseUnary (n + 1) tk ≠ .ok (e, tk9)) ∨
    (tk.type_ = .kSymbol ∧ ∃ tk1, Tokenizer.Consume tk = .ok tk1 ∧
      callsUnary (n + 1) tk = 1 + callsUnary n tk1 ∧
      ∀ e tk9, ParseUnary (n + 1) tk = .ok (e, tk9) →
        ∃ l, ParseUnary n tk1 = .ok (l, tk9)) ∨
    (callsUnary (n + 1) tk = 1 + callsPrimary n tk ∧
      ParseUnary (n + 1) tk = ParsePrimary n tk) := by
  rw [ParseUnary, callsUnary]
  cases hs : tk.isSymbol '-' with
  | error f => exact Or.inl ⟨rfl, fun e tk9 h => by cases h⟩
  | ok b =>
    cases b with
    | false => exact Or.inr (Or.inr ⟨rfl, rfl⟩)
    | true =>
      simp only
      cases hc : tk.Consume with
      | error f => exact Or.inl ⟨rfl, fun e tk9 h => by cases h⟩
      | ok tk1 =>
        refine Or.inr (Or.inl ⟨isSymbol_true hs, tk1, rfl, rfl, fun e tk9 h => ?_⟩)
        simp only at h
        cases hp : ParseUnary n tk1 with
        | error f => rw [hp] at h; cases h
        | ok r =>
          obtain ⟨l, tk2⟩ := r
          rw [hp] at h
          simp only [Except.ok.injEq, Prod.mk.injEq] at h
          obtain ⟨rfl, rfl⟩ := h
          exact ⟨l, rfl⟩

theorem MulDivLoop_calls (n : Nat) (left : Expression) (tk : Tokenizer) :
    (callsMulDivLoop (n + 1) tk = 0 ∧
      ∀ e tk9, MulDivLoop (n + 1) left tk = .ok (e, tk9) → tk9 = tk) ∨
    (tk.type_ ≠ .kEnd ∧ ∃ tk1, Tokenizer.Consume tk = .ok tk1 ∧
      ((∃ f, ParseUnary n tk1 = .error f ∧ callsMulDivLoop (n + 1) tk = callsUnary n tk1 ∧
          ∀ e tk9, MulDivLoop (n + 1) left tk ≠ .ok (e, tk9)) ∨
        (∃ r tk2, ParseUnary n tk1 = .ok (r, tk2) ∧
          callsMulDivLoop (n + 1) tk = callsUnary n tk1 + callsMulDivLoop n tk2 ∧
          ∀ e tk9, MulDivLoop (n + 1) left tk = .ok (e, tk9) →
            ∃ left2, MulDivLoop n left2 tk2 = .ok (e, tk9)))) := by
  rw [MulDivLoop, callsMulDivLoop]
  by_cases hend : tk.GetType = .kEnd
  · rw [if_pos hend, if_pos hend]
    refine Or.inl ⟨rfl, fun e tk9 h => ?_⟩
    simp only [Except.ok.injEq, Prod.mk.injEq] at h
    exact h.2.symm
  · rw [if_neg hend, if_neg hend]
    cases hs : tk.isSymbol ')' with
    | error f => exact Or.inl ⟨rfl, fun e tk9 h => by cases h⟩
    | ok b =>
      cases b with
      | true =>
        refine Or.inl ⟨rfl, fun e tk9 h => ?_⟩
        simp only [Except.ok.injEq, Prod.mk.injEq] at h
        exact h.2.symm
      | false =>
        simp only
        cases hg : tk.GetSymbol with
        | error f => exact Or.inl ⟨rfl, fun e tk9 h => by cases h⟩
        | ok oper =>
          simp only
          by_cases hop : oper ≠ '*' ∧ oper ≠ '/'
          · rw [if_pos hop, if_pos hop]
            refine Or.inl ⟨rfl, fun e tk9 h => ?_⟩
            simp only [Except.ok.injEq, Prod.mk.injEq] at h
            exact h.2.symm
          · rw [if_neg hop, if_neg hop]
            cases hc : tk.Consume with
            | error f => exact Or.inl ⟨rfl, fun e tk9 h => by cases h⟩
            | ok tk1 =>
              simp only
              refine Or.inr ⟨hend, tk1, rfl, ?_⟩
              cases hp : ParseUnary n tk1 with
              | error f =>
                exact Or.inl ⟨f, rfl, rfl, fun e tk9 h => by cases h⟩
              | ok r =>
                obtain ⟨right, tk2⟩ := r
                exact Or.inr ⟨right, tk2, rfl, rfl, fun e tk9 h => ⟨_, h⟩⟩

theorem ParseMulDiv_calls (n : Nat) (tk : Tokenizer) :
    (∃ f, ParseUnary n tk = .error f ∧ callsMulDiv (n + 1) tk = 1 + callsUnary n tk ∧
      ∀ e tk9, ParseMulDiv (n + 1) tk ≠ .ok (e, tk9)) ∨
    (∃ l tk1, ParseUnary n tk = .ok (l, tk1) ∧
      callsMulDiv (n + 1) tk = 1 + callsUnary n tk + callsMulDivLoop n tk1 ∧
      ParseMulDiv (n + 1) tk = MulDivLoop n l tk1) := by
  rw [ParseMulDiv, callsMulDiv]
  cases hp : ParseUnary n tk with
  | error f => exact Or.inl ⟨f, rfl, rfl, fun e tk9 h => by cases h⟩
  | ok r =>
    obtain ⟨l, tk1⟩ := r
    exact Or.inr ⟨l, tk1, rfl, rfl, rfl⟩

theorem AddSubLoop_calls (n : Nat) (left : Expression) (tk : Tokenizer) :
    (callsAddSubLoop (n + 1) tk = 0 ∧
      ∀ e tk9, AddSubLoop (n + 1) left tk = .ok (e, tk9) → tk9 = tk) ∨
    (tk.type_ ≠ .kEnd ∧ ∃ tk1, Tokenizer.Consume tk = .ok tk1 ∧
      ((∃ f, ParseMulDiv n tk1 = .error f ∧ callsAddSubLoop (n + 1) tk = callsMulDiv n tk1 ∧
          ∀ e tk9, AddSubLoop (n + 1) left tk ≠ .ok (e, tk9)) ∨
        (∃ r tk2, ParseMulDiv n tk1 = .ok (r, tk2) ∧
          callsAddSubLoop (n + 1) tk = callsMulDiv n tk1 + callsAddSubLoop n tk2 ∧
          ∀ e tk9, AddSubLoop (n + 1) left tk = .ok (e, tk9) →
            ∃ left2, AddSubLoop n left2 tk2 = .ok (e, tk9)))) := by
  rw [AddSubLoop, callsAddSubLoop]
  by_cases hend : tk.GetType = .kEnd
  · rw [if_pos hend, if_pos hend]
    refine Or.inl ⟨rfl, fun e tk9 h => ?_⟩
    simp only [Except.ok.injEq, Prod.mk.injEq] at h
    exact h.2.symm
  · rw [if_neg hend, if_neg hend]
    cases hs : tk.isSymbol ')' with
    | error f => exact Or.inl ⟨rfl, fun e tk9 h => by cases h⟩
    | ok b =>
      cases b with
      | true =>
        refine Or.inl ⟨rfl, fun e tk9 h => ?_⟩
        simp only [Except.ok.injEq, Prod.mk.injEq] at h
        exact h.2.symm
      | false =>
        simp only
        cases hg : tk.GetSymbol with
        | error f => exact Or.inl ⟨rfl, fun e tk9 h => by cases h⟩
        | ok oper =>
          simp only
          by_cases hop : oper ≠ '+' ∧ oper ≠ '-'
          · rw [if_pos hop, if_pos hop]
            refine Or.inl ⟨rfl, fun e tk9 h => ?_⟩
            simp only [Except.ok.injEq, Prod.mk.injEq] at h
            exact h.2.symm
          · rw [if_neg hop, if_neg hop]
            cases hc : tk.Consume with
            | error f => exact Or.inl ⟨rfl, fun e tk9 h => by cases h⟩
            | ok tk1 =>
              simp only
              refine Or.inr ⟨hend, tk1, rfl, ?_⟩
              cases hp : ParseMulDiv n tk1 with
              | error f =>
                exact Or.inl ⟨f, rfl, rfl, fun e tk9 h => by cases h⟩
              | ok r =>
                obtain ⟨right, tk2⟩ := r
                exact Or.inr ⟨right, tk2, rfl, rfl, fun e tk9 h => ⟨_, h⟩⟩

theorem ParseAddSub_calls (n : Nat) (tk : Tokenizer) :
    (∃ f, ParseMulDiv n tk = .error f ∧ callsAddSub (n + 1) tk = 1 + callsMulDiv n tk ∧
      ∀ e tk9, ParseAddSub (n + 1) tk ≠ .ok (e, tk9)) ∨
    (∃ l tk1, ParseMulDiv n tk = .ok (l, tk1) ∧
      callsAddSub (n + 1) tk = 1 + callsMulDiv n tk + callsAddSubLoop n tk1 ∧
      ParseAddSub (n + 1) tk = AddSubLoop n l tk1) := by
  rw [ParseAddSub, callsAddSub]
  cases hp : ParseMulDiv n tk with
  | error f => exact Or.inl ⟨f, rfl, rfl, fun e tk9 h => by cases h⟩
  | ok r =>
    obtain ⟨l, tk1⟩ := r
    exact Or.inr ⟨l, tk1, rfl, rfl, rfl⟩

theorem ParseAddSub_remaining {n : Nat} {tk tk9 : Tokenizer} {e : Expression}
    (hs : tk.Settled) (h : ParseAddSub n tk = .ok (e, tk9)) :
    tk9.Settled ∧ tk9.remaining ≤ tk.remaining := by
  have h1 := (parse_bounded n).2.2.2.2.2 tk e tk9 hs h
  have h2 := size_pos e
  exact ⟨h1.1, by omega⟩

/-- The calls that a parsing function makes, together with four times what is
left for the tokenizer when it returns, are within four times what was left
before, plus the rank of the function; a loop makes no call beyond what it takes
from the tokenizer. -/
theorem calls_bounded : ∀ n : Nat,
    (∀ tk, tk.Settled → callsPrimary n tk ≤ 4 * tk.remaining + 1 ∧
      ∀ e tk9, ParsePrimary n tk = .ok (e, tk9) →
        callsPrimary n tk + 4 * (tk9.remaining + tk9.pending) ≤ 4 * tk.remaining + 1) ∧
    (∀ tk, tk.Settled → callsUnary n tk ≤ 4 * tk.remaining + 2 ∧
      ∀ e tk9, ParseUnary n tk = .ok (e, tk9) →
        callsUnary n tk + 4 * (tk9.remaining + tk9.pending) ≤ 4 * tk.remaining + 2) ∧
    (∀ left tk, tk.Settled → callsMulDivLoop n tk ≤ 4 * (tk.remaining + tk.pending) ∧
      ∀ e tk9, MulDivLoop n left tk = .ok (e, tk9) →
        callsMulDivLoop n tk + 4 * (tk9.remaining + tk9.pending) ≤
          4 * (tk.remaining + tk.pending)) ∧
    (∀ tk, tk.Settled → callsMulDiv n tk ≤ 4 * tk.remaining + 3 ∧
      ∀ e tk9, ParseMulDiv n tk = .ok (e, tk9) →
        callsMulDiv n tk + 4 * (tk9.remaining + tk9.pending) ≤ 4 * tk.remaining + 3) ∧
    (∀ left tk, tk.Settled → callsAddSubLoop n tk ≤ 4 * (tk.remaining + tk.pending) ∧
      ∀ e tk9, AddSubLoop n left tk = .ok (e, tk9) →
        callsAddSubLoop n tk + 4 * (tk9.remaining + tk9.pending) ≤
          4 * (tk.remaining + tk.pending)) ∧
    (∀ tk, tk.Settled → callsAddSub n tk ≤ 4 * tk.remaining + 4 ∧
      ∀ e tk9, ParseAddSub n tk = .ok (e, tk9) →
        callsAddSub n tk + 4 * (tk9.remaining + tk9.pending) ≤ 4 * tk.remaining + 4) := by
  intro n
  induction n with
  | zero =>
    refine ⟨?_, ?_, ?_, ?_, ?_, ?_⟩ <;> intros <;>
      simp [callsPrimary, callsUnary, callsMulDivLoop, callsMulDiv, callsAddSubLoop,
        callsAddSub, ParsePrimary, ParseUnary, MulDivLoop, ParseMulDiv, AddSubLoop,
        ParseAddSub]
  | succ n ih =>
    obtain ⟨ihP, ihU, ihLM, ihM, ihLA, ihA⟩ := ih
    refine ⟨?_, ?_, ?_, ?_, ?_, ?_⟩
    · intro tk hs
      rcases ParsePrimary_calls n tk with ⟨h0, hok⟩ | ⟨hty, tk1, hc, hcalls, hok⟩
      · refine ⟨by omega, fun e tk9 h => ?_⟩
        have h2 := Consume_weight_le (hok e tk9 h) hs
        omega
      · have h3 := Consume_remaining_lt hc (ne_end_of_symbol hty)
        have hop := ihA tk1 (Consume_settled hc)
        refine ⟨by omega, fun e tk9 h => ?_⟩
        obtain ⟨tk2, hp, hc2⟩ := hok e tk9 h
        have h1 := ParseAddSub_remaining (Consume_settled hc) hp
        have h5 := hop.2 e tk2 hp
        have h6 := Consume_weight_le hc2 h1.1
        omega
    · intro tk hs
      rcases ParseUnary_calls n tk with ⟨h0, hno⟩ | ⟨hty, tk1, hc, hcalls, hok⟩ | ⟨hcalls, heq⟩
      · exact ⟨by omega, fun e tk9 h => absurd h (hno e tk9)⟩
      · have h3 := Consume_remaining_lt hc (ne_end_of_symbol hty)
        have hop := ihU tk1 (Consume_settled hc)
        refine ⟨by omega, fun e tk9 h => ?_⟩
        obtain ⟨l, hp⟩ := hok e tk9 h
        have h5 := hop.2 l tk9 hp
        omega
      · have hop := ihP tk hs
        refine ⟨by omega, fun e tk9 h => ?_⟩
        rw [heq] at h
        have h5 := hop.2 e tk9 h
        omega
    · intro left tk hs
      rcases MulDivLoop_calls n left tk with ⟨h0, hok⟩ | ⟨hty, tk1, hc, hcase⟩
      · refine ⟨by omega, fun e tk9 h => ?_⟩
        rw [hok e tk9 h]
        omega
      · have h3 := Consume_remaining_lt hc hty
        have h4 := pending_of_ne_end hty
        have hop := ihU tk1 (Consume_settled hc)
        rcases hcase with ⟨f, hp, hcalls, hno⟩ | ⟨r, tk2, hp, hcalls, hok⟩
        · exact ⟨by omega, fun e tk9 h => absurd h (hno e tk9)⟩
        · have h1 := ParseUnary_remaining (Consume_settled hc) hp
          have h5 := hop.2 r tk2 hp
          have h6 := (ihLM left tk2 h1.1).1
          refine ⟨by omega, fun e tk9 h => ?_⟩
          obtain ⟨left2, hl⟩ := hok e tk9 h
          have h7 := (ihLM left2 tk2 h1.1).2 e tk9 hl
          omega
    · intro tk hs
      have hop := ihU tk hs
      rcases ParseMulDiv_calls n tk with ⟨f, hp, hcalls, hno⟩ | ⟨l, tk1, hp, hcalls, heq⟩
      · exact ⟨by omega, fun e tk9 h => absurd h (hno e tk9)⟩
      · have h1 := ParseUnary_remaining hs hp
        have h5 := hop.2 l tk1 hp
        have h6 := (ihLM l tk1 h1.1).1
        refine ⟨by omega, fun e tk9 h => ?_⟩
        rw [heq] at h
        have h7 := (ihLM l tk1 h1.1).2 e tk9 h
        omega
    · intro left tk hs
      rcases AddSubLoop_calls n left tk with ⟨h0, hok⟩ | ⟨hty, tk1, hc, hcase⟩
      · refine ⟨by omega, fun e tk9 h => ?_⟩
        rw [hok e tk9 h]
        omega
      · have h3 := Consume_remaining_lt hc hty
        have h4 := pending_of_ne_end hty
        have hop := ihM tk1 (Consume_settled hc)
        rcases hcase with ⟨f, hp, hcalls, hno⟩ | ⟨r, tk2, hp, hcalls, hok⟩
        · exact ⟨by omega, fun e tk9 h => absurd h (hno e tk9)⟩
        · have h1 := ParseMulDiv_remaining (Consume_settled hc) hp
          have h5 := hop.2 r tk2 hp
          have h6 := (ihLA left tk2 h1.1).1
          refine ⟨by omega, fun e tk9 h => ?_⟩
          obtain ⟨left2, hl⟩ := hok e tk9 h
          have h7 := (ihLA left2 tk2 h1.1).2 e tk9 hl
          omega
    · intro tk hs
      have hop := ihM tk hs
      rcases ParseAddSub_calls n tk with ⟨f, hp, hcalls, hno⟩ | ⟨l, tk1, hp, hcalls, heq⟩
      · exact ⟨by omega, fun e tk9 h => absurd h (hno e tk9)⟩
      · have h1 := ParseMulDiv_remaining hs hp
        have h5 := hop.2 l tk1 hp
        have h6 := (ihLA l tk1 h1.1).1
        refine ⟨by omega, fun e tk9 h => ?_⟩
        rw [heq] at h
        have h7 := (ihLA l tk1 h1.1).2 e tk9 h
        omega


/-! ## Termination -/

/-- C17. Parsing terminates on every input: a `Consume` shortens the unread
input or reaches `kEnd`, and for every input text on which the tokenizer can be
constructed, `ParseExpression` never exhausts the recursion budget
`4 * length + 4`, returns the same with every larger budget, makes at most
`4 * length + 4` calls of the parsing functions, and returns, when it returns a
tree, one of at most `length + 1` nodes. -/
theorem C17_parsing_terminates (input : List Char) (tk : Tokenizer)
    (hnew : Tokenizer.new input = .ok tk) :
    (∀ tk0 tk1, Tokenizer.Consume tk0 = .ok tk1 →
      tk1.in_.length < tk0.in_.length ∨ tk1.GetType = .kEnd) ∧
    ParseExpression (budget input) tk ≠ .error .fuel ∧
    (∀ fuel, budget input ≤ fuel →
      ParseExpression fuel tk = ParseExpression (budget input) tk) ∧
    callsAddSub (budget input) tk ≤ 4 * input.length + 4 ∧
    (∀ e tk9, ParseExpression (budget input) tk = .ok (e, tk9) →
      e.size ≤ input.length + 1) := by
  have hr := new_remaining hnew
  have hfuel : ParseAddSub (budget input) tk ≠ .error .fuel :=
    (parse_fuel (budget input)).2.2.2.2.2 tk hr.1 (by simp only [budget]; omega)
  refine ⟨?_, hfuel, fun fuel hle => ParseAddSub_fuel_le hfuel fuel hle, ?_, ?_⟩
  · intro tk0 tk1 hc
    by_cases hin : tk0.in_ = []
    · right
      rw [Consume_of_in_nil hin hc]
      rfl
    · exact Or.inl (Consume_progress hc hin).2
  · have := ((calls_bounded (budget input)).2.2.2.2.2 tk hr.1).1
    omega
  · intro e tk9 hp
    have := (parse_bounded (budget input)).2.2.2.2.2 tk e tk9 hr.1 hp
    omega

theorem C17_parsing_terminates_witness :
    (∀ tk0 tk1, Tokenizer.Consume tk0 = .ok tk1 →
      tk1.in_.length < tk0.in_.length ∨ tk1.GetType = .kEnd) ∧
    ParseExpression (budget "1+".toList) ⟨"+".toList, .kNumber, some 1, none⟩ ≠ .error .fuel ∧
    (∀ fuel, budget "1+".toList ≤ fuel →
      ParseExpression fuel ⟨"+".toList, .kNumber, some 1, none⟩ =
        ParseExpression (budget "1+".toList) ⟨"+".toList, .kNumber, some 1, none⟩) ∧
    callsAddSub (budget "1+".toList) ⟨"+".toList, .kNumber, some 1, none⟩ ≤
      4 * "1+".toList.length + 4 ∧
    (∀ e tk9, ParseExpression (budget "1+".toList) ⟨"+".toList, .kNumber, some 1, none⟩ =
      .ok (e, tk9) → e.size ≤ "1+".toList.length + 1) :=
  C17_parsing_terminates "1+".toList ⟨"+".toList, .kNumber, some 1, none⟩ (by decide)

/-- The two bounds are attained: `((((` makes `4 * 4 + 4` calls, and `1+` gives a
tree of `2 + 1` nodes. -/
theorem bounds_attained :
    callsAddSub (budget "((((".toList) ⟨"(((".toList, .kSymbol, none, some '('⟩ = 20 ∧
    Tokenizer.new "((((".toList = .ok ⟨"(((".toList, .kSymbol, none, some '('⟩ ∧
    (parseTree "1+".toList).map Expression.size = .ok 3 := by
  decide

/-! ## Malformed input -/

theorem derives_last {nt : NT} {ts : List Token} {e : Expression} (h : Derives nt ts e) :
    ts = [] ∨ ∃ ts0 t, ts = ts0 ++ [t] ∧ (t.isNumber = true ∨ t = .symbol ')') := by
  induction h with
  | number n hn => exact Or.inr ⟨[], _, rfl, Or.inl rfl⟩
  | paren hs ih => exact Or.inr ⟨_, _, rfl, Or.inr rfl⟩
  | neg hu ih =>
    rcases ih with h0 | ⟨ts0, t, rfl, ht⟩
    · have := derives_length hu
      simp [h0] at this
    · exact Or.inr ⟨.symbol '-' :: ts0, t, rfl, ht⟩
  | prim hp ih => exact ih
  | product hu hr ihu ihr =>
    rcases ihu with h0 | ⟨ts0, t, rfl, ht⟩
    · have := derives_length hu
      simp [h0] at this
    · rcases ihr with h1 | ⟨ts1, t1, rfl, ht1⟩
      · exact Or.inr ⟨ts0, t, by simp [h1], ht⟩
      · exact Or.inr ⟨ts0 ++ [t] ++ ts1, t1, by simp, ht1⟩
  | productEnd l => exact Or.inl rfl
  | mul hu hr ihu ihr =>
    rcases ihu with h0 | ⟨ts0, t, rfl, ht⟩
    · have := derives_length hu
      simp [h0] at this
    · rcases ihr with h1 | ⟨ts1, t1, rfl, ht1⟩
      · exact Or.inr ⟨.symbol '*' :: ts0, t, by simp [h1], ht⟩
      · exact Or.inr ⟨.symbol '*' :: (ts0 ++ [t] ++ ts1), t1, by simp, ht1⟩
  | div hu hr ihu ihr =>
    rcases ihu with h0 | ⟨ts0, t, rfl, ht⟩
    · have := derives_length hu
      simp [h0] at this
    · rcases ihr with h1 | ⟨ts1, t1, rfl, ht1⟩
      · exact Or.inr ⟨.symbol '/' :: ts0, t, by simp [h1], ht⟩
      · exact Or.inr ⟨.symbol '/' :: (ts0 ++ [t] ++ ts1), t1, by simp, ht1⟩
  | sum hu hr ihu ihr =>
    rcases ihu with h0 | ⟨ts0, t, rfl, ht⟩
    · have := derives_length hu
      simp [h0] at this
    · rcases ihr with h1 | ⟨ts1, t1, rfl, ht1⟩
      · exact Or.inr ⟨ts0, t, by simp [h1], ht⟩
      · exact Or.inr ⟨ts0 ++ [t] ++ ts1, t1, by simp, ht1⟩
  | sumEnd l => exact Or.inl rfl
  | add hu hr ihu ihr =>
    rcases ihu with h0 | ⟨ts0, t, rfl, ht⟩
    · have := derives_length hu
      simp [h0] at this
    · rcases ihr with h1 | ⟨ts1, t1, rfl, ht1⟩
      · exact Or.inr ⟨.symbol '+' :: ts0, t, by simp [h1], ht⟩
      · exact Or.inr ⟨.symbol '+' :: (ts0 ++ [t] ++ ts1), t1, by simp, ht1⟩
  | sub hu hr ihu ihr =>
    rcases ihu with h0 | ⟨ts0, t, rfl, ht⟩
    · have := derives_length hu
      simp [h0] at this
    · rcases ihr with h1 | ⟨ts1, t1, rfl, ht1⟩
      · exact Or.inr ⟨.symbol '-' :: ts0, t, by simp [h1], ht⟩
      · exact Or.inr ⟨.symbol '-' :: (ts0 ++ [t] ++ ts1), t1, by simp, ht1⟩

/-- A text that spells a token sequence derived from `sum` ends with a decimal
digit or with a closing parenthesis. -/
theorem derived_text_last {ts : List Token} {e : Expression} {w : List Char}
    (h : Derives .sum ts e) (hw : Spaced ts w) :
    ∃ c, w.getLast? = some c ∧ (isdigit c = true ∨ c = ')') := by
  rcases derives_last h with h0 | ⟨ts0, t, rfl, ht⟩
  · have := derives_length h
    simp [h0] at this
  · obtain ⟨w0, w1, rfl, _, h1⟩ := spaced_append_inv ts0 hw
    obtain ⟨k, w2, rfl, h2⟩ := spaced_cons_inv h1
    obtain rfl := spaced_nil_inv h2
    rcases ht with ht | rfl
    · cases t with
      | symbol c => simp [Token.isNumber] at ht
      | number v =>
        have hd := decimal_spec v.toNat
        obtain ⟨c, hc⟩ := Option.isSome_iff_exists.1 (List.getLast?_isSome.2 hd.1)
        obtain ⟨ys, hys⟩ := List.getLast?_eq_some_iff.1 hc
        refine ⟨c, ?_, Or.inl (hd.2.1 c (List.mem_of_getLast?_eq_some hc))⟩
        simp only [Token.text, List.append_nil, hys]
        rw [← List.append_assoc, ← List.append_assoc]
        exact List.getLast?_concat _
    · refine ⟨')', ?_, Or.inr rfl⟩
      simp only [Token.text, List.append_nil]
      rw [← List.append_assoc]
      exact List.getLast?_concat _

theorem isSymbol_error {tk : Tokenizer} {c : Char} {f : Fault}
    (h : tk.isSymbol c = .error f) : f = .undefined .uninitialized_read := by
  unfold Tokenizer.isSymbol Tokenizer.GetSymbol at h
  split at h
  · cases hsym : tk.symbol_ with
    | none =>
      rw [hsym] at h
      simp only [Except.error.injEq] at h
      exact h.symm
    | some s => rw [hsym] at h; cases h
  · cases h

/-- On an input without a decimal digit `Consume` succeeds and stores no number. -/
theorem Consume_no_digit {tk : Tokenizer} (hd : ∀ c ∈ tk.in_, isdigit c = false) :
    ∃ tk1, Tokenizer.Consume tk = .ok tk1 ∧ tk1.number_ = tk.number_ ∧
      ∀ c ∈ tk1.in_, isdigit c = false := by
  obtain ⟨i, ty, num, sym⟩ := tk
  simp only at hd
  unfold Tokenizer.Consume
  cases i with
  | nil => exact ⟨_, rfl, rfl, by simp⟩
  | cons c cs =>
    simp only
    have hsub := List.dropWhile_subset (l := c :: cs) (fun c => c == ' ')
    split
    · exact ⟨_, rfl, rfl, by simp⟩
    · rename_i d rest hdrop
      rw [hdrop] at hsub
      have hdd : isdigit d = false := hd d (hsub (by simp))
      simp only [hdd, Bool.false_eq_true, if_false]
      exact ⟨_, rfl, rfl, fun x hx => hd x (hsub (List.mem_cons_of_mem _ hx))⟩

/-- On an input without a decimal digit, with no number stored, every parsing
function reads the uninitialised `number_` or `symbol_`. -/
theorem parse_no_digit : ∀ n : Nat,
    (∀ tk, tk.number_ = none → (∀ c ∈ tk.in_, isdigit c = false) →
      ParsePrimary n tk = .error .fuel ∨
      ParsePrimary n tk = .error (.undefined .uninitialized_read)) ∧
    (∀ tk, tk.number_ = none → (∀ c ∈ tk.in_, isdigit c = false) →
      ParseUnary n tk = .error .fuel ∨
      ParseUnary n tk = .error (.undefined .uninitialized_read)) ∧
    (∀ tk, tk.number_ = none → (∀ c ∈ tk.in_, isdigit c = false) →
      ParseMulDiv n tk = .error .fuel ∨
      ParseMulDiv n tk = .error (.undefined .uninitialized_read)) ∧
    (∀ tk, tk.number_ = none → (∀ c ∈ tk.in_, isdigit c = false) →
      ParseAddSub n tk = .error .fuel ∨
      ParseAddSub n tk = .error (.undefined .uninitialized_read)) := by
  intro n
  induction n with
  | zero =>
    refine ⟨?_, ?_, ?_, ?_⟩ <;> intros <;> left <;>
      simp [ParsePrimary, ParseUnary, ParseMulDiv, ParseAddSub]
  | succ n ih =>
    obtain ⟨ihP, ihU, ihM, ihA⟩ := ih
    refine ⟨?_, ?_, ?_, ?_⟩
    · intro tk hnum hd
      rw [ParsePrimary]
      cases hs : tk.isSymbol '(' with
      | error f => right; rw [isSymbol_error hs]
      | ok b =>
        cases b with
        | true =>
          obtain ⟨tk1, hc, h1, h2⟩ := Consume_no_digit hd
          simp only [hc]
          rcases ihA tk1 (by rw [h1, hnum]) h2 with h | h <;> simp [h]
        | false =>
          right
          simp [Tokenizer.GetNumber, hnum]
    · intro tk hnum hd
      rw [ParseUnary]
      cases hs : tk.isSymbol '-' with
      | error f => right; rw [isSymbol_error hs]
      | ok b =>
        cases b with
        | true =>
          obtain ⟨tk1, hc, h1, h2⟩ := Consume_no_digit hd
          simp only [hc]
          rcases ihU tk1 (by rw [h1, hnum]) h2 with h | h <;> simp [h]
        | false => exact ihP tk hnum hd
    · intro tk hnum hd
      rw [ParseMulDiv]
      rcases ihU tk hnum hd with h | h <;> simp [h]
    · intro tk hnum hd
      rw [ParseAddSub]
      rcases ihM tk hnum hd with h | h <;> simp [h]

/-- An input without a decimal digit makes `EvaluateExpression` read the
uninitialised `number_` (or `symbol_`). -/
theorem evaluate_no_digit (input : List Char) (hd : ∀ c ∈ input, isdigit c = false) :
    EvaluateExpression input = .error (.undefined .uninitialized_read) := by
  obtain ⟨tk, hc, h1, h2⟩ := @Consume_no_digit ⟨input, .kEnd, none, none⟩ hd
  have hnew : Tokenizer.new input = .ok tk := hc
  have hr := new_remaining hnew
  have hfuel : ParseAddSub (budget input) tk ≠ .error .fuel :=
    (parse_fuel (budget input)).2.2.2.2.2 tk hr.1 (by simp only [budget]; omega)
  rcases (parse_no_digit (budget input)).2.2.2 tk h1 h2 with h | h
  · exact absurd h hfuel
  · simp [EvaluateExpression, parseTree, hnew, ParseExpression, h]

theorem derived_text_last_spaces {ts : List Token} {e : Expression} {w : List Char}
    (h : Derives .sum ts e) (hw : Spaced ts w) (k : Nat) :
    ∃ c, (w ++ spaces k).getLast? = some c ∧ (isdigit c = true ∨ c = ')' ∨ c = ' ') := by
  cases k with
  | zero =>
    obtain ⟨c, hc, hc1⟩ := derived_text_last h hw
    refine ⟨c, by simpa [spaces] using hc, ?_⟩
    rcases hc1 with h1 | h1
    · exact Or.inl h1
    · exact Or.inr (Or.inl h1)
  | succ k =>
    refine ⟨' ', ?_, Or.inr (Or.inr rfl)⟩
    rw [spaces, List.replicate_succ', ← List.append_assoc]
    exact List.getLast?_concat _

theorem derives_has_number {nt : NT} {ts : List Token} {e : Expression}
    (h : Derives nt ts e) : ts = [] ∨ ∃ v, Token.number v ∈ ts := by
  induction h with
  | number n hn => exact Or.inr ⟨n, by simp⟩
  | paren hs ih =>
    rcases ih with h0 | ⟨v, hv⟩
    · have := derives_length hs
      simp [h0] at this
    · exact Or.inr ⟨v, by simp [hv]⟩
  | neg hu ih =>
    rcases ih with h0 | ⟨v, hv⟩
    · have := derives_length hu
      simp [h0] at this
    · exact Or.inr ⟨v, by simp [hv]⟩
  | prim hp ih => exact ih
  | productEnd l => exact Or.inl rfl
  | sumEnd l => exact Or.inl rfl
  | product hu hr ihu ihr =>
    rcases ihu with h0 | ⟨v, hv⟩
    · have := derives_length hu
      simp [h0] at this
    · exact Or.inr ⟨v, by simp [hv]⟩
  | sum hu hr ihu ihr =>
    rcases ihu with h0 | ⟨v, hv⟩
    · have := derives_length hu
      simp [h0] at this
    · exact Or.inr ⟨v, by simp [hv]⟩
  | mul hu hr ihu ihr =>
    rcases ihu with h0 | ⟨v, hv⟩
    · have := derives_length hu
      simp [h0] at this
    · exact Or.inr ⟨v, by simp [hv]⟩
  | div hu hr ihu ihr =>
    rcases ihu with h0 | ⟨v, hv⟩
    · have := derives_length hu
      simp [h0] at this
    · exact Or.inr ⟨v, by simp [hv]⟩
  | add hu hr ihu ihr =>
    rcases ihu with h0 | ⟨v, hv⟩
    · have := derives_length hu
      simp [h0] at this
    · exact Or.inr ⟨v, by simp [hv]⟩
  | sub hu hr ihu ihr =>
    rcases ihu with h0 | ⟨v, hv⟩
    · have := derives_length hu
      simp [h0] at this
    · exact Or.inr ⟨v, by simp [hv]⟩

theorem spaced_text_subset {ts : List Token} {w : List Char} (hw : Spaced ts w) :
    ∀ t ∈ ts, ∀ c ∈ t.text, c ∈ w := by
  induction hw with
  | nil => intro t ht; simp at ht
  | cons k t0 _ ih =>
    intro t ht c hc
    rcases List.mem_cons.1 ht with rfl | ht
    · simp [hc]
    · have := ih t ht c hc
      simp [this]

/-- A text that spells a token sequence derived from `sum`, followed by
spaces, has a decimal digit. -/
theorem derived_text_has_digit {ts : List Token} {e : Expression} {w : List Char}
    (h : Derives .sum ts e) (hw : Spaced ts w) (k : Nat) :
    ∃ c ∈ w ++ spaces k, isdigit c = true := by
  rcases derives_has_number h with h0 | ⟨v, hv⟩
  · have := derives_length h
    simp [h0] at this
  · have hd := decimal_spec v.toNat
    obtain ⟨c, cs, hcs⟩ := List.exists_cons_of_ne_nil hd.1
    have hc : c ∈ (Token.number v).text := by simp [Token.text, hcs]
    exact ⟨c, List.mem_append_left _ (spaced_text_subset hw _ hv c hc),
      hd.2.1 c (by simp [hcs])⟩

/-- C11, as the code has it. Malformed input is not rejected with an error,
there is no `UnexpectedToken` or `EmptyInput` error: for every input text
without a decimal digit (no such text is derived from `sum`; the empty text and
`(` are among them) `EvaluateExpression` reads the uninitialised `number_`,
which is undefined behaviour, and reports no error to the caller. -/
theorem C11_malformed_input_unchecked (input : List Char)
    (hd : ∀ c ∈ input, isdigit c = false) :
    (¬ ∃ ts e w k, Derives .sum ts e ∧ Spaced ts w ∧ input = w ++ spaces k) ∧
    EvaluateExpression input = .error (.undefined .uninitialized_read) ∧
    ¬ ∃ f, EvaluateExpression input = .error f ∧ f.reported = true := by
  have he := evaluate_no_digit input hd
  refine ⟨?_, he, ?_⟩
  · rintro ⟨ts, e, w, k, hder, hw, rfl⟩
    obtain ⟨c, hc, hdig⟩ := derived_text_has_digit hder hw k
    rw [hd c hc] at hdig
    cases hdig
  · rintro ⟨f, hf, hrep⟩
    rw [he] at hf
    rw [← Except.error.inj hf] at hrep
    exact absurd hrep (by decide)

theorem C11_malformed_input_unchecked_witness :
    ((¬ ∃ ts e w k, Derives .sum ts e ∧ Spaced ts w ∧ "(".toList = w ++ spaces k) ∧
      EvaluateExpression "(".toList = .error (.undefined .uninitialized_read) ∧
      ¬ ∃ f, EvaluateExpression "(".toList = .error f ∧ f.reported = true) ∧
    ((¬ ∃ ts e w k, Derives .sum ts e ∧ Spaced ts w ∧ "".toList = w ++ spaces k) ∧
      EvaluateExpression "".toList = .error (.undefined .uninitialized_read) ∧
      ¬ ∃ f, EvaluateExpression "".toList = .error f ∧ f.reported = true) :=
  ⟨C11_malformed_input_unchecked "(".toList (by decide),
    C11_malformed_input_unchecked "".toList (by decide)⟩

/-- C11 fails as stated: the text `1+` is not derived from `sum`, and
`EvaluateExpression` returns the integer `2` on it; the empty text is not
derived from `sum`, and on it the result is the undefined behaviour of an
uninitialised read, which is no error reported to the caller. -/
theorem C11_counterexample :
    (¬ ∃ ts e w k, Derives .sum ts e ∧ Spaced ts w ∧ "1+".toList = w ++ spaces k) ∧
    EvaluateExpression "1+".toList = .ok 2 ∧
    (¬ ∃ ts e w k, Derives .sum ts e ∧ Spaced ts w ∧ "".toList = w ++ spaces k) ∧
    EvaluateExpression "".toList = .error (.undefined .uninitialized_read) ∧
    (Fault.undefined .uninitialized_read).reported = false := by
  refine ⟨?_, by decide, ?_, by decide, rfl⟩
  · rintro ⟨ts, e, w, k, hder, hw, heq⟩
    obtain ⟨c, hc, hlast⟩ := derived_text_last_spaces hder hw k
    rw [← heq] at hc
    have hc1 : c = '+' := by
      have : "1+".toList.getLast? = some '+' := by decide
      rw [this] at hc
      exact (Option.some.inj hc).symm
    subst hc1
    rcases hlast with h1 | h1 | h1 <;> revert h1 <;> decide
  · rintro ⟨ts, e, w, k, hder, hw, heq⟩
    obtain ⟨c, hc, _⟩ := derived_text_has_digit hder hw k
    rw [← heq] at hc
    simp at hc

end Calc
